import Mathlib

/-!
Shallow embedding of the dynamic memory allocator in `src/mm.c`.

Memory is modelled at the word level: `mem : Nat → Nat` maps a byte
address to the 64-bit word stored there (only 8-aligned addresses are
ever used by the code).  Payload bytes live in a separate byte map
`bytes : Nat → Nat`, used by the `memcpy`/`memset` primitives; the
allocator's metadata (headers, footers) never aliases payload bytes in
well-formed states, so the two maps are kept apart.

The segregated free lists are represented as Lean lists of block
addresses (`segList : Nat → List Nat`), one per size class, head first.
In the C code the linkage is stored inside the free blocks' payloads
(`b->un.node.next` / `prev`); `insert_head` pushes on the head and
`remove_block` splices out the (unique, in well-formed states) occurrence
of a block, which is exactly `List` cons and first-occurrence erasure.
The null pointer is the address `0`.

All functions are total; the only place the C code can loop unboundedly
on corrupt data is the checker's implicit-list walk, which therefore
takes a fuel argument.
-/

/-- Word size in bytes (`wsize` in mm.c). -/
def wsize : Nat := 8

/-- Double word size in bytes (`dsize` in mm.c). -/
def dsize : Nat := 16

/-- Minimum block size in bytes (`min_block_size` in mm.c). -/
def min_block_size : Nat := 16

/-- Heap extension granule (`chunksize = 1 << 6` in mm.c). -/
def chunksize : Nat := 64

/-- Best-fit search window (`max_search` in mm.c). -/
def max_search : Nat := 6

/-- Number of segregated size classes (`NUM_CLASSES` in mm.c). -/
def num_classes : Nat := 15

/-- `2^64`, the modulus of the machine word (`word_t` is `uint64_t`). -/
def u64 : Nat := 2 ^ 64

/-- `pack(size, alloc, prev_alloc, prev_miniblock)` from mm.c: the size
(whose low four bits are clear in every legal call) is OR-ed with the
allocated bit (bit 0), the previous-block-allocated bit (bit 1) and the
previous-block-is-mini bit (bit 2).  Since the three flag masks are 1, 2
and 4, OR-ing them into a word is the same as adding them. -/
def pack (size : Nat) (alloc prev_alloc prev_mini : Bool) : Nat :=
  size + (if alloc then 1 else 0) + (if prev_alloc then 2 else 0) +
    (if prev_mini then 4 else 0)

/-- `extract_size` from mm.c: `word & ~0xF`, i.e. the word with its low
four bits cleared. -/
def extract_size (word : Nat) : Nat := word - word % 16

/-- `extract_alloc` from mm.c: bit 0 of the word. -/
def extract_alloc (word : Nat) : Bool := word % 2 = 1

/-- `extract_prev_alloc` from mm.c: bit 1 of the word. -/
def extract_prev_alloc (word : Nat) : Bool := word / 2 % 2 = 1

/-- `extract_prev_mini` from mm.c: bit 2 of the word. -/
def extract_prev_mini (word : Nat) : Bool := word / 4 % 2 = 1

/-- `get_size(block)`: size field of the header word at address `b`. -/
def get_size (m : Nat → Nat) (b : Nat) : Nat := extract_size (m b)

/-- `get_alloc(block)`: allocated bit of the header word at address `b`. -/
def get_alloc (m : Nat → Nat) (b : Nat) : Bool := extract_alloc (m b)

/-- `get_prev_alloc(block)`. -/
def get_prev_alloc (m : Nat → Nat) (b : Nat) : Bool := extract_prev_alloc (m b)

/-- `get_prev_mini(block)`. -/
def get_prev_mini (m : Nat → Nat) (b : Nat) : Bool := extract_prev_mini (m b)

/-- `payload_to_header(bp) = bp - offsetof(block_t, un)`; the header is
one word before the payload. -/
def payload_to_header (bp : Nat) : Nat := bp - wsize

/-- `header_to_payload(block)`. -/
def header_to_payload (b : Nat) : Nat := b + wsize

/-- `header_to_footer(block) = block->un.payload + get_size(block) - dsize`:
the footer word sits in the last word of the block. -/
def header_to_footer (m : Nat → Nat) (b : Nat) : Nat :=
  b + wsize + get_size m b - dsize

/-- `get_payload_size(block) = get_size(block) - wsize`. -/
def get_payload_size (m : Nat → Nat) (b : Nat) : Nat := get_size m b - wsize

/-- `footer_to_header(footer)`: subtract the size recorded in the footer
and add back `wsize`; a zero-size footer (the prologue) is returned
unchanged. -/
def footer_to_header (m : Nat → Nat) (footer : Nat) : Nat :=
  if extract_size (m footer) = 0 then footer
  else footer + wsize - extract_size (m footer)

/-- `find_next(block) = block + get_size(block)`. -/
def find_next (m : Nat → Nat) (b : Nat) : Nat := b + get_size m b

/-- `find_prev(block)`: a mini predecessor (per the prev-mini flag) sits
`min_block_size` bytes before; otherwise the previous block's footer, one
word before the header, gives its size. -/
def find_prev (m : Nat → Nat) (b : Nat) : Nat :=
  if get_prev_mini m b then b - min_block_size
  else footer_to_header m (b - wsize)

/-- `round_up(size, n)` from mm.c; the additions and the final
multiplication are `size_t` arithmetic, hence reduced mod `2^64`. -/
def round_up (size n : Nat) : Nat := n * ((size + (n - 1)) % u64 / n) % u64

/-- `max(x, y)` from mm.c. -/
def cmax (x y : Nat) : Nat := if x > y then x else y

/-- `get_class(sz)` from mm.c: index of the segregated list whose size
class contains `sz`, via the fixed boundary table
16, 32, 48, 64, 80, 112, 160, 208, 272, 480, 800, 1728, 3232, 5536, 18736. -/
def get_class (sz : Nat) : Nat :=
  if 16 ≤ sz ∧ sz < 32 then 0
  else if 32 ≤ sz ∧ sz < 48 then 1
  else if 48 ≤ sz ∧ sz < 64 then 2
  else if 64 ≤ sz ∧ sz < 80 then 3
  else if 80 ≤ sz ∧ sz < 112 then 4
  else if 112 ≤ sz ∧ sz < 160 then 5
  else if 160 ≤ sz ∧ sz < 208 then 6
  else if 208 ≤ sz ∧ sz < 272 then 7
  else if 272 ≤ sz ∧ sz < 480 then 8
  else if 480 ≤ sz ∧ sz < 800 then 9
  else if 800 ≤ sz ∧ sz < 1728 then 10
  else if 1728 ≤ sz ∧ sz < 3232 then 11
  else if 3232 ≤ sz ∧ sz < 5536 then 12
  else if 5536 ≤ sz ∧ sz < 18736 then 13
  else 14

/-- Allocator state: word memory, payload byte memory, the 15 segregated
free-list heads (as lists of block addresses), the `heap_start` global
(0 = NULL), and the heap-provider state: `lo` (`mem_heap_lo()`), the
break pointer `brk` (so `mem_heap_hi() = brk - 1`) and the provider's
capacity `hiLimit` (beyond which `mem_sbrk` fails). -/
structure AState where
  mem : Nat → Nat
  bytes : Nat → Nat
  segList : Nat → List Nat
  heapStart : Nat
  lo : Nat
  brk : Nat
  hiLimit : Nat

/-- Write the word `v` at address `a`. -/
def wset (m : Nat → Nat) (a v : Nat) : Nat → Nat :=
  fun x => if x = a then v else m x

/-- `mem_sbrk(n)`: grow the heap by `n` bytes, returning the old break,
or fail when the provider's capacity is exceeded. -/
def mem_sbrk (st : AState) (n : Nat) : Option Nat × AState :=
  if st.brk + n > st.hiLimit then (none, st)
  else (some st.brk, { st with brk := st.brk + n })

/-- `write_block(block, size, alloc, prev_alloc, prev_mini)`: write the
packed header; a free block of nonzero size also gets a footer (located
via `header_to_footer`, which reads the just-written header). -/
def write_block (st : AState) (b size : Nat) (alloc prev_alloc prev_mini : Bool) :
    AState :=
  let m1 := wset st.mem b (pack size alloc prev_alloc prev_mini)
  if alloc = false ∧ size ≠ 0 then
    let m2 := wset m1 (header_to_footer m1 b) (pack size alloc prev_alloc prev_mini)
    { st with mem := m2 }
  else
    { st with mem := m1 }

/-- `write_epilogue(block)`: size 0, allocated, prev flags clear. -/
def write_epilogue (st : AState) (b : Nat) : AState :=
  { st with mem := wset st.mem b (pack 0 true false false) }

/-- First-occurrence erasure, the effect of the `remove_block` splice of
mm.c on the list of blocks (mini lists scan from the head, non-mini
lists splice in O(1); on a well-formed list both remove exactly the one
occurrence of `b`). -/
def erase_first : List Nat → Nat → List Nat
  | [], _ => []
  | x :: xs, b => if x = b then xs else x :: erase_first xs b

/-- `insert_head(&seg_list[cls], b)`: push `b` on the head of class
`cls` (both the mini singly-linked and the standard doubly-linked
branches of mm.c put `b` first). -/
def insert_head (st : AState) (cls b : Nat) : AState :=
  { st with segList := fun k => if k = cls then b :: st.segList cls else st.segList k }

/-- `remove_block(&seg_list[cls], b)`. -/
def remove_block (st : AState) (cls b : Nat) : AState :=
  { st with segList := fun k => if k = cls then erase_first (st.segList cls) b
      else st.segList k }

/-- The shared tail of `coalesce_block`: rewrite the header of the
block following the surviving block, preserving its size and allocated
bit while clearing prev-allocated and setting prev-mini to whether the
surviving block is mini, and return the surviving block. -/
def coalesce_tail (st : AState) (block1 next1 : Nat) : AState × Nat :=
  (write_block st next1 (get_size st.mem next1) (get_alloc st.mem next1) false
    (decide (get_size st.mem block1 = min_block_size)), block1)

/-- `coalesce_block(block)` from mm.c: four cases on the prev-allocated
flag of `block` and the allocated bit of the next block in the heap;
merged neighbours are spliced out of their lists, the surviving block is
rewritten (header and footer) and inserted at the head of the class of
its new size, and finally the header of the block after the surviving
block is rewritten with prev-allocated false and prev-mini set to
whether the surviving block is mini.  Returns the new state and the
surviving block. -/
def coalesce_block (st : AState) (block : Nat) : AState × Nat :=
  let next_block := find_next st.mem block
  let prev_alloc := get_prev_alloc st.mem block
  let next_alloc := get_alloc st.mem next_block
  let curr_size := get_size st.mem block
  let step : AState × Nat × Nat :=
    if prev_alloc ∧ next_alloc then
      -- Case 1: prev and next are allocated
      (insert_head st (get_class curr_size) block, block, next_block)
    else if prev_alloc ∧ next_alloc = false then
      -- Case 2: next is free
      let next_block_size := get_size st.mem next_block
      let st1 := remove_block st (get_class next_block_size) next_block
      let new_size := curr_size + next_block_size
      let st2 := write_block st1 block new_size false true (get_prev_mini st1.mem block)
      let st3 := insert_head st2 (get_class new_size) block
      (st3, block, find_next st3.mem block)
    else if prev_alloc = false ∧ next_alloc then
      -- Case 3: prev is free
      let prev_block := find_prev st.mem block
      let prev_block_size := get_size st.mem prev_block
      let st1 := remove_block st (get_class prev_block_size) prev_block
      let new_size := curr_size + prev_block_size
      let st2 := write_block st1 prev_block new_size false
        (get_prev_alloc st1.mem prev_block) (get_prev_mini st1.mem prev_block)
      let st3 := insert_head st2 (get_class new_size) prev_block
      (st3, prev_block, find_next st3.mem prev_block)
    else
      -- Case 4: prev and next are free
      let prev_block := find_prev st.mem block
      let next_block_size := get_size st.mem next_block
      let prev_block_size := get_size st.mem prev_block
      let st1 := remove_block st (get_class next_block_size) next_block
      let st2 := remove_block st1 (get_class prev_block_size) prev_block
      let new_size := curr_size + prev_block_size + next_block_size
      let st3 := write_block st2 prev_block new_size false
        (get_prev_alloc st2.mem prev_block) (get_prev_mini st2.mem prev_block)
      let st4 := insert_head st3 (get_class new_size) prev_block
      (st4, prev_block, find_next st4.mem prev_block)
  coalesce_tail step.1 step.2.1 step.2.2

/-- `extend_heap(size)` from mm.c: round the request up to an alignment
multiple, `mem_sbrk`, overwrite the old epilogue with the new free
block's header (inheriting the old epilogue's prev flags), write a fresh
epilogue, and coalesce. -/
def extend_heap (st : AState) (size : Nat) : Option Nat × AState :=
  let size := round_up size dsize
  match mem_sbrk st size with
  | (none, st') => (none, st')
  | (some bp, st') =>
    let block := payload_to_header bp
    let st1 := write_block st' block size false (get_prev_alloc st'.mem block)
      (get_prev_mini st'.mem block)
    let st2 := write_epilogue st1 (find_next st1.mem block)
    let r := coalesce_block st2 block
    (some r.2, r.1)

/-- `split_block(block, asize)` from mm.c: remove the (just allocated)
block from its class; when the slack is at least a minimum block,
rewrite the block to size `asize`, create a free remainder after it,
insert the remainder into its class and fix the following block's prev
flags; otherwise only fix the following block's prev flags. -/
def split_block (st : AState) (block asize : Nat) : AState :=
  let block_size := get_size st.mem block
  let st1 := remove_block st (get_class block_size) block
  if min_block_size ≤ block_size - asize then
    let st2 := write_block st1 block asize true (get_prev_alloc st1.mem block)
      (get_prev_mini st1.mem block)
    let block_next := find_next st2.mem block
    let split_size := block_size - asize
    let st3 := write_block st2 block_next split_size false true
      (decide (asize = min_block_size))
    let st4 := insert_head st3 (get_class split_size) block_next
    let bn2 := find_next st4.mem block_next
    write_block st4 bn2 (get_size st4.mem bn2) (get_alloc st4.mem bn2) false
      (decide (split_size = min_block_size))
  else
    let block_next := find_next st1.mem block
    write_block st1 block_next (get_size st1.mem block_next)
      (get_alloc st1.mem block_next) true (decide (block_size = min_block_size))

/-- Inner list scan of `find_fit`: walk one class's list tracking the
best (smallest) block of size at least `asize` and the number of
candidates seen; examining the `max_search`-th candidate returns early
(third component true). -/
def ff_scan (m : Nat → Nat) (asize : Nat) :
    List Nat → Option Nat → Nat → Option Nat × Nat × Bool
  | [], better_fit, count => (better_fit, count, false)
  | b :: rest, better_fit, count =>
    let better_fit1 :=
      if asize ≤ get_size m b then
        match better_fit with
        | none => some b
        | some c => if get_size m b < get_size m c then some b else some c
      else better_fit
    let count1 := if asize ≤ get_size m b then count + 1 else count
    if max_search ≤ count1 then (better_fit1, count1, true)
    else ff_scan m asize rest better_fit1 count1

/-- Outer loop of `find_fit`: try classes `cls, cls+1, ...` while fewer
than `num_classes` have been visited and no fit was found. -/
def ff_go (st : AState) (asize : Nat) : Nat → Nat → Option Nat → Nat → Option Nat
  | _, 0, better_fit, _ => better_fit
  | cls, rem + 1, better_fit, count =>
    match better_fit with
    | some b => some b
    | none =>
      let r := ff_scan st.mem asize (st.segList cls) none count
      if r.2.2 then r.1 else ff_go st asize (cls + 1) rem r.1 r.2.1

/-- `find_fit(asize)` from mm.c: best-fit approximation over the
segregated lists starting at `get_class asize`. -/
def find_fit (st : AState) (asize : Nat) : Option Nat :=
  ff_go st asize (get_class asize) (num_classes - get_class asize) none 0

/-- `mm_init()` from mm.c: obtain two words, write prologue and
epilogue, point `heap_start` at the epilogue word, clear the segregated
lists and extend by `chunksize`. -/
def mm_init (st : AState) : Bool × AState :=
  match mem_sbrk st (2 * wsize) with
  | (none, st') => (false, st')
  | (some start, st') =>
    let st1 :=
      { st' with
        mem := wset (wset st'.mem start (pack 0 true true false)) (start + wsize)
          (pack 0 true true false),
        heapStart := start + wsize,
        segList := fun _ => [] }
    match extend_heap st1 chunksize with
    | (none, st2) => (false, st2)
    | (some _, st2) => (true, st2)

/-- The adjusted block size computed by `malloc`:
`round_up(size + wsize, dsize)` (in wrapping `size_t` arithmetic),
raised to `min_block_size` when smaller. -/
def malloc_asize (size : Nat) : Nat :=
  let asize := round_up ((size + wsize) % u64) dsize
  if asize < min_block_size then min_block_size else asize

/-- Tail of `malloc` once a free block is in hand: mark it allocated
(preserving its prev flags), split, and return the payload pointer. -/
def malloc_place (st : AState) (block asize : Nat) : Option Nat × AState :=
  let block_size := get_size st.mem block
  let st1 := write_block st block block_size true (get_prev_alloc st.mem block)
    (get_prev_mini st.mem block)
  let st2 := split_block st1 block asize
  (some (header_to_payload block), st2)

/-- `malloc(size)` from mm.c (aliased to `mm_malloc` by the driver). -/
def mm_malloc (st : AState) (size : Nat) : Option Nat × AState :=
  let init : Bool × AState :=
    if st.heapStart = 0 then mm_init st else (true, st)
  match init with
  | (false, stI) => (none, stI)
  | (true, stI) =>
    if size = 0 then (none, stI)
    else
      let asize := malloc_asize size
      match find_fit stI asize with
      | some block => malloc_place stI block asize
      | none =>
        let extendsize := cmax asize chunksize
        match extend_heap stI extendsize with
        | (none, st2) => (none, st2)
        | (some block, st2) => malloc_place st2 block asize

/-- `free(bp)` from mm.c (aliased to `mm_free`): null is a no-op;
otherwise rewrite the block's header (and footer) as free, preserving
its prev flags, and coalesce. -/
def mm_free (st : AState) (bp : Nat) : AState :=
  if bp = 0 then st
  else
    let block := payload_to_header bp
    let size := get_size st.mem block
    let st1 := write_block st block size false (get_prev_alloc st.mem block)
      (get_prev_mini st.mem block)
    (coalesce_block st1 block).1

/-- `mem_memcpy(dst, src, n)`: copy `n` payload bytes. -/
def mem_memcpy (st : AState) (dst src n : Nat) : AState :=
  { st with bytes := fun a =>
      if dst ≤ a ∧ a < dst + n then st.bytes (src + (a - dst)) else st.bytes a }

/-- `mem_memset(dst, v, n)`: fill `n` payload bytes with `v`. -/
def mem_memset (st : AState) (dst v n : Nat) : AState :=
  { st with bytes := fun a =>
      if dst ≤ a ∧ a < dst + n then v else st.bytes a }

/-- `realloc(ptr, size)` from mm.c: size 0 frees; null pointer mallocs;
otherwise malloc a new block, copy `min(size, old payload size)` bytes
and free the old block (the old block is untouched if malloc fails). -/
def mm_realloc (st : AState) (ptr size : Nat) : Option Nat × AState :=
  let block := payload_to_header ptr
  if size = 0 then (none, mm_free st ptr)
  else if ptr = 0 then mm_malloc st size
  else
    match mm_malloc st size with
    | (none, st1) => (none, st1)
    | (some newptr, st1) =>
      let copysize := get_payload_size st1.mem block
      let copysize := if size < copysize then size else copysize
      let st2 := mem_memcpy st1 newptr ptr copysize
      let st3 := mm_free st2 ptr
      (some newptr, st3)

/-- `calloc(elements, size)` from mm.c: zero elements yields null; a
wrapped product (detected by dividing back) yields null; otherwise
malloc and zero-fill `elements * size` bytes. -/
def mm_calloc (st : AState) (elements size : Nat) : Option Nat × AState :=
  let asize := elements * size % u64
  if elements = 0 then (none, st)
  else if asize / elements ≠ size then (none, st)
  else
    match mm_malloc st asize with
    | (none, st1) => (none, st1)
    | (some bp, st1) => (some bp, mem_memset st1 bp 0 asize)

/-- `mem_heap_hi()`: the last valid heap byte. -/
def mem_heap_hi (st : AState) : Nat := st.brk - 1

/-- `mem_heap_lo()`. -/
def mem_heap_lo (st : AState) : Nat := st.lo

/-- `check_block(block)` from mm.c.  The first test transliterates
`if (!(size_t)block % dsize)` literally: C precedence applies `!` before
`%`, so the tested value is `(block == 0 ? 1 : 0) % 16`, which is
nonzero only for the null address. -/
def check_block (st : AState) (block : Nat) : Bool :=
  if (if block = 0 then 1 else 0) % dsize ≠ 0 then false
  else if ¬ (block > mem_heap_lo st ∧ block < mem_heap_hi st) then false
  else if get_size st.mem block < min_block_size then false
  else if get_alloc st.mem block = false then
    if get_size st.mem block ≠ min_block_size ∧
        get_size st.mem block ≠ extract_size (st.mem (header_to_footer st.mem block)) then
      false
    else if get_size st.mem block ≠ min_block_size ∧
        get_alloc st.mem block ≠ extract_alloc (st.mem (header_to_footer st.mem block)) then
      false
    else if get_prev_alloc st.mem block = false then false
    else if get_alloc st.mem (find_next st.mem block) = false then false
    else true
  else true

/-- One class of `check_free_list` from mm.c: every list entry must be
free, belong to this class and lie inside the heap; the traversal
accumulates the block count and total size into the two accumulators.
(The doubly-linked next/prev pointer consistency check of the C code is
about the in-block linkage, which this list-level model represents
implicitly.) -/
def check_free_list (st : AState) (cls : Nat) :
    List Nat → Nat → Nat → Option (Nat × Nat)
  | [], num_blocks, total_size => some (num_blocks, total_size)
  | s :: rest, num_blocks, total_size =>
    if get_alloc st.mem s then none
    else if get_class (get_size st.mem s) ≠ cls then none
    else if ¬ (s > mem_heap_lo st ∧ s < mem_heap_hi st) then none
    else check_free_list st cls rest (num_blocks + 1) (total_size + get_size st.mem s)

/-- The implicit-list traversal of `mm_checkheap`: visit blocks from
`heap_start` until a zero-size word (the epilogue), checking each block
and the prev-allocated / prev-mini agreement with the block before it,
and counting free blocks and their total size.  Returns the epilogue
address and the two counters, or `none` on a failed check (or exhausted
fuel, which on a well-formed heap does not happen for fuel larger than
the block count). -/
def checkheap_walk (st : AState) :
    Nat → Nat → Option Nat → Nat → Nat → Option (Nat × Nat × Nat)
  | 0, _, _, _, _ => none
  | fuel + 1, block, prev_block, num_free_blocks, free_size =>
    if get_size st.mem block = 0 then some (block, num_free_blocks, free_size)
    else if check_block st block = false then none
    else
      let prev_ok :=
        match prev_block with
        | none => true
        | some pb =>
          if get_alloc st.mem pb ≠ get_prev_alloc st.mem block then false
          else if get_size st.mem pb = min_block_size ∧
              get_prev_mini st.mem block = false then false
          else true
      if prev_ok = false then none
      else
        let num_free_blocks' :=
          if get_alloc st.mem block = false then num_free_blocks + 1 else num_free_blocks
        let free_size' :=
          if get_alloc st.mem block = false then free_size + get_size st.mem block
          else free_size
        checkheap_walk st fuel (find_next st.mem block) (some block)
          num_free_blocks' free_size'

/-- The segregated-list pass of `mm_checkheap` over classes
`cls, cls+1, …, num_classes-1`, threading the two accumulators through
`check_free_list`. -/
def seg_pass (st : AState) : Nat → Nat → Nat → Nat → Option (Nat × Nat)
  | _, 0, nblocks, acc => some (nblocks, acc)
  | cls, rem + 1, nblocks, acc =>
    match check_free_list st cls (st.segList cls) nblocks acc with
    | none => none
    | some (nblocks', acc') => seg_pass st (cls + 1) rem nblocks' acc'

/-- `mm_checkheap(line)` from mm.c.  Two transliterated slips are kept:
the C code passes `&free_size` (the implicit-walk byte counter) instead
of `&tsize` as `check_free_list`'s size accumulator, so `tsize` stays 0;
and the final comparison is
`num_free_blocks != nblocks && free_size != tsize` with a logical AND. -/
def mm_checkheap (st : AState) (fuel : Nat) : Bool :=
  let prologue := find_prev st.mem st.heapStart
  if get_size st.mem prologue ≠ 0 ∨ get_alloc st.mem prologue = false then false
  else
    match checkheap_walk st fuel st.heapStart none 0 0 with
    | none => false
    | some (epilogue, num_free_blocks, free_size) =>
      match seg_pass st 0 num_classes 0 free_size with
      | none => false
      | some (nblocks, free_size') =>
        let tsize : Nat := 0
        if num_free_blocks ≠ nblocks ∧ free_size' ≠ tsize then false
        else if get_size st.mem epilogue ≠ 0 ∨ get_alloc st.mem epilogue = false then
          false
        else true

/-- The blocks visited by the implicit prologue-to-epilogue walk
starting at `heap_start` (specification-side view of the heap). -/
def walk_blocks (st : AState) : Nat → Nat → List Nat
  | 0, _ => []
  | fuel + 1, b =>
    if get_size st.mem b = 0 then []
    else b :: walk_blocks st fuel (find_next st.mem b)

/-- Number of free blocks seen by the implicit walk. -/
def walk_free_count (st : AState) (fuel : Nat) : Nat :=
  ((walk_blocks st fuel st.heapStart).filter
    (fun b => get_alloc st.mem b = false)).length

/-- Total number of blocks held across the segregated free lists. -/
def seg_count_total (st : AState) : Nat :=
  (List.range num_classes).foldl (fun acc k => acc + (st.segList k).length) 0

theorem wset_same (m : Nat → Nat) (a v : Nat) : wset m a v a = v := by
  simp [wset]

theorem wset_ne (m : Nat → Nat) (a v x : Nat) (h : x ≠ a) : wset m a v x = m x := by
  simp [wset, h]

theorem extract_size_pack (size : Nat) (al pa pm : Bool) (hs : size % 16 = 0) :
    extract_size (pack size al pa pm) = size := by
  rcases al <;> rcases pa <;> rcases pm <;> simp [pack, extract_size] <;> omega

theorem extract_alloc_pack (size : Nat) (al pa pm : Bool) (hs : size % 16 = 0) :
    extract_alloc (pack size al pa pm) = al := by
  rcases al <;> rcases pa <;> rcases pm <;> simp [pack, extract_alloc] <;> omega

theorem extract_prev_alloc_pack (size : Nat) (al pa pm : Bool) (hs : size % 16 = 0) :
    extract_prev_alloc (pack size al pa pm) = pa := by
  rcases al <;> rcases pa <;> rcases pm <;> simp [pack, extract_prev_alloc] <;> omega

theorem extract_prev_mini_pack (size : Nat) (al pa pm : Bool) (hs : size % 16 = 0) :
    extract_prev_mini (pack size al pa pm) = pm := by
  rcases al <;> rcases pa <;> rcases pm <;> simp [pack, extract_prev_mini] <;> omega

theorem extract_size_mod (word : Nat) : extract_size word % 16 = 0 := by
  simp [extract_size]; omega

/-- Effect of `write_block` on memory when the block is written free with
nonzero 16-aligned size: header plus footer at `b + size - 8`. -/
theorem write_block_mem_free (st : AState) (b size : Nat) (pa pm : Bool)
    (h0 : size ≠ 0) (hs : size % 16 = 0) :
    (write_block st b size false pa pm).mem =
      wset (wset st.mem b (pack size false pa pm)) (b + size - 8)
        (pack size false pa pm) := by
  have h16 : 16 ≤ size := by omega
  have hfoot : header_to_footer (wset st.mem b (pack size false pa pm)) b =
      b + size - 8 := by
    simp [header_to_footer, get_size, wset_same, extract_size_pack _ _ _ _ hs,
      wsize, dsize]
    omega
  simp [write_block, h0, hfoot]

/-- Effect of `write_block` on memory when the block is written
allocated: only the header cell changes. -/
theorem write_block_mem_alloc (st : AState) (b size : Nat) (pa pm : Bool) :
    (write_block st b size true pa pm).mem =
      wset st.mem b (pack size true pa pm) := by
  simp [write_block]

theorem write_block_segList (st : AState) (b size : Nat) (al pa pm : Bool) :
    (write_block st b size al pa pm).segList = st.segList := by
  unfold write_block
  split <;> rfl

theorem write_block_bytes (st : AState) (b size : Nat) (al pa pm : Bool) :
    (write_block st b size al pa pm).bytes = st.bytes := by
  unfold write_block
  split <;> rfl

theorem write_block_brk (st : AState) (b size : Nat) (al pa pm : Bool) :
    (write_block st b size al pa pm).brk = st.brk := by
  unfold write_block
  split <;> rfl

theorem write_block_heapStart (st : AState) (b size : Nat) (al pa pm : Bool) :
    (write_block st b size al pa pm).heapStart = st.heapStart := by
  unfold write_block
  split <;> rfl

theorem insert_head_mem (st : AState) (cls b : Nat) :
    (insert_head st cls b).mem = st.mem := rfl

theorem insert_head_bytes (st : AState) (cls b : Nat) :
    (insert_head st cls b).bytes = st.bytes := rfl

theorem insert_head_self (st : AState) (cls b : Nat) :
    (insert_head st cls b).segList cls = b :: st.segList cls := by
  simp [insert_head]

theorem remove_block_mem (st : AState) (cls b : Nat) :
    (remove_block st cls b).mem = st.mem := rfl

theorem remove_block_bytes (st : AState) (cls b : Nat) :
    (remove_block st cls b).bytes = st.bytes := rfl

/-- `write_block` when no footer is written (allocated block or size 0):
only the header cell changes. -/
theorem write_block_mem_else (st : AState) (b size : Nat) (al pa pm : Bool)
    (h : ¬ (al = false ∧ size ≠ 0)) :
    (write_block st b size al pa pm).mem = wset st.mem b (pack size al pa pm) := by
  simp only [write_block]
  rw [if_neg h]

/-- Reading the header cell back after `write_block` (the footer, when
written, never aliases the header of a 16-aligned-size block). -/
theorem write_block_read_self (st : AState) (b size : Nat) (al pa pm : Bool)
    (hs : size % 16 = 0) :
    (write_block st b size al pa pm).mem b = pack size al pa pm := by
  by_cases hbr : al = false ∧ size ≠ 0
  · obtain ⟨hal, hsz⟩ := hbr
    subst hal
    rw [write_block_mem_free st b size pa pm hsz hs]
    rw [wset_ne _ _ _ _ (by omega), wset_same]
  · rw [write_block_mem_else st b size al pa pm hbr, wset_same]

/-- `write_block` leaves every cell other than the header and the
(possible) footer at `b + size - 8` unchanged. -/
theorem write_block_read_other (st : AState) (b size : Nat) (al pa pm : Bool)
    (x : Nat) (hs : size % 16 = 0) (hx1 : x ≠ b) (hx2 : x ≠ b + size - 8) :
    (write_block st b size al pa pm).mem x = st.mem x := by
  by_cases hbr : al = false ∧ size ≠ 0
  · obtain ⟨hal, hsz⟩ := hbr
    subst hal
    rw [write_block_mem_free st b size pa pm hsz hs]
    rw [wset_ne _ _ _ _ hx2, wset_ne _ _ _ _ hx1]
  · rw [write_block_mem_else st b size al pa pm hbr, wset_ne _ _ _ _ hx1]

/-- C10: `zeroed_allocate(0, s)` returns null with the state unchanged
(no allocation happens), for every element size `s` and every state; the
zero-count test precedes the overflow check in `mm_calloc`, so the
division `(count*size)/count` of the overflow test is only reached with
a nonzero count. -/
theorem claim_C10_calloc_zero_count (st : AState) (s : Nat) :
    mm_calloc st 0 s = (none, st) := by
  simp [mm_calloc]

/-- C8: `zeroed_allocate(n, s)` returns null whenever the product `n*s`
overflows the 64-bit word, and whenever it returns a non-null pointer
the first `n*s` payload bytes of the result are zero. -/
theorem claim_C8_calloc_overflow_and_zero (st : AState) (n s : Nat) :
    (u64 ≤ n * s → (mm_calloc st n s).1 = none) ∧
    (∀ bp st', mm_calloc st n s = (some bp, st') →
      ∀ i, i < n * s → st'.bytes (bp + i) = 0) := by
  have hu : 0 < u64 := by norm_num [u64]
  constructor
  · intro h
    have hn : n ≠ 0 := by
      rintro rfl
      simp at h
      omega
    have hlt : n * s % u64 < n * s := Nat.lt_of_lt_of_le (Nat.mod_lt _ hu) h
    have hdiv : n * s % u64 / n < s := by
      rw [Nat.div_lt_iff_lt_mul (Nat.pos_of_ne_zero hn), Nat.mul_comm s n]
      exact hlt
    simp [mm_calloc, hn, Nat.ne_of_lt hdiv]
  · intro bp st' heq i hi
    by_cases hn : n = 0
    · subst hn
      simp [mm_calloc] at heq
    · by_cases hover : u64 ≤ n * s
      · have hlt : n * s % u64 < n * s := Nat.lt_of_lt_of_le (Nat.mod_lt _ hu) hover
        have hdiv : n * s % u64 / n < s := by
          rw [Nat.div_lt_iff_lt_mul (Nat.pos_of_ne_zero hn), Nat.mul_comm s n]
          exact hlt
        simp [mm_calloc, hn, Nat.ne_of_lt hdiv] at heq
      · push_neg at hover
        have hasize : n * s % u64 = n * s := Nat.mod_eq_of_lt hover
        have hdiveq : n * s / n = s :=
          Nat.mul_div_cancel_left s (Nat.pos_of_ne_zero hn)
        rcases hmal : mm_malloc st (n * s) with ⟨q, st1⟩
        cases q with
        | none =>
          have hcc : mm_calloc st n s = (none, st1) := by
            simp only [mm_calloc, hasize, hdiveq, ne_eq]
            rw [if_neg hn, if_neg (not_not_intro trivial), hmal]
          rw [hcc] at heq
          simp at heq
        | some bp1 =>
          have hcc : mm_calloc st n s = (some bp1, mem_memset st1 bp1 0 (n * s)) := by
            simp only [mm_calloc, hasize, hdiveq, ne_eq]
            rw [if_neg hn, if_neg (not_not_intro trivial), hmal]
          rw [hcc] at heq
          obtain ⟨h1, h2⟩ := Prod.mk.injEq .. ▸ heq
          obtain rfl : bp1 = bp := Option.some.inj h1
          subst h2
          simp only [mem_memset]
          rw [if_pos (by omega)]

/-- A pristine state: empty memory, `heap_start = NULL`, the heap
provider's region starting at 16 with ample capacity; payload bytes are
initialised to a recognisable pattern. -/
def st0 : AState :=
  { mem := fun _ => 0
    bytes := fun a => a % 256
    segList := fun _ => []
    heapStart := 0
    lo := 16
    brk := 16
    hiLimit := 100000 }

/-- Exact effect of `split_block` when the splitting criterion is met:
the block is rewritten allocated with size `asize` (prev flags
preserved), the remainder at `b + asize` is written free with
prev-allocated set and prev-mini tracking `asize`, the block after the
remainder has its header rewritten (size and allocated bit preserved,
prev-allocated cleared, prev-mini tracking the remainder), and the
remainder is pushed on the head of the class of its size. -/
theorem split_block_split_reads (st : AState) (b asize : Nat)
    (h16 : 16 ≤ asize) (hmod : asize % 16 = 0)
    (hsplit : 16 ≤ get_size st.mem b - asize) :
    (split_block st b asize).mem b =
      pack asize true (get_prev_alloc st.mem b) (get_prev_mini st.mem b) ∧
    (split_block st b asize).mem (b + asize) =
      pack (get_size st.mem b - asize) false true (decide (asize = min_block_size)) ∧
    (split_block st b asize).mem (b + get_size st.mem b) =
      pack (extract_size (st.mem (b + get_size st.mem b)))
        (extract_alloc (st.mem (b + get_size st.mem b))) false
        (decide (get_size st.mem b - asize = min_block_size)) ∧
    (split_block st b asize).segList =
      fun k => if k = get_class (get_size st.mem b - asize)
        then (b + asize) ::
          (remove_block st (get_class (get_size st.mem b)) b).segList
            (get_class (get_size st.mem b - asize))
        else (remove_block st (get_class (get_size st.mem b)) b).segList k := by
  have hbsm : get_size st.mem b % 16 = 0 := extract_size_mod _
  have hbs32 : 32 ≤ get_size st.mem b := by omega
  have hssm : (get_size st.mem b - asize) % 16 = 0 := by omega
  unfold split_block
  rw [if_pos (show min_block_size ≤ get_size st.mem b - asize from hsplit)]
  simp only []
  set bs := get_size st.mem b with hbsdef
  set st1 := remove_block st (get_class bs) b with h1def
  have h1m : st1.mem = st.mem := remove_block_mem _ _ _
  rw [h1m]
  set st2 := write_block st1 b asize true (get_prev_alloc st.mem b)
    (get_prev_mini st.mem b) with h2def
  have h2m : st2.mem = wset st.mem b
      (pack asize true (get_prev_alloc st.mem b) (get_prev_mini st.mem b)) := by
    rw [h2def, write_block_mem_alloc, h1m]
  have h2b : get_size st2.mem b = asize := by
    rw [h2m, get_size, wset_same, extract_size_pack _ _ _ _ hmod]
  have hbn : find_next st2.mem b = b + asize := by
    rw [find_next, h2b]
  rw [hbn]
  set st3 := write_block st2 (b + asize) (bs - asize) false true
    (decide (asize = min_block_size)) with h3def
  have h3m : st3.mem = wset
      (wset st2.mem (b + asize) (pack (bs - asize) false true (decide (asize = min_block_size))))
      (b + bs - 8)
      (pack (bs - asize) false true (decide (asize = min_block_size))) := by
    rw [h3def, write_block_mem_free _ _ _ _ _ (by omega) hssm]
    have : b + asize + (bs - asize) - 8 = b + bs - 8 := by omega
    rw [this]
  set st4 := insert_head st3 (get_class (bs - asize)) (b + asize) with h4def
  have h4m : st4.mem = st3.mem := insert_head_mem _ _ _
  have h3bn : st3.mem (b + asize) =
      pack (bs - asize) false true (decide (asize = min_block_size)) := by
    rw [h3m, wset_ne _ _ _ _ (by omega), wset_same]
  have h4bn : get_size st4.mem (b + asize) = bs - asize := by
    rw [h4m, get_size, h3bn, extract_size_pack _ _ _ _ hssm]
  have hbn2 : find_next st4.mem (b + asize) = b + bs := by
    rw [find_next, h4bn]
    omega
  rw [hbn2]
  have hT : st4.mem (b + bs) = st.mem (b + bs) := by
    rw [h4m, h3m, wset_ne _ _ _ _ (by omega), wset_ne _ _ _ _ (by omega), h2m,
      wset_ne _ _ _ _ (by omega)]
  have hsz : get_size st4.mem (b + bs) = extract_size (st.mem (b + bs)) := by
    rw [get_size, hT]
  have hal : get_alloc st4.mem (b + bs) = extract_alloc (st.mem (b + bs)) := by
    rw [get_alloc, hT]
  have hszm : get_size st4.mem (b + bs) % 16 = 0 := extract_size_mod _
  have hszm' : extract_size (st.mem (b + bs)) % 16 = 0 := extract_size_mod _
  refine ⟨?_, ?_, ?_, ?_⟩
  · rw [write_block_read_other _ _ _ _ _ _ _ hszm (by omega) (by rw [hsz]; omega)]
    rw [h4m, h3m, wset_ne _ _ _ _ (by omega), wset_ne _ _ _ _ (by omega), h2m, wset_same]
  · rw [write_block_read_other _ _ _ _ _ _ _ hszm (by omega) (by rw [hsz]; omega)]
    rw [h4m, h3bn]
  · rw [write_block_read_self _ _ _ _ _ _ hszm, hsz, hal]
  · rw [write_block_segList]
    rw [h4def]
    funext k
    simp only [insert_head]
    have h3s : st3.segList = st1.segList := by
      rw [h3def, write_block_segList, h2def, write_block_segList]
    rw [h3s]

/-- Exact effect of `split_block` when the slack is below a minimum
block: the block itself is untouched (it keeps its full size) and only
the next block's header is rewritten, with prev-allocated set and
prev-mini tracking whether the block is mini. -/
theorem split_block_nosplit_reads (st : AState) (b asize : Nat)
    (hns : get_size st.mem b - asize < 16)
    (hbs : 16 ≤ get_size st.mem b) :
    (split_block st b asize).mem b = st.mem b ∧
    (split_block st b asize).mem (b + get_size st.mem b) =
      pack (extract_size (st.mem (b + get_size st.mem b)))
        (extract_alloc (st.mem (b + get_size st.mem b))) true
        (decide (get_size st.mem b = min_block_size)) ∧
    (split_block st b asize).segList =
      (remove_block st (get_class (get_size st.mem b)) b).segList := by
  have hbsm : get_size st.mem b % 16 = 0 := extract_size_mod _
  unfold split_block
  rw [if_neg (show ¬ min_block_size ≤ get_size st.mem b - asize by
    simp only [min_block_size]; omega)]
  simp only []
  set bs := get_size st.mem b with hbsdef
  set st1 := remove_block st (get_class bs) b with h1def
  have h1m : st1.mem = st.mem := remove_block_mem _ _ _
  rw [h1m]
  have hbn : find_next st.mem b = b + bs := rfl
  rw [hbn]
  have hsz : get_size st.mem (b + bs) = extract_size (st.mem (b + bs)) := rfl
  have hszm : get_size st.mem (b + bs) % 16 = 0 := extract_size_mod _
  have hszm' : extract_size (st.mem (b + bs)) % 16 = 0 := extract_size_mod _
  refine ⟨?_, ?_, ?_⟩
  · rw [write_block_read_other _ _ _ _ _ _ _ hszm (by omega) (by rw [hsz]; omega)]
    rw [h1m]
  · rw [write_block_read_self _ _ _ _ _ _ hszm, hsz]
    rfl
  · rw [write_block_segList]

/-- C6: requests of 1..8 bytes get adjusted block size 16 (a mini
block) and requests of 9..24 bytes get 32; in general the adjusted size
is `max(16, round_up(n + 8, 16))` (stated for every `n` small enough
that the `size_t` additions cannot wrap), and placing a block via
`split_block` leaves the allocated block with exactly the adjusted
size, so `allocate` produces a block of that total size. -/
theorem claim_C6_request_sizes :
    (∀ n, n < 9 → 1 ≤ n → malloc_asize n = 16) ∧
    (∀ n, n < 25 → 9 ≤ n → malloc_asize n = 32) ∧
    (∀ n, n + 24 < u64 → malloc_asize n = max 16 (round_up (n + 8) 16)) ∧
    (∀ st b asize, get_alloc st.mem b = true → 16 ≤ asize → asize % 16 = 0 →
      asize ≤ get_size st.mem b →
      get_size (split_block st b asize).mem b = asize ∧
      get_alloc (split_block st b asize).mem b = true) := by
  refine ⟨by decide, by decide, ?_, ?_⟩
  · intro n h
    have hu : (u64 : Nat) = 2 ^ 64 := rfl
    have e1 : (n + 8) % u64 = n + 8 := Nat.mod_eq_of_lt (by omega)
    have e2 : (n + 8 + (16 - 1)) % u64 = n + 23 := Nat.mod_eq_of_lt (by omega)
    have hk : 16 * ((n + 23) / 16) ≤ n + 23 := by omega
    have e3 : 16 * ((n + 23) / 16) % u64 = 16 * ((n + 23) / 16) :=
      Nat.mod_eq_of_lt (by omega)
    simp only [malloc_asize, round_up, wsize, dsize, min_block_size, e1, e2, e3]
    rcases Nat.le_total (16 * ((n + 23) / 16)) 16 with hc | hc
    · rw [max_eq_left hc]
      split <;> omega
    · rw [max_eq_right hc]
      split <;> omega
  · intro st b asize halloc h16 hmod hle
    have hbsm : get_size st.mem b % 16 = 0 := extract_size_mod _
    by_cases hsplit : 16 ≤ get_size st.mem b - asize
    · obtain ⟨hb, _, _, _⟩ := split_block_split_reads st b asize h16 hmod hsplit
      rw [get_size, get_alloc, hb, extract_size_pack _ _ _ _ hmod,
        extract_alloc_pack _ _ _ _ hmod]
      exact ⟨rfl, rfl⟩
    · have heq : get_size st.mem b = asize := by omega
      obtain ⟨hb, _, _⟩ := split_block_nosplit_reads st b asize (by omega) (by omega)
      rw [get_size, get_alloc, hb, ← get_size, ← get_alloc, heq, halloc]
      exact ⟨rfl, rfl⟩

/-- Witness for C6 at concrete inputs: request size 1000 for the
general formula, and a concrete split (a 64-byte free block placed with
adjusted size 32) for the exact-size part. -/
theorem claim_C6_request_sizes_witness :
    (1000 + 24 < u64 ∧ malloc_asize 1000 = max 16 (round_up (1000 + 8) 16)) ∧
    (get_alloc ((mm_malloc st0 24).2.mem) 24 = true ∧ 16 ≤ 32 ∧ 32 % 16 = 0 ∧
      32 ≤ get_size ((mm_malloc st0 24).2.mem) 24 ∧
      get_size (split_block (mm_malloc st0 24).2 24 32).mem 24 = 32 ∧
      get_alloc (split_block (mm_malloc st0 24).2 24 32).mem 24 = true) := by
  constructor
  · exact ⟨by norm_num [u64], claim_C6_request_sizes.2.2.1 1000 (by norm_num [u64])⟩
  · have h := claim_C6_request_sizes.2.2.2 (mm_malloc st0 24).2 24 32
      (by decide) (by decide) (by decide) (by decide)
    exact ⟨by decide, by decide, by decide, by decide, h.1, h.2⟩

/-- A heap whose implicit walk (prologue at 8, one allocated 32-byte
block at 16, epilogue at 48) contains no free block, while segregated
list 14 holds one stray free block of size 0 at address 24.  The two
free-block counts disagree, yet every individual check passes and the
final count comparison of `mm_checkheap` (a logical AND whose
size-total disjunct compares against the never-updated `tsize = 0`)
does not fire. -/
def demoC5 : AState :=
  { mem := fun a => if a = 8 then 3 else if a = 16 then 35 else if a = 48 then 3 else 0
    bytes := fun _ => 0
    segList := fun k => if k = 14 then [24] else []
    heapStart := 16
    lo := 0
    brk := 56
    hiLimit := 56 }

/-- C5 (code bug): on `demoC5` the implicit-walk free-block count is 0
while the segregated lists hold 1 block, and `mm_checkheap` still
returns true — the claim says it must return false whenever the counts
differ. -/
theorem claim_C5_checkheap_counts_bug :
    walk_free_count demoC5 100 = 0 ∧ seg_count_total demoC5 = 1 ∧
    mm_checkheap demoC5 100 = true := by
  refine ⟨by decide, by decide, by decide⟩

/-- A well-formed-looking heap laid out so that every real block sits at
an address that is 8 mod 16 (prologue at 16, a 32-byte allocated block
at 24, epilogue at 56): the walk visits block 24, whose address is not
16-byte aligned. -/
def demoC9 : AState :=
  { mem := fun a => if a = 16 then 3 else if a = 24 then 35 else if a = 56 then 3 else 0
    bytes := fun _ => 0
    segList := fun _ => []
    heapStart := 24
    lo := 0
    brk := 64
    hiLimit := 64 }

/-- C9 (code bug): the walk of `demoC9` visits the block at address 24,
which is not 16-byte aligned, yet `mm_checkheap` returns true: the
alignment test `!(size_t)block % dsize` of `check_block` applies the
logical NOT before the modulus, so it can only fire for the null
address and the claimed alignment verification never rejects a
misaligned block. -/
theorem claim_C9_alignment_check_bug :
    walk_blocks demoC9 100 demoC9.heapStart = [24] ∧ 24 % 16 = 8 ∧
    mm_checkheap demoC9 100 = true := by
  refine ⟨by decide, by decide, by decide⟩

/-- The sublist of a class list that fits a request of size `asize`. -/
def cand (m : Nat → Nat) (asize : Nat) (l : List Nat) : List Nat :=
  l.filter (fun b => decide (asize ≤ get_size m b))

/-- One step of the best-fit fold: keep the first smallest block. -/
def pick (m : Nat → Nat) (bf : Option Nat) (b : Nat) : Option Nat :=
  match bf with
  | none => some b
  | some c => if get_size m b < get_size m c then some b else some c

/-- `ff_scan` is the fold of `pick` over the first `max_search - count`
candidates, together with the candidate count and the early-return
flag. -/
theorem ff_scan_eq (m : Nat → Nat) (asize : Nat) (l : List Nat) :
    ∀ bf count, count < 6 →
    ff_scan m asize l bf count =
      (((cand m asize l).take (6 - count)).foldl (pick m) bf,
        count + min (6 - count) (cand m asize l).length,
        decide (6 - count ≤ (cand m asize l).length)) := by
  induction l with
  | nil =>
    intro bf count hc
    simp only [ff_scan, cand, List.filter_nil, List.take_nil, List.foldl_nil,
      List.length_nil]
    rw [decide_eq_false (by omega)]
    simp only [Prod.mk.injEq]
    exact ⟨trivial, by omega, trivial⟩
  | cons b rest ih =>
    intro bf count hc
    by_cases hfit : asize ≤ get_size m b
    · have hcand : cand m asize (b :: rest) = b :: cand m asize rest := by
        simp [cand, hfit]
      have hstep : ff_scan m asize (b :: rest) bf count =
          (if 6 ≤ count + 1 then (pick m bf b, count + 1, true)
           else ff_scan m asize rest (pick m bf b) (count + 1)) := by
        cases bf <;> simp only [ff_scan, max_search, if_pos hfit, pick]
      rw [hstep, hcand]
      by_cases h6 : 6 ≤ count + 1
      · rw [if_pos h6]
        have hcount : count = 5 := by omega
        subst hcount
        have ht : (b :: cand m asize rest).take (6 - 5) = [b] := by simp
        rw [ht]
        simp only [List.foldl_cons, List.foldl_nil, List.length_cons,
          Prod.mk.injEq]
        refine ⟨trivial, by omega, ?_⟩
        rw [decide_eq_true (by omega)]
      · rw [if_neg h6, ih (pick m bf b) (count + 1) (by omega)]
        have ht : (b :: cand m asize rest).take (6 - count) =
            b :: (cand m asize rest).take (6 - (count + 1)) := by
          have he : 6 - count = (6 - (count + 1)) + 1 := by omega
          rw [he, List.take_succ_cons]
        rw [ht]
        simp only [List.foldl_cons, List.length_cons, Prod.mk.injEq]
        refine ⟨trivial, by omega, ?_⟩
        rw [decide_eq_decide]
        omega
    · have hcand : cand m asize (b :: rest) = cand m asize rest := by
        simp [cand, hfit]
      have hstep : ff_scan m asize (b :: rest) bf count =
          ff_scan m asize rest bf count := by
        cases bf <;>
          simp only [ff_scan, max_search, if_neg hfit,
            if_neg (show ¬ 6 ≤ count by omega)]
      rw [hstep, hcand, ih bf count hc]

/-- Folding `pick` from a running best returns a block no larger than
the running best and than every list element, drawn from one of them. -/
theorem foldl_pick_some (m : Nat → Nat) (l : List Nat) :
    ∀ a, ∃ b, l.foldl (pick m) (some a) = some b ∧ (b = a ∨ b ∈ l) ∧
      get_size m b ≤ get_size m a ∧ ∀ c ∈ l, get_size m b ≤ get_size m c := by
  induction l with
  | nil =>
    intro a
    exact ⟨a, rfl, Or.inl rfl, le_refl _, by simp⟩
  | cons x xs ih =>
    intro a
    by_cases h : get_size m x < get_size m a
    · obtain ⟨b, h1, h2, h3, h4⟩ := ih x
      have hp : pick m (some a) x = some x := by simp [pick, h]
      refine ⟨b, ?_, ?_, ?_, ?_⟩
      · rw [List.foldl_cons, hp]
        exact h1
      · rcases h2 with rfl | h2
        · exact Or.inr (List.mem_cons_self _ _)
        · exact Or.inr (List.mem_cons_of_mem _ h2)
      · omega
      · intro c hc
        rcases List.mem_cons.mp hc with rfl | hc
        · exact h3
        · exact h4 c hc
    · obtain ⟨b, h1, h2, h3, h4⟩ := ih a
      have hp : pick m (some a) x = some a := by simp [pick, h]
      refine ⟨b, ?_, ?_, h3, ?_⟩
      · rw [List.foldl_cons, hp]
        exact h1
      · rcases h2 with rfl | h2
        · exact Or.inl rfl
        · exact Or.inr (List.mem_cons_of_mem _ h2)
      · intro c hc
        rcases List.mem_cons.mp hc with rfl | hc
        · omega
        · exact h4 c hc

/-- Folding `pick` from `none` over a nonempty list yields a member of
minimum size. -/
theorem foldl_pick_none (m : Nat → Nat) (l : List Nat) (hl : l ≠ []) :
    ∃ b, l.foldl (pick m) none = some b ∧ b ∈ l ∧
      ∀ c ∈ l, get_size m b ≤ get_size m c := by
  cases l with
  | nil => exact absurd rfl hl
  | cons x xs =>
    obtain ⟨b, h1, h2, h3, h4⟩ := foldl_pick_some m xs x
    refine ⟨b, ?_, ?_, ?_⟩
    · rw [List.foldl_cons]
      exact h1
    · rcases h2 with rfl | h2
      · exact List.mem_cons_self _ _
      · exact List.mem_cons_of_mem _ h2
    · intro c hc
      rcases List.mem_cons.mp hc with rfl | hc
      · exact h3
      · exact h4 c hc

/-- `ff_go` with a found fit in hand returns it at once. -/
theorem ff_go_some (st : AState) (asize : Nat) (cls rem count b : Nat) :
    ff_go st asize cls rem (some b) count = some b := by
  cases rem <;> rfl

/-- If every class in the scanned window has no fitting candidate, the
outer loop of `find_fit` returns null. -/
theorem ff_go_all_empty (st : AState) (asize : Nat) :
    ∀ rem cls count, count < 6 →
    (∀ j, j < rem → cand st.mem asize (st.segList (cls + j)) = []) →
    ff_go st asize cls rem none count = none := by
  intro rem
  induction rem with
  | zero => intro cls count _ _; rfl
  | succ rem ih =>
    intro cls count hc hemp
    have h0 : cand st.mem asize (st.segList cls) = [] := by
      have := hemp 0 (by omega)
      simpa using this
    have hscan := ff_scan_eq st.mem asize (st.segList cls) none count hc
    rw [h0] at hscan
    simp only [List.take_nil, List.foldl_nil, List.length_nil] at hscan
    rw [decide_eq_false (by omega)] at hscan
    simp only [ff_go, hscan]
    rw [if_neg (by simp)]
    have : count + min (6 - count) 0 = count := by omega
    rw [this]
    refine ih (cls + 1) count hc ?_
    intro j hj
    have := hemp (j + 1) (by omega)
    have harr : cls + 1 + j = cls + (j + 1) := by omega
    rw [harr]
    exact this

/-- Conversely, if the outer loop returns null every scanned class was
without fitting candidate. -/
theorem ff_go_none_imp (st : AState) (asize : Nat) :
    ∀ rem cls count, count < 6 →
    ff_go st asize cls rem none count = none →
    ∀ j, j < rem → cand st.mem asize (st.segList (cls + j)) = [] := by
  intro rem
  induction rem with
  | zero => intro cls count _ _ j hj; omega
  | succ rem ih =>
    intro cls count hc hgo j hj
    have hscan := ff_scan_eq st.mem asize (st.segList cls) none count hc
    by_cases h0 : cand st.mem asize (st.segList cls) = []
    · rcases Nat.eq_zero_or_pos j with rfl | hjpos
      · simpa using h0
      · rw [h0] at hscan
        simp only [List.take_nil, List.foldl_nil, List.length_nil] at hscan
        rw [decide_eq_false (by omega)] at hscan
        simp only [ff_go, hscan] at hgo
        rw [if_neg (by simp)] at hgo
        have hcnt : count + min (6 - count) 0 = count := by omega
        rw [hcnt] at hgo
        have harr : cls + j = cls + 1 + (j - 1) := by omega
        rw [harr]
        exact ih (cls + 1) count hc hgo (j - 1) (by omega)
    · exfalso
      obtain ⟨b, hb1, _, _⟩ := foldl_pick_none st.mem
        ((cand st.mem asize (st.segList cls)).take (6 - count))
        (by
          intro ht
          apply h0
          have hlen := congrArg List.length ht
          simp only [List.length_take, List.length_nil] at hlen
          have : (cand st.mem asize (st.segList cls)).length = 0 := by omega
          exact List.length_eq_zero.mp this)
      rw [hb1] at hscan
      simp only [ff_go, hscan] at hgo
      by_cases hearly : 6 - count ≤ (cand st.mem asize (st.segList cls)).length
      · rw [decide_eq_true hearly] at hgo
        rw [if_pos rfl] at hgo
        exact Option.some_ne_none b hgo
      · rw [decide_eq_false hearly] at hgo
        rw [if_neg (by simp)] at hgo
        rw [ff_go_some] at hgo
        exact Option.some_ne_none b hgo

/-- Behaviour of the outer loop at the first class with a fitting
candidate: the result is the smallest among the first `max_search`
candidates of that class, in list order. -/
theorem ff_go_first (st : AState) (asize : Nat) :
    ∀ j0 rem cls, j0 < rem →
    (∀ j, j < j0 → cand st.mem asize (st.segList (cls + j)) = []) →
    cand st.mem asize (st.segList (cls + j0)) ≠ [] →
    ∃ b, ff_go st asize cls rem none 0 = some b ∧
      b ∈ (cand st.mem asize (st.segList (cls + j0))).take 6 ∧
      ∀ c ∈ (cand st.mem asize (st.segList (cls + j0))).take 6,
        get_size st.mem b ≤ get_size st.mem c := by
  intro j0
  induction j0 with
  | zero =>
    intro rem cls hrem hemp hne
    obtain ⟨rem', rfl⟩ : ∃ r, rem = r + 1 := ⟨rem - 1, by omega⟩
    rw [Nat.add_zero] at hne ⊢
    have hscan := ff_scan_eq st.mem asize (st.segList cls) none 0 (by omega)
    have h6 : 6 - 0 = 6 := rfl
    rw [h6] at hscan
    obtain ⟨b, hb1, hb2, hb3⟩ := foldl_pick_none st.mem
      ((cand st.mem asize (st.segList cls)).take 6)
      (by
        intro ht
        rcases List.take_eq_nil_iff.mp ht with h | h <;>
          first
            | exact hne h
            | simp at h)
    rw [hb1] at hscan
    refine ⟨b, ?_, hb2, hb3⟩
    simp only [ff_go, hscan]
    by_cases hearly : 6 ≤ (cand st.mem asize (st.segList cls)).length
    · rw [decide_eq_true hearly, if_pos rfl]
    · rw [decide_eq_false hearly, if_neg (by simp), ff_go_some]
  | succ k ih =>
    intro rem cls hrem hemp hne
    obtain ⟨rem', rfl⟩ : ∃ r, rem = r + 1 := ⟨rem - 1, by omega⟩
    have h0 : cand st.mem asize (st.segList cls) = [] := by
      simpa using hemp 0 (by omega)
    have hscan := ff_scan_eq st.mem asize (st.segList cls) none 0 (by omega)
    rw [h0] at hscan
    simp only [List.take_nil, List.foldl_nil, List.length_nil] at hscan
    rw [decide_eq_false (by omega)] at hscan
    obtain ⟨b, hb1, hb2, hb3⟩ := ih rem' (cls + 1) (by omega)
      (fun j hj => by
        rw [show cls + 1 + j = cls + (j + 1) by omega]
        exact hemp (j + 1) (by omega))
      (by
        rw [show cls + 1 + k = cls + (k + 1) by omega]
        exact hne)
    refine ⟨b, ?_, ?_, ?_⟩
    · simp only [ff_go, hscan]
      rw [if_neg (by simp)]
      have hcnt : 0 + min (6 - 0) 0 = 0 := by omega
      rw [hcnt]
      exact hb1
    · rw [show cls + (k + 1) = cls + 1 + k by omega]
      exact hb2
    · rw [show cls + (k + 1) = cls + 1 + k by omega]
      exact hb3

/-- Full case analysis of `get_class`: the class index together with
the size range it covers. -/
theorem get_class_spec (sz : Nat) :
    (get_class sz = 0 ∧ 16 ≤ sz ∧ sz < 32) ∨
    (get_class sz = 1 ∧ 32 ≤ sz ∧ sz < 48) ∨
    (get_class sz = 2 ∧ 48 ≤ sz ∧ sz < 64) ∨
    (get_class sz = 3 ∧ 64 ≤ sz ∧ sz < 80) ∨
    (get_class sz = 4 ∧ 80 ≤ sz ∧ sz < 112) ∨
    (get_class sz = 5 ∧ 112 ≤ sz ∧ sz < 160) ∨
    (get_class sz = 6 ∧ 160 ≤ sz ∧ sz < 208) ∨
    (get_class sz = 7 ∧ 208 ≤ sz ∧ sz < 272) ∨
    (get_class sz = 8 ∧ 272 ≤ sz ∧ sz < 480) ∨
    (get_class sz = 9 ∧ 480 ≤ sz ∧ sz < 800) ∨
    (get_class sz = 10 ∧ 800 ≤ sz ∧ sz < 1728) ∨
    (get_class sz = 11 ∧ 1728 ≤ sz ∧ sz < 3232) ∨
    (get_class sz = 12 ∧ 3232 ≤ sz ∧ sz < 5536) ∨
    (get_class sz = 13 ∧ 5536 ≤ sz ∧ sz < 18736) ∨
    (get_class sz = 14 ∧ (sz < 16 ∨ 18736 ≤ sz)) := by
  by_cases h0 : 16 ≤ sz ∧ sz < 32
  · have he : get_class sz = 0 := by
      unfold get_class
      rw [if_pos h0]
    exact Or.inl ⟨he, h0⟩
  by_cases h1 : 32 ≤ sz ∧ sz < 48
  · have he : get_class sz = 1 := by
      unfold get_class
      rw [if_neg h0, if_pos h1]
    exact Or.inr (Or.inl ⟨he, h1⟩)
  by_cases h2 : 48 ≤ sz ∧ sz < 64
  · have he : get_class sz = 2 := by
      unfold get_class
      rw [if_neg h0, if_neg h1, if_pos h2]
    exact Or.inr (Or.inr (Or.inl ⟨he, h2⟩))
  by_cases h3 : 64 ≤ sz ∧ sz < 80
  · have he : get_class sz = 3 := by
      unfold get_class
      rw [if_neg h0, if_neg h1, if_neg h2, if_pos h3]
    exact Or.inr (Or.inr (Or.inr (Or.inl ⟨he, h3⟩)))
  by_cases h4 : 80 ≤ sz ∧ sz < 112
  · have he : get_class sz = 4 := by
      unfold get_class
      rw [if_neg h0, if_neg h1, if_neg h2, if_neg h3, if_pos h4]
    exact Or.inr (Or.inr (Or.inr (Or.inr (Or.inl ⟨he, h4⟩))))
  by_cases h5 : 112 ≤ sz ∧ sz < 160
  · have he : get_class sz = 5 := by
      unfold get_class
      rw [if_neg h0, if_neg h1, if_neg h2, if_neg h3, if_neg h4, if_pos h5]
    exact Or.inr (Or.inr (Or.inr (Or.inr (Or.inr (Or.inl ⟨he, h5⟩)))))
  by_cases h6 : 160 ≤ sz ∧ sz < 208
  · have he : get_class sz = 6 := by
      unfold get_class
      rw [if_neg h0, if_neg h1, if_neg h2, if_neg h3, if_neg h4, if_neg h5, if_pos h6]
    exact Or.inr (Or.inr (Or.inr (Or.inr (Or.inr (Or.inr (Or.inl ⟨he, h6⟩))))))
  by_cases h7 : 208 ≤ sz ∧ sz < 272
  · have he : get_class sz = 7 := by
      unfold get_class
      rw [if_neg h0, if_neg h1, if_neg h2, if_neg h3, if_neg h4, if_neg h5, if_neg h6, if_pos h7]
    exact Or.inr (Or.inr (Or.inr (Or.inr (Or.inr (Or.inr (Or.inr (Or.inl ⟨he, h7⟩)))))))
  by_cases h8 : 272 ≤ sz ∧ sz < 480
  · have he : get_class sz = 8 := by
      unfold get_class
      rw [if_neg h0, if_neg h1, if_neg h2, if_neg h3, if_neg h4, if_neg h5, if_neg h6, if_neg h7, if_pos h8]
    exact Or.inr (Or.inr (Or.inr (Or.inr (Or.inr (Or.inr (Or.inr (Or.inr (Or.inl ⟨he, h8⟩))))))))
  by_cases h9 : 480 ≤ sz ∧ sz < 800
  · have he : get_class sz = 9 := by
      unfold get_class
      rw [if_neg h0, if_neg h1, if_neg h2, if_neg h3, if_neg h4, if_neg h5, if_neg h6, if_neg h7, if_neg h8, if_pos h9]
    exact Or.inr (Or.inr (Or.inr (Or.inr (Or.inr (Or.inr (Or.inr (Or.inr (Or.inr (Or.inl ⟨he, h9⟩)))))))))
  by_cases h10 : 800 ≤ sz ∧ sz < 1728
  · have he : get_class sz = 10 := by
      unfold get_class
      rw [if_neg h0, if_neg h1, if_neg h2, if_neg h3, if_neg h4, if_neg h5, if_neg h6, if_neg h7, if_neg h8, if_neg h9, if_pos h10]
    exact Or.inr (Or.inr (Or.inr (Or.inr (Or.inr (Or.inr (Or.inr (Or.inr (Or.inr (Or.inr (Or.inl ⟨he, h10⟩))))))))))
  by_cases h11 : 1728 ≤ sz ∧ sz < 3232
  · have he : get_class sz = 11 := by
      unfold get_class
      rw [if_neg h0, if_neg h1, if_neg h2, if_neg h3, if_neg h4, if_neg h5, if_neg h6, if_neg h7, if_neg h8, if_neg h9, if_neg h10, if_pos h11]
    exact Or.inr (Or.inr (Or.inr (Or.inr (Or.inr (Or.inr (Or.inr (Or.inr (Or.inr (Or.inr (Or.inr (Or.inl ⟨he, h11⟩)))))))))))
  by_cases h12 : 3232 ≤ sz ∧ sz < 5536
  · have he : get_class sz = 12 := by
      unfold get_class
      rw [if_neg h0, if_neg h1, if_neg h2, if_neg h3, if_neg h4, if_neg h5, if_neg h6, if_neg h7, if_neg h8, if_neg h9, if_neg h10, if_neg h11, if_pos h12]
    exact Or.inr (Or.inr (Or.inr (Or.inr (Or.inr (Or.inr (Or.inr (Or.inr (Or.inr (Or.inr (Or.inr (Or.inr (Or.inl ⟨he, h12⟩))))))))))))
  by_cases h13 : 5536 ≤ sz ∧ sz < 18736
  · have he : get_class sz = 13 := by
      unfold get_class
      rw [if_neg h0, if_neg h1, if_neg h2, if_neg h3, if_neg h4, if_neg h5, if_neg h6, if_neg h7, if_neg h8, if_neg h9, if_neg h10, if_neg h11, if_neg h12, if_pos h13]
    exact Or.inr (Or.inr (Or.inr (Or.inr (Or.inr (Or.inr (Or.inr (Or.inr (Or.inr (Or.inr (Or.inr (Or.inr (Or.inr (Or.inl ⟨he, h13⟩)))))))))))))
  have he : get_class sz = 14 := by
    unfold get_class
    rw [if_neg h0, if_neg h1, if_neg h2, if_neg h3, if_neg h4, if_neg h5, if_neg h6, if_neg h7, if_neg h8, if_neg h9, if_neg h10, if_neg h11, if_neg h12, if_neg h13]
  refine Or.inr (Or.inr (Or.inr (Or.inr (Or.inr (Or.inr (Or.inr (Or.inr (Or.inr (Or.inr (Or.inr (Or.inr (Or.inr (Or.inr (⟨he, ?_⟩))))))))))))))
  omega

/-- `get_class` never exceeds the last class index. -/
theorem get_class_le (sz : Nat) : get_class sz ≤ 14 := by
  rcases get_class_spec sz with h|h|h|h|h|h|h|h|h|h|h|h|h|h|h <;> omega

/-- `get_class` is monotone in the size (for sizes at least the minimum
block size). -/
theorem get_class_mono (s1 s2 : Nat) (h16 : 16 ≤ s1) (h : s1 ≤ s2) :
    get_class s1 ≤ get_class s2 := by
  rcases get_class_spec s1 with h1|h1|h1|h1|h1|h1|h1|h1|h1|h1|h1|h1|h1|h1|h1 <;>
    rcases get_class_spec s2 with h2|h2|h2|h2|h2|h2|h2|h2|h2|h2|h2|h2|h2|h2|h2 <;>
      omega


/-- C3: for an adjusted request size, `find_fit` scans the classes from
`get_class asize` upward; it returns null exactly when no class list
holds a fitting block, and otherwise — with `k0` the first class with a
fitting candidate — it returns a block among the first `max_search`
fitting candidates of class `k0` in list order, of minimal size among
them (so candidates of later classes are never mixed in).  The
hypothesis is invariant 7 of the spec: each list holds only blocks of
its own class. -/
theorem claim_C3_find_fit (st : AState) (asize : Nat) (h16 : 16 ≤ asize)
    (hcoh : ∀ k, k < num_classes → ∀ b ∈ st.segList k,
      get_class (get_size st.mem b) = k) :
    (find_fit st asize = none ↔
      ∀ k, k < num_classes → cand st.mem asize (st.segList k) = []) ∧
    (∀ k0, k0 < num_classes → cand st.mem asize (st.segList k0) ≠ [] →
      (∀ k, k < k0 → cand st.mem asize (st.segList k) = []) →
      ∃ b, find_fit st asize = some b ∧
        b ∈ (cand st.mem asize (st.segList k0)).take max_search ∧
        ∀ c ∈ (cand st.mem asize (st.segList k0)).take max_search,
          get_size st.mem b ≤ get_size st.mem c) := by
  have hc14 : get_class asize ≤ 14 := get_class_le asize
  have hlow : ∀ k, k < get_class asize → cand st.mem asize (st.segList k) = [] := by
    intro k hk
    rw [cand, List.filter_eq_nil_iff]
    intro b hb
    simp only [decide_eq_true_eq]
    intro hfit
    have hcls : get_class (get_size st.mem b) = k := by
      refine hcoh k ?_ b hb
      simp only [num_classes]
      omega
    have := get_class_mono asize (get_size st.mem b) h16 hfit
    omega
  constructor
  · constructor
    · intro hnone k hk
      rcases Nat.lt_or_ge k (get_class asize) with hlt | hge
      · exact hlow k hlt
      · have := ff_go_none_imp st asize (num_classes - get_class asize)
          (get_class asize) 0 (by omega) hnone (k - get_class asize)
          (by simp only [num_classes] at hk ⊢; omega)
        rw [show get_class asize + (k - get_class asize) = k by omega] at this
        exact this
    · intro hall
      refine ff_go_all_empty st asize (num_classes - get_class asize)
        (get_class asize) 0 (by omega) ?_
      intro j hj
      refine hall (get_class asize + j) ?_
      simp only [num_classes] at hj ⊢
      omega
  · intro k0 hk0 hne hbelow
    have hge : get_class asize ≤ k0 := by
      by_contra hlt
      exact hne (hlow k0 (by omega))
    obtain ⟨b, hb1, hb2, hb3⟩ := ff_go_first st asize (k0 - get_class asize)
      (num_classes - get_class asize) (get_class asize)
      (by simp only [num_classes] at hk0 ⊢; omega)
      (fun j hj => hbelow (get_class asize + j) (by omega))
      (by rw [show get_class asize + (k0 - get_class asize) = k0 by omega]; exact hne)
    rw [show get_class asize + (k0 - get_class asize) = k0 by omega] at hb2 hb3
    exact ⟨b, hb1, hb2, hb3⟩

/-- Scenario 6 of the spec as a concrete state for C3: free blocks of
sizes 48 (class 2), 64 (class 3) and 80 (class 4); a request of
adjusted size 48 must pick the 48-byte block from class 2. -/
def demoC3 : AState :=
  { mem := fun a => if a = 1000 then 50 else if a = 2000 then 66
      else if a = 3000 then 82 else 0
    bytes := fun _ => 0
    segList := fun k => if k = 2 then [1000] else if k = 3 then [2000]
      else if k = 4 then [3000] else []
    heapStart := 0
    lo := 0
    brk := 0
    hiLimit := 0 }

/-- Witness for C3: on `demoC3` with `asize = 48` the first class with
a candidate is class 2 and `find_fit` returns the 48-byte block at
address 1000. -/
theorem claim_C3_find_fit_witness :
    (16 ≤ 48 ∧ (∀ k, k < num_classes → ∀ b ∈ demoC3.segList k,
      get_class (get_size demoC3.mem b) = k)) ∧
    (∃ b, find_fit demoC3 48 = some b ∧
      b ∈ (cand demoC3.mem 48 (demoC3.segList 2)).take max_search ∧
      ∀ c ∈ (cand demoC3.mem 48 (demoC3.segList 2)).take max_search,
        get_size demoC3.mem b ≤ get_size demoC3.mem c) := by
  refine ⟨⟨by decide, by decide⟩, ?_⟩
  exact (claim_C3_find_fit demoC3 48 (by decide) (by decide)).2 2 (by decide)
    (by decide) (by decide)

/-- Witness for C8: `zeroed_allocate(2^63, 4)` overflows and returns
null from the pristine state; `zeroed_allocate(2, 8)` succeeds at
payload address 32 and its 16 bytes read back zero. -/
theorem claim_C8_calloc_overflow_and_zero_witness :
    u64 ≤ 2 ^ 63 * 4 ∧ (mm_calloc st0 (2 ^ 63) 4).1 = none ∧
    (∀ i, i < 2 * 8 → ((mm_calloc st0 2 8).2).bytes (32 + i) = 0) := by
  refine ⟨by norm_num [u64],
    (claim_C8_calloc_overflow_and_zero st0 (2 ^ 63) 4).1 (by norm_num [u64]), ?_⟩
  intro i hi
  refine (claim_C8_calloc_overflow_and_zero st0 2 8).2 32 (mm_calloc st0 2 8).2
    ?_ i hi
  have h1 : (mm_calloc st0 2 8).1 = some 32 := by decide
  rw [← h1]

/-- C4: placing an adjusted request of size `asize` in a block `b` of
size at least `asize`.  When the slack `b.size - asize` is at least a
minimum block: `b` is rewritten as allocated with size `asize` and its
own prev flags preserved; a free remainder of size `b.size - asize` is
created at `b + asize` with prev-allocated true and prev-mini tracking
`asize = 16`; the remainder is inserted at the head of the list of the
class of its size; and the block after the remainder keeps its size and
allocated bit but gets prev-allocated false and prev-mini tracking the
remainder.  When the slack is below a minimum block no split occurs,
`b`'s header is untouched (it keeps its full size), and the block after
`b` gets prev-allocated true and prev-mini tracking `b.size = 16`. -/
theorem claim_C4_split_block (st : AState) (b asize : Nat)
    (h16 : 16 ≤ asize) (hmod : asize % 16 = 0)
    (hle : asize ≤ get_size st.mem b) :
    (16 ≤ get_size st.mem b - asize →
      (get_size (split_block st b asize).mem b = asize ∧
       get_alloc (split_block st b asize).mem b = true ∧
       get_prev_alloc (split_block st b asize).mem b = get_prev_alloc st.mem b ∧
       get_prev_mini (split_block st b asize).mem b = get_prev_mini st.mem b) ∧
      (get_size (split_block st b asize).mem (b + asize) =
         get_size st.mem b - asize ∧
       get_alloc (split_block st b asize).mem (b + asize) = false ∧
       get_prev_alloc (split_block st b asize).mem (b + asize) = true ∧
       get_prev_mini (split_block st b asize).mem (b + asize) =
         decide (asize = 16)) ∧
      ((split_block st b asize).segList
          (get_class (get_size st.mem b - asize))).head? = some (b + asize) ∧
      (get_size (split_block st b asize).mem (b + get_size st.mem b) =
         extract_size (st.mem (b + get_size st.mem b)) ∧
       get_alloc (split_block st b asize).mem (b + get_size st.mem b) =
         extract_alloc (st.mem (b + get_size st.mem b)) ∧
       get_prev_alloc (split_block st b asize).mem (b + get_size st.mem b) =
         false ∧
       get_prev_mini (split_block st b asize).mem (b + get_size st.mem b) =
         decide (get_size st.mem b - asize = 16))) ∧
    (get_size st.mem b - asize < 16 →
      ((split_block st b asize).mem b = st.mem b ∧
       get_size (split_block st b asize).mem b = get_size st.mem b) ∧
      (get_size (split_block st b asize).mem (b + get_size st.mem b) =
         extract_size (st.mem (b + get_size st.mem b)) ∧
       get_alloc (split_block st b asize).mem (b + get_size st.mem b) =
         extract_alloc (st.mem (b + get_size st.mem b)) ∧
       get_prev_alloc (split_block st b asize).mem (b + get_size st.mem b) =
         true ∧
       get_prev_mini (split_block st b asize).mem (b + get_size st.mem b) =
         decide (get_size st.mem b = 16))) := by
  have hbsm : get_size st.mem b % 16 = 0 := extract_size_mod _
  constructor
  · intro hsplit
    have hssm : (get_size st.mem b - asize) % 16 = 0 := by omega
    obtain ⟨h1, h2, h3, h4⟩ := split_block_split_reads st b asize h16 hmod hsplit
    refine ⟨?_, ?_, ?_, ?_⟩
    · rw [get_size, get_alloc, get_prev_alloc, get_prev_mini, h1,
        extract_size_pack _ _ _ _ hmod, extract_alloc_pack _ _ _ _ hmod,
        extract_prev_alloc_pack _ _ _ _ hmod, extract_prev_mini_pack _ _ _ _ hmod]
      exact ⟨rfl, rfl, rfl, rfl⟩
    · rw [get_size, get_alloc, get_prev_alloc, get_prev_mini, h2,
        extract_size_pack _ _ _ _ hssm, extract_alloc_pack _ _ _ _ hssm,
        extract_prev_alloc_pack _ _ _ _ hssm, extract_prev_mini_pack _ _ _ _ hssm]
      exact ⟨rfl, rfl, rfl, rfl⟩
    · rw [h4]
      simp
    · have hzm : extract_size (st.mem (b + get_size st.mem b)) % 16 = 0 :=
        extract_size_mod _
      rw [get_size, get_alloc, get_prev_alloc, get_prev_mini, h3,
        extract_size_pack _ _ _ _ hzm, extract_alloc_pack _ _ _ _ hzm,
        extract_prev_alloc_pack _ _ _ _ hzm, extract_prev_mini_pack _ _ _ _ hzm]
      exact ⟨rfl, rfl, rfl, rfl⟩
  · intro hns
    obtain ⟨h1, h2, _⟩ := split_block_nosplit_reads st b asize hns (by omega)
    refine ⟨⟨h1, by rw [get_size, h1]; rfl⟩, ?_⟩
    have hzm : extract_size (st.mem (b + get_size st.mem b)) % 16 = 0 :=
      extract_size_mod _
    rw [get_size, get_alloc, get_prev_alloc, get_prev_mini, h2,
      extract_size_pack _ _ _ _ hzm, extract_alloc_pack _ _ _ _ hzm,
      extract_prev_alloc_pack _ _ _ _ hzm, extract_prev_mini_pack _ _ _ _ hzm]
    exact ⟨rfl, rfl, rfl, rfl⟩

/-- Witness for C4: in the state after `allocate(24)` from the pristine
state, the free 32-byte block at 56 split with adjusted size 16
produces an allocated 16-byte block at 56 and a 16-byte remainder at
72 at the head of the mini class. -/
theorem claim_C4_split_block_witness :
    ((16 : Nat) ≤ 16 ∧ (16 : Nat) % 16 = 0 ∧
      16 ≤ get_size (mm_malloc st0 24).2.mem 56) ∧
    get_size (split_block (mm_malloc st0 24).2 56 16).mem 56 = 16 ∧
    ((split_block (mm_malloc st0 24).2 56 16).segList
      (get_class (get_size (mm_malloc st0 24).2.mem 56 - 16))).head? = some 72 := by
  refine ⟨⟨by decide, by decide, by decide⟩, ?_, ?_⟩
  · exact (((claim_C4_split_block (mm_malloc st0 24).2 56 16 (by decide) (by decide)
      (by decide)).1 (by decide)).1).1
  · exact (((claim_C4_split_block (mm_malloc st0 24).2 56 16 (by decide) (by decide)
      (by decide)).1 (by decide)).2).2.1


theorem coalesce_tail_snd (st : AState) (block1 next1 : Nat) :
    (coalesce_tail st block1 next1).2 = block1 := rfl

theorem coalesce_tail_segList (st : AState) (block1 next1 : Nat) :
    (coalesce_tail st block1 next1).1.segList = st.segList :=
  write_block_segList _ _ _ _ _ _

theorem coalesce_tail_read_other (st : AState) (block1 next1 x : Nat)
    (hx1 : x ≠ next1) (hx2 : x ≠ next1 + get_size st.mem next1 - 8) :
    (coalesce_tail st block1 next1).1.mem x = st.mem x :=
  write_block_read_other _ _ _ _ _ _ _ (extract_size_mod _) hx1 hx2

theorem coalesce_tail_read_next (st : AState) (block1 next1 : Nat) :
    (coalesce_tail st block1 next1).1.mem next1 =
      pack (get_size st.mem next1) (get_alloc st.mem next1) false
        (decide (get_size st.mem block1 = min_block_size)) :=
  write_block_read_self _ _ _ _ _ _ (extract_size_mod _)

/-- Branch selection of `coalesce_block`, case 1 (both neighbours
allocated). -/
theorem coalesce_case1_eq (st : AState) (b : Nat)
    (hpa : get_prev_alloc st.mem b = true)
    (hna : get_alloc st.mem (b + get_size st.mem b) = true) :
    coalesce_block st b =
      coalesce_tail (insert_head st (get_class (get_size st.mem b)) b) b
        (b + get_size st.mem b) := by
  unfold coalesce_block
  simp [find_next, hpa, hna]

/-- Branch selection of `coalesce_block`, case 2 (next free). -/
theorem coalesce_case2_eq (st : AState) (b : Nat)
    (hpa : get_prev_alloc st.mem b = true)
    (hna : get_alloc st.mem (b + get_size st.mem b) = false) :
    coalesce_block st b =
      coalesce_tail
        (insert_head
          (write_block
            (remove_block st (get_class (get_size st.mem (b + get_size st.mem b)))
              (b + get_size st.mem b))
            b (get_size st.mem b + get_size st.mem (b + get_size st.mem b))
            false true (get_prev_mini st.mem b))
          (get_class (get_size st.mem b + get_size st.mem (b + get_size st.mem b)))
          b)
        b (b + (get_size st.mem b + get_size st.mem (b + get_size st.mem b))) := by
  have hsbm : get_size st.mem b % 16 = 0 := extract_size_mod _
  have hsnm : get_size st.mem (b + get_size st.mem b) % 16 = 0 :=
    extract_size_mod _
  have hr : get_size (write_block
      (remove_block st (get_class (get_size st.mem (b + get_size st.mem b)))
        (b + get_size st.mem b))
      b (get_size st.mem b + get_size st.mem (b + get_size st.mem b))
      false true (get_prev_mini st.mem b)).mem b =
      get_size st.mem b + get_size st.mem (b + get_size st.mem b) := by
    rw [get_size, write_block_read_self _ _ _ _ _ _ (by omega),
      extract_size_pack _ _ _ _ (by omega)]
  unfold coalesce_block
  simp [find_next, hpa, hna, remove_block_mem, insert_head_mem, hr]

/-- Reads after `coalesce_block` in case 1: nothing merges; `b` keeps
its header, is pushed on its class's list, and the following block's
header is rewritten with prev-allocated cleared. -/
theorem coalesce_case1_reads (st : AState) (b : Nat)
    (hpa : get_prev_alloc st.mem b = true)
    (hna : get_alloc st.mem (b + get_size st.mem b) = true)
    (hsb : 16 ≤ get_size st.mem b) :
    (coalesce_block st b).2 = b ∧
    (coalesce_block st b).1.mem b = st.mem b ∧
    (coalesce_block st b).1.mem (b + get_size st.mem b) =
      pack (get_size st.mem (b + get_size st.mem b))
        (get_alloc st.mem (b + get_size st.mem b)) false
        (decide (get_size st.mem b = min_block_size)) ∧
    (coalesce_block st b).1.segList =
      fun k => if k = get_class (get_size st.mem b)
        then b :: st.segList (get_class (get_size st.mem b))
        else st.segList k := by
  have hsbm : get_size st.mem b % 16 = 0 := extract_size_mod _
  have hkey := coalesce_case1_eq st b hpa hna
  set st3 := insert_head st (get_class (get_size st.mem b)) b with h3def
  have h3m : st3.mem = st.mem := insert_head_mem _ _ _
  have hTsz : get_size st3.mem (b + get_size st.mem b) =
      get_size st.mem (b + get_size st.mem b) := by rw [h3m]
  have hTal : get_alloc st3.mem (b + get_size st.mem b) =
      get_alloc st.mem (b + get_size st.mem b) := by rw [h3m]
  have hTmod : get_size st.mem (b + get_size st.mem b) % 16 = 0 :=
    extract_size_mod _
  have h3bsz : get_size st3.mem b = get_size st.mem b := by rw [h3m]
  refine ⟨by rw [hkey]; rfl, ?_, ?_, ?_⟩
  · rw [hkey]
    rw [coalesce_tail_read_other _ _ _ _ (by omega) (by rw [hTsz]; omega)]
    rw [h3m]
  · rw [hkey]
    rw [coalesce_tail_read_next, hTsz, hTal, h3bsz]
  · rw [hkey, coalesce_tail_segList, h3def]
    rfl

/-- Reads after `coalesce_block` in case 2: the surviving `b` carries
the summed size, free, with its prev flags preserved; the block after
the merged block keeps size and allocated bit with prev-allocated
cleared; the merged block heads the class of the new size. -/
theorem coalesce_case2_reads (st : AState) (b : Nat)
    (hpa : get_prev_alloc st.mem b = true)
    (hna : get_alloc st.mem (b + get_size st.mem b) = false)
    (hsb : 16 ≤ get_size st.mem b)
    (hsn : 16 ≤ get_size st.mem (b + get_size st.mem b)) :
    (coalesce_block st b).2 = b ∧
    (coalesce_block st b).1.mem b =
      pack (get_size st.mem b + get_size st.mem (b + get_size st.mem b)) false
        true (get_prev_mini st.mem b) ∧
    (coalesce_block st b).1.mem
        (b + (get_size st.mem b + get_size st.mem (b + get_size st.mem b))) =
      pack (get_size st.mem
          (b + (get_size st.mem b + get_size st.mem (b + get_size st.mem b))))
        (get_alloc st.mem
          (b + (get_size st.mem b + get_size st.mem (b + get_size st.mem b))))
        false
        (decide (get_size st.mem b + get_size st.mem (b + get_size st.mem b) =
          min_block_size)) ∧
    (coalesce_block st b).1.segList =
      fun k => if k = get_class
          (get_size st.mem b + get_size st.mem (b + get_size st.mem b))
        then b :: (remove_block st
            (get_class (get_size st.mem (b + get_size st.mem b)))
            (b + get_size st.mem b)).segList
          (get_class (get_size st.mem b + get_size st.mem (b + get_size st.mem b)))
        else (remove_block st
            (get_class (get_size st.mem (b + get_size st.mem b)))
            (b + get_size st.mem b)).segList k := by
  have hsbm : get_size st.mem b % 16 = 0 := extract_size_mod _
  have hsnm : get_size st.mem (b + get_size st.mem b) % 16 = 0 :=
    extract_size_mod _
  have hkey := coalesce_case2_eq st b hpa hna
  set S := get_size st.mem b + get_size st.mem (b + get_size st.mem b) with hS
  set st3 := insert_head
    (write_block
      (remove_block st (get_class (get_size st.mem (b + get_size st.mem b)))
        (b + get_size st.mem b))
      b S false true (get_prev_mini st.mem b))
    (get_class S) b with h3def
  have h3b : st3.mem b = pack S false true (get_prev_mini st.mem b) := by
    rw [h3def]
    rw [insert_head_mem]
    rw [write_block_read_self _ _ _ _ _ _ (by omega)]
  have h3other : ∀ x, x ≠ b → x ≠ b + S - 8 → st3.mem x = st.mem x := by
    intro x h1 h2
    rw [h3def, insert_head_mem,
      write_block_read_other _ _ _ _ _ _ _ (by omega) h1 h2, remove_block_mem]
  have hTmem : st3.mem (b + S) = st.mem (b + S) :=
    h3other _ (by omega) (by omega)
  have hTsz : get_size st3.mem (b + S) = get_size st.mem (b + S) := by
    rw [get_size, get_size, hTmem]
  have hTal : get_alloc st3.mem (b + S) = get_alloc st.mem (b + S) := by
    rw [get_alloc, get_alloc, hTmem]
  have hTmod : get_size st.mem (b + S) % 16 = 0 := extract_size_mod _
  have h3bsz : get_size st3.mem b = S := by
    rw [get_size, h3b, extract_size_pack _ _ _ _ (by omega)]
  refine ⟨by rw [hkey]; rfl, ?_, ?_, ?_⟩
  · rw [hkey]
    rw [coalesce_tail_read_other _ _ _ _ (by omega) (by rw [hTsz]; omega)]
    exact h3b
  · rw [hkey]
    rw [coalesce_tail_read_next, hTsz, hTal, h3bsz]
  · rw [hkey, coalesce_tail_segList, h3def]
    funext k
    simp only [insert_head, write_block_segList]

/-- Branch selection of `coalesce_block`, case 3 (previous free). -/
theorem coalesce_case3_eq (st : AState) (b : Nat)
    (hpa : get_prev_alloc st.mem b = false)
    (hna : get_alloc st.mem (b + get_size st.mem b) = true) :
    coalesce_block st b =
      coalesce_tail
        (insert_head
          (write_block
            (remove_block st (get_class (get_size st.mem (find_prev st.mem b)))
              (find_prev st.mem b))
            (find_prev st.mem b)
            (get_size st.mem b + get_size st.mem (find_prev st.mem b))
            false (get_prev_alloc st.mem (find_prev st.mem b))
            (get_prev_mini st.mem (find_prev st.mem b)))
          (get_class (get_size st.mem b + get_size st.mem (find_prev st.mem b)))
          (find_prev st.mem b))
        (find_prev st.mem b)
        (find_prev st.mem b +
          (get_size st.mem b + get_size st.mem (find_prev st.mem b))) := by
  have hsbm : get_size st.mem b % 16 = 0 := extract_size_mod _
  have hspm : get_size st.mem (find_prev st.mem b) % 16 = 0 := extract_size_mod _
  have hr : get_size (write_block
      (remove_block st (get_class (get_size st.mem (find_prev st.mem b)))
        (find_prev st.mem b))
      (find_prev st.mem b)
      (get_size st.mem b + get_size st.mem (find_prev st.mem b))
      false (get_prev_alloc st.mem (find_prev st.mem b))
      (get_prev_mini st.mem (find_prev st.mem b))).mem (find_prev st.mem b) =
      get_size st.mem b + get_size st.mem (find_prev st.mem b) := by
    rw [get_size, write_block_read_self _ _ _ _ _ _ (by omega),
      extract_size_pack _ _ _ _ (by omega)]
  unfold coalesce_block
  simp [find_next, hpa, hna, remove_block_mem, insert_head_mem, hr]

/-- Branch selection of `coalesce_block`, case 4 (both free). -/
theorem coalesce_case4_eq (st : AState) (b : Nat)
    (hpa : get_prev_alloc st.mem b = false)
    (hna : get_alloc st.mem (b + get_size st.mem b) = false) :
    coalesce_block st b =
      coalesce_tail
        (insert_head
          (write_block
            (remove_block
              (remove_block st
                (get_class (get_size st.mem (b + get_size st.mem b)))
                (b + get_size st.mem b))
              (get_class (get_size st.mem (find_prev st.mem b)))
              (find_prev st.mem b))
            (find_prev st.mem b)
            (get_size st.mem b + get_size st.mem (find_prev st.mem b) +
              get_size st.mem (b + get_size st.mem b))
            false (get_prev_alloc st.mem (find_prev st.mem b))
            (get_prev_mini st.mem (find_prev st.mem b)))
          (get_class (get_size st.mem b + get_size st.mem (find_prev st.mem b) +
            get_size st.mem (b + get_size st.mem b)))
          (find_prev st.mem b))
        (find_prev st.mem b)
        (find_prev st.mem b +
          (get_size st.mem b + get_size st.mem (find_prev st.mem b) +
            get_size st.mem (b + get_size st.mem b))) := by
  have hsbm : get_size st.mem b % 16 = 0 := extract_size_mod _
  have hspm : get_size st.mem (find_prev st.mem b) % 16 = 0 := extract_size_mod _
  have hsnm : get_size st.mem (b + get_size st.mem b) % 16 = 0 :=
    extract_size_mod _
  have hr : get_size (write_block
      (remove_block
        (remove_block st (get_class (get_size st.mem (b + get_size st.mem b)))
          (b + get_size st.mem b))
        (get_class (get_size st.mem (find_prev st.mem b))) (find_prev st.mem b))
      (find_prev st.mem b)
      (get_size st.mem b + get_size st.mem (find_prev st.mem b) +
        get_size st.mem (b + get_size st.mem b))
      false (get_prev_alloc st.mem (find_prev st.mem b))
      (get_prev_mini st.mem (find_prev st.mem b))).mem (find_prev st.mem b) =
      get_size st.mem b + get_size st.mem (find_prev st.mem b) +
        get_size st.mem (b + get_size st.mem b) := by
    rw [get_size, write_block_read_self _ _ _ _ _ _ (by omega),
      extract_size_pack _ _ _ _ (by omega)]
  unfold coalesce_block
  simp [find_next, hpa, hna, remove_block_mem, insert_head_mem, hr]

/-- Reads after `coalesce_block` in case 3: the previous block
survives, carrying the summed size, free, its own prev flags
preserved; the block after the merged span keeps size and allocated
bit with prev-allocated cleared; the survivor heads the class of the
new size. -/
theorem coalesce_case3_reads (st : AState) (b : Nat)
    (hpa : get_prev_alloc st.mem b = false)
    (hna : get_alloc st.mem (b + get_size st.mem b) = true)
    (hsb : 16 ≤ get_size st.mem b)
    (hsp : 16 ≤ get_size st.mem (find_prev st.mem b)) :
    (coalesce_block st b).2 = find_prev st.mem b ∧
    (coalesce_block st b).1.mem (find_prev st.mem b) =
      pack (get_size st.mem b + get_size st.mem (find_prev st.mem b)) false
        (get_prev_alloc st.mem (find_prev st.mem b))
        (get_prev_mini st.mem (find_prev st.mem b)) ∧
    (coalesce_block st b).1.mem (find_prev st.mem b +
        (get_size st.mem b + get_size st.mem (find_prev st.mem b))) =
      pack (get_size st.mem (find_prev st.mem b +
          (get_size st.mem b + get_size st.mem (find_prev st.mem b))))
        (get_alloc st.mem (find_prev st.mem b +
          (get_size st.mem b + get_size st.mem (find_prev st.mem b))))
        false
        (decide (get_size st.mem b + get_size st.mem (find_prev st.mem b) =
          min_block_size)) ∧
    (coalesce_block st b).1.segList =
      fun k => if k = get_class
          (get_size st.mem b + get_size st.mem (find_prev st.mem b))
        then find_prev st.mem b :: (remove_block st
            (get_class (get_size st.mem (find_prev st.mem b)))
            (find_prev st.mem b)).segList
          (get_class (get_size st.mem b + get_size st.mem (find_prev st.mem b)))
        else (remove_block st
            (get_class (get_size st.mem (find_prev st.mem b)))
            (find_prev st.mem b)).segList k := by
  have hsbm : get_size st.mem b % 16 = 0 := extract_size_mod _
  have hspm : get_size st.mem (find_prev st.mem b) % 16 = 0 := extract_size_mod _
  have hkey := coalesce_case3_eq st b hpa hna
  set p := find_prev st.mem b with hpdef
  set S := get_size st.mem b + get_size st.mem p with hS
  set st3 := insert_head
    (write_block (remove_block st (get_class (get_size st.mem p)) p) p S false
      (get_prev_alloc st.mem p) (get_prev_mini st.mem p))
    (get_class S) p with h3def
  have h3p : st3.mem p = pack S false (get_prev_alloc st.mem p)
      (get_prev_mini st.mem p) := by
    rw [h3def, insert_head_mem, write_block_read_self _ _ _ _ _ _ (by omega)]
  have h3other : ∀ x, x ≠ p → x ≠ p + S - 8 → st3.mem x = st.mem x := by
    intro x h1 h2
    rw [h3def, insert_head_mem,
      write_block_read_other _ _ _ _ _ _ _ (by omega) h1 h2, remove_block_mem]
  have hTmem : st3.mem (p + S) = st.mem (p + S) :=
    h3other _ (by omega) (by omega)
  have hTsz : get_size st3.mem (p + S) = get_size st.mem (p + S) := by
    rw [get_size, get_size, hTmem]
  have hTal : get_alloc st3.mem (p + S) = get_alloc st.mem (p + S) := by
    rw [get_alloc, get_alloc, hTmem]
  have hTmod : get_size st.mem (p + S) % 16 = 0 := extract_size_mod _
  have h3psz : get_size st3.mem p = S := by
    rw [get_size, h3p, extract_size_pack _ _ _ _ (by omega)]
  refine ⟨by rw [hkey]; rfl, ?_, ?_, ?_⟩
  · rw [hkey]
    rw [coalesce_tail_read_other _ _ _ _ (by omega) (by rw [hTsz]; omega)]
    exact h3p
  · rw [hkey]
    rw [coalesce_tail_read_next, hTsz, hTal, h3psz]
  · rw [hkey, coalesce_tail_segList, h3def]
    funext k
    simp only [insert_head, write_block_segList]

/-- Reads after `coalesce_block` in case 4: both neighbours are
absorbed into the previous block, which survives with the triple sum as
its size; the block after the merged span keeps size and allocated bit
with prev-allocated cleared; the survivor heads the class of the new
size. -/
theorem coalesce_case4_reads (st : AState) (b : Nat)
    (hpa : get_prev_alloc st.mem b = false)
    (hna : get_alloc st.mem (b + get_size st.mem b) = false)
    (hsb : 16 ≤ get_size st.mem b)
    (hsp : 16 ≤ get_size st.mem (find_prev st.mem b))
    (hsn : 16 ≤ get_size st.mem (b + get_size st.mem b)) :
    (coalesce_block st b).2 = find_prev st.mem b ∧
    (coalesce_block st b).1.mem (find_prev st.mem b) =
      pack (get_size st.mem b + get_size st.mem (find_prev st.mem b) +
          get_size st.mem (b + get_size st.mem b)) false
        (get_prev_alloc st.mem (find_prev st.mem b))
        (get_prev_mini st.mem (find_prev st.mem b)) ∧
    (coalesce_block st b).1.mem (find_prev st.mem b +
        (get_size st.mem b + get_size st.mem (find_prev st.mem b) +
          get_size st.mem (b + get_size st.mem b))) =
      pack (get_size st.mem (find_prev st.mem b +
          (get_size st.mem b + get_size st.mem (find_prev st.mem b) +
            get_size st.mem (b + get_size st.mem b))))
        (get_alloc st.mem (find_prev st.mem b +
          (get_size st.mem b + get_size st.mem (find_prev st.mem b) +
            get_size st.mem (b + get_size st.mem b))))
        false
        (decide (get_size st.mem b + get_size st.mem (find_prev st.mem b) +
          get_size st.mem (b + get_size st.mem b) = min_block_size)) ∧
    (coalesce_block st b).1.segList =
      fun k => if k = get_class
          (get_size st.mem b + get_size st.mem (find_prev st.mem b) +
            get_size st.mem (b + get_size st.mem b))
        then find_prev st.mem b :: (remove_block
            (remove_block st (get_class (get_size st.mem (b + get_size st.mem b)))
              (b + get_size st.mem b))
            (get_class (get_size st.mem (find_prev st.mem b)))
            (find_prev st.mem b)).segList
          (get_class (get_size st.mem b + get_size st.mem (find_prev st.mem b) +
            get_size st.mem (b + get_size st.mem b)))
        else (remove_block
            (remove_block st (get_class (get_size st.mem (b + get_size st.mem b)))
              (b + get_size st.mem b))
            (get_class (get_size st.mem (find_prev st.mem b)))
            (find_prev st.mem b)).segList k := by
  have hsbm : get_size st.mem b % 16 = 0 := extract_size_mod _
  have hspm : get_size st.mem (find_prev st.mem b) % 16 = 0 := extract_size_mod _
  have hsnm : get_size st.mem (b + get_size st.mem b) % 16 = 0 :=
    extract_size_mod _
  have hkey := coalesce_case4_eq st b hpa hna
  set p := find_prev st.mem b with hpdef
  set S := get_size st.mem b + get_size st.mem p +
    get_size st.mem (b + get_size st.mem b) with hS
  set st3 := insert_head
    (write_block
      (remove_block
        (remove_block st (get_class (get_size st.mem (b + get_size st.mem b)))
          (b + get_size st.mem b))
        (get_class (get_size st.mem p)) p)
      p S false (get_prev_alloc st.mem p) (get_prev_mini st.mem p))
    (get_class S) p with h3def
  have h3p : st3.mem p = pack S false (get_prev_alloc st.mem p)
      (get_prev_mini st.mem p) := by
    rw [h3def, insert_head_mem, write_block_read_self _ _ _ _ _ _ (by omega)]
  have h3other : ∀ x, x ≠ p → x ≠ p + S - 8 → st3.mem x = st.mem x := by
    intro x h1 h2
    rw [h3def, insert_head_mem,
      write_block_read_other _ _ _ _ _ _ _ (by omega) h1 h2, remove_block_mem,
      remove_block_mem]
  have hTmem : st3.mem (p + S) = st.mem (p + S) :=
    h3other _ (by omega) (by omega)
  have hTsz : get_size st3.mem (p + S) = get_size st.mem (p + S) := by
    rw [get_size, get_size, hTmem]
  have hTal : get_alloc st3.mem (p + S) = get_alloc st.mem (p + S) := by
    rw [get_alloc, get_alloc, hTmem]
  have hTmod : get_size st.mem (p + S) % 16 = 0 := extract_size_mod _
  have h3psz : get_size st3.mem p = S := by
    rw [get_size, h3p, extract_size_pack _ _ _ _ (by omega)]
  refine ⟨by rw [hkey]; rfl, ?_, ?_, ?_⟩
  · rw [hkey]
    rw [coalesce_tail_read_other _ _ _ _ (by omega) (by rw [hTsz]; omega)]
    exact h3p
  · rw [hkey]
    rw [coalesce_tail_read_next, hTsz, hTal, h3psz]
  · rw [hkey, coalesce_tail_segList, h3def]
    funext k
    simp only [insert_head, write_block_segList]

/-- The surviving block of a coalesce, decided by the header flags the
code reads: `b` itself unless the previous block is free. -/
def coalesce_surv (m : Nat → Nat) (b : Nat) : Nat :=
  if get_prev_alloc m b then b else find_prev m b

/-- The surviving block's size: the sum of the sizes of the merged
blocks (`b` plus its free neighbours). -/
def coalesce_size (m : Nat → Nat) (b : Nat) : Nat :=
  get_size m b +
    (if get_prev_alloc m b then 0 else get_size m (find_prev m b)) +
    (if get_alloc m (b + get_size m b) then 0 else get_size m (b + get_size m b))

/-- C2: for a block `b` already marked free whose header flags are
accurate, `coalesce_block` merges `b` with each free neighbour (four
cases on the prev-allocated flag and the next block's allocated bit):
the returned surviving block has the summed size, is free, and sits at
the head of the free list of the class of the new size; and the header
of the block following the surviving block is rewritten preserving its
size and allocated bit while clearing prev-allocated and setting
prev-mini to whether the surviving block is a mini block. -/
theorem claim_C2_coalesce_block (st : AState) (b : Nat)
    (hfree : get_alloc st.mem b = false)
    (hsb : 16 ≤ get_size st.mem b)
    (hnext : get_alloc st.mem (b + get_size st.mem b) = false →
      16 ≤ get_size st.mem (b + get_size st.mem b))
    (hprev : get_prev_alloc st.mem b = false →
      (get_alloc st.mem (find_prev st.mem b) = false ∧
       16 ≤ get_size st.mem (find_prev st.mem b) ∧
       find_prev st.mem b + get_size st.mem (find_prev st.mem b) = b)) :
    (coalesce_block st b).2 = coalesce_surv st.mem b ∧
    get_size (coalesce_block st b).1.mem (coalesce_surv st.mem b) =
      coalesce_size st.mem b ∧
    get_alloc (coalesce_block st b).1.mem (coalesce_surv st.mem b) = false ∧
    ((coalesce_block st b).1.segList
        (get_class (coalesce_size st.mem b))).head? =
      some (coalesce_surv st.mem b) ∧
    (get_size (coalesce_block st b).1.mem
        (coalesce_surv st.mem b + coalesce_size st.mem b) =
      get_size st.mem (coalesce_surv st.mem b + coalesce_size st.mem b) ∧
     get_alloc (coalesce_block st b).1.mem
        (coalesce_surv st.mem b + coalesce_size st.mem b) =
      get_alloc st.mem (coalesce_surv st.mem b + coalesce_size st.mem b) ∧
     get_prev_alloc (coalesce_block st b).1.mem
        (coalesce_surv st.mem b + coalesce_size st.mem b) = false ∧
     get_prev_mini (coalesce_block st b).1.mem
        (coalesce_surv st.mem b + coalesce_size st.mem b) =
      decide (coalesce_size st.mem b = min_block_size)) := by
  have hsbm : get_size st.mem b % 16 = 0 := extract_size_mod _
  by_cases hpa : get_prev_alloc st.mem b = true
  · by_cases hna : get_alloc st.mem (b + get_size st.mem b) = true
    · -- case 1
      obtain ⟨h1, h2, h3, h4⟩ := coalesce_case1_reads st b hpa hna hsb
      have hsurv : coalesce_surv st.mem b = b := by simp [coalesce_surv, hpa]
      have hsz : coalesce_size st.mem b = get_size st.mem b := by
        simp [coalesce_size, hpa, hna]
      rw [hsurv, hsz]
      have hTm : get_size st.mem (b + get_size st.mem b) % 16 = 0 :=
        extract_size_mod _
      refine ⟨h1, ?_, ?_, ?_, ?_, ?_, ?_, ?_⟩
      · rw [get_size, h2]
        rfl
      · rw [get_alloc, h2]
        exact hfree
      · rw [h4]
        simp
      · rw [get_size, h3, extract_size_pack _ _ _ _ hTm]
      · rw [get_alloc, h3, extract_alloc_pack _ _ _ _ hTm]
      · rw [get_prev_alloc, h3, extract_prev_alloc_pack _ _ _ _ hTm]
      · rw [get_prev_mini, h3, extract_prev_mini_pack _ _ _ _ hTm]
    · -- case 2
      have hna' : get_alloc st.mem (b + get_size st.mem b) = false := by
        simpa using hna
      have hsn : 16 ≤ get_size st.mem (b + get_size st.mem b) := hnext hna'
      have hsnm : get_size st.mem (b + get_size st.mem b) % 16 = 0 :=
        extract_size_mod _
      obtain ⟨h1, h2, h3, h4⟩ := coalesce_case2_reads st b hpa hna' hsb hsn
      have hsurv : coalesce_surv st.mem b = b := by simp [coalesce_surv, hpa]
      have hsz : coalesce_size st.mem b =
          get_size st.mem b + get_size st.mem (b + get_size st.mem b) := by
        simp [coalesce_size, hpa, hna']
      rw [hsurv, hsz]
      have hTm : get_size st.mem
          (b + (get_size st.mem b + get_size st.mem (b + get_size st.mem b))) %
            16 = 0 := extract_size_mod _
      refine ⟨h1, ?_, ?_, ?_, ?_, ?_, ?_, ?_⟩
      · rw [get_size, h2, extract_size_pack _ _ _ _ (by omega)]
      · rw [get_alloc, h2, extract_alloc_pack _ _ _ _ (by omega)]
      · rw [h4]
        simp
      · rw [get_size, h3, extract_size_pack _ _ _ _ hTm]
      · rw [get_alloc, h3, extract_alloc_pack _ _ _ _ hTm]
      · rw [get_prev_alloc, h3, extract_prev_alloc_pack _ _ _ _ hTm]
      · rw [get_prev_mini, h3, extract_prev_mini_pack _ _ _ _ hTm]
  · -- prev free
    have hpa' : get_prev_alloc st.mem b = false := by simpa using hpa
    obtain ⟨hpfree, hsp, hpadj⟩ := hprev hpa'
    have hspm : get_size st.mem (find_prev st.mem b) % 16 = 0 :=
      extract_size_mod _
    have hsurv : coalesce_surv st.mem b = find_prev st.mem b := by
      simp [coalesce_surv, hpa']
    by_cases hna : get_alloc st.mem (b + get_size st.mem b) = true
    · -- case 3
      obtain ⟨h1, h2, h3, h4⟩ := coalesce_case3_reads st b hpa' hna hsb hsp
      have hsz : coalesce_size st.mem b =
          get_size st.mem b + get_size st.mem (find_prev st.mem b) := by
        simp [coalesce_size, hpa', hna]
      rw [hsurv, hsz]
      have hTm : get_size st.mem (find_prev st.mem b +
          (get_size st.mem b + get_size st.mem (find_prev st.mem b))) % 16 = 0 :=
        extract_size_mod _
      refine ⟨h1, ?_, ?_, ?_, ?_, ?_, ?_, ?_⟩
      · rw [get_size, h2, extract_size_pack _ _ _ _ (by omega)]
      · rw [get_alloc, h2, extract_alloc_pack _ _ _ _ (by omega)]
      · rw [h4]
        simp
      · rw [get_size, h3, extract_size_pack _ _ _ _ hTm]
      · rw [get_alloc, h3, extract_alloc_pack _ _ _ _ hTm]
      · rw [get_prev_alloc, h3, extract_prev_alloc_pack _ _ _ _ hTm]
      · rw [get_prev_mini, h3, extract_prev_mini_pack _ _ _ _ hTm]
    · -- case 4
      have hna' : get_alloc st.mem (b + get_size st.mem b) = false := by
        simpa using hna
      have hsn : 16 ≤ get_size st.mem (b + get_size st.mem b) := hnext hna'
      have hsnm : get_size st.mem (b + get_size st.mem b) % 16 = 0 :=
        extract_size_mod _
      obtain ⟨h1, h2, h3, h4⟩ := coalesce_case4_reads st b hpa' hna' hsb hsp hsn
      have hsz : coalesce_size st.mem b =
          get_size st.mem b + get_size st.mem (find_prev st.mem b) +
            get_size st.mem (b + get_size st.mem b) := by
        simp [coalesce_size, hpa', hna']
      rw [hsurv, hsz]
      have hTm : get_size st.mem (find_prev st.mem b +
          (get_size st.mem b + get_size st.mem (find_prev st.mem b) +
            get_size st.mem (b + get_size st.mem b))) % 16 = 0 :=
        extract_size_mod _
      refine ⟨h1, ?_, ?_, ?_, ?_, ?_, ?_, ?_⟩
      · rw [get_size, h2, extract_size_pack _ _ _ _ (by omega)]
      · rw [get_alloc, h2, extract_alloc_pack _ _ _ _ (by omega)]
      · rw [h4]
        simp
      · rw [get_size, h3, extract_size_pack _ _ _ _ hTm]
      · rw [get_alloc, h3, extract_alloc_pack _ _ _ _ hTm]
      · rw [get_prev_alloc, h3, extract_prev_alloc_pack _ _ _ _ hTm]
      · rw [get_prev_mini, h3, extract_prev_mini_pack _ _ _ _ hTm]

/-- A heap for the C2 witness: prologue at 8, a just-freed 32-byte
block at 16 (prev-allocated set), a free 32-byte block at 48 in class
1's list, epilogue at 80.  Coalescing 16 exercises the next-free case. -/
def demoC2 : AState :=
  { mem := fun a => if a = 8 then 3 else if a = 16 then 34 else if a = 40 then 34
      else if a = 48 then 34 else if a = 72 then 34 else if a = 80 then 1 else 0
    bytes := fun _ => 0
    segList := fun k => if k = 1 then [48] else []
    heapStart := 16
    lo := 0
    brk := 88
    hiLimit := 88 }

/-- Witness for C2 on `demoC2`: the freed 32-byte block at 16 merges
with the free 32-byte block after it into a 64-byte free block that
returns as the survivor, heads class 3's list, and the epilogue's
header is rewritten with prev-allocated cleared. -/
theorem claim_C2_coalesce_block_witness :
    (get_alloc demoC2.mem 16 = false ∧ 16 ≤ get_size demoC2.mem 16) ∧
    (coalesce_block demoC2 16).2 = coalesce_surv demoC2.mem 16 ∧
    get_size (coalesce_block demoC2 16).1.mem (coalesce_surv demoC2.mem 16) =
      coalesce_size demoC2.mem 16 ∧
    ((coalesce_block demoC2 16).1.segList
        (get_class (coalesce_size demoC2.mem 16))).head? =
      some (coalesce_surv demoC2.mem 16) := by
  have h := claim_C2_coalesce_block demoC2 16 (by decide) (by decide)
    (by decide) (by decide)
  exact ⟨⟨by decide, by decide⟩, h.1, h.2.1, h.2.2.2.1⟩

theorem write_epilogue_bytes (st : AState) (b : Nat) :
    (write_epilogue st b).bytes = st.bytes := rfl

theorem mem_sbrk_bytes (st : AState) (n : Nat) :
    (mem_sbrk st n).2.bytes = st.bytes := by
  unfold mem_sbrk
  split <;> rfl

theorem coalesce_block_bytes (st : AState) (b : Nat) :
    (coalesce_block st b).1.bytes = st.bytes := by
  by_cases hpa : get_prev_alloc st.mem b = true
  · by_cases hna : get_alloc st.mem (b + get_size st.mem b) = true
    · rw [coalesce_case1_eq st b hpa hna]
      rw [show (coalesce_tail _ _ _).1.bytes = _ from write_block_bytes _ _ _ _ _ _]
      rfl
    · have hna' : get_alloc st.mem (b + get_size st.mem b) = false := by
        simpa using hna
      rw [coalesce_case2_eq st b hpa hna']
      rw [show (coalesce_tail _ _ _).1.bytes = _ from write_block_bytes _ _ _ _ _ _]
      rw [show (insert_head _ _ _).bytes = _ from insert_head_bytes _ _ _]
      rw [write_block_bytes, remove_block_bytes]
  · have hpa' : get_prev_alloc st.mem b = false := by simpa using hpa
    by_cases hna : get_alloc st.mem (b + get_size st.mem b) = true
    · rw [coalesce_case3_eq st b hpa' hna]
      rw [show (coalesce_tail _ _ _).1.bytes = _ from write_block_bytes _ _ _ _ _ _]
      rw [show (insert_head _ _ _).bytes = _ from insert_head_bytes _ _ _]
      rw [write_block_bytes, remove_block_bytes]
    · have hna' : get_alloc st.mem (b + get_size st.mem b) = false := by
        simpa using hna
      rw [coalesce_case4_eq st b hpa' hna']
      rw [show (coalesce_tail _ _ _).1.bytes = _ from write_block_bytes _ _ _ _ _ _]
      rw [show (insert_head _ _ _).bytes = _ from insert_head_bytes _ _ _]
      rw [write_block_bytes, remove_block_bytes, remove_block_bytes]

theorem extend_heap_bytes (st : AState) (size : Nat) :
    (extend_heap st size).2.bytes = st.bytes := by
  simp only [extend_heap]
  rcases hsb : mem_sbrk st (round_up size dsize) with ⟨r, st1⟩
  have hb1 : st1.bytes = st.bytes := by
    have h := mem_sbrk_bytes st (round_up size dsize)
    rw [hsb] at h
    exact h
  cases r with
  | none => exact hb1
  | some bp =>
    simp only [coalesce_block_bytes, write_epilogue_bytes, write_block_bytes]
    exact hb1

theorem split_block_bytes (st : AState) (b asize : Nat) :
    (split_block st b asize).bytes = st.bytes := by
  simp only [split_block]
  split
  · simp only [write_block_bytes, insert_head_bytes, remove_block_bytes]
  · simp only [write_block_bytes, remove_block_bytes]

theorem malloc_place_bytes (st : AState) (b asize : Nat) :
    (malloc_place st b asize).2.bytes = st.bytes := by
  simp only [malloc_place]
  simp only [split_block_bytes, write_block_bytes]

theorem mm_init_bytes (st : AState) :
    (mm_init st).2.bytes = st.bytes := by
  simp only [mm_init]
  rcases hsb : mem_sbrk st (2 * wsize) with ⟨r, st1⟩
  have hb1 : st1.bytes = st.bytes := by
    have h := mem_sbrk_bytes st (2 * wsize)
    rw [hsb] at h
    exact h
  cases r with
  | none => exact hb1
  | some start =>
    simp only []
    rcases hex : extend_heap { st1 with
        mem := wset (wset st1.mem start (pack 0 true true false)) (start + wsize)
          (pack 0 true true false),
        heapStart := start + wsize,
        segList := fun _ => [] } chunksize with ⟨r2, st2⟩
    have hb2 : st2.bytes = st1.bytes := by
      have h := extend_heap_bytes { st1 with
        mem := wset (wset st1.mem start (pack 0 true true false)) (start + wsize)
          (pack 0 true true false),
        heapStart := start + wsize,
        segList := fun _ => [] } chunksize
      rw [hex] at h
      exact h
    cases r2 <;> simp only [] <;> rw [hb2, hb1]

theorem mm_malloc_bytes (st : AState) (size : Nat) :
    (mm_malloc st size).2.bytes = st.bytes := by
  simp only [mm_malloc]
  rcases hini : (if st.heapStart = 0 then mm_init st else (true, st)) with ⟨ok, stI⟩
  have hbI : stI.bytes = st.bytes := by
    by_cases h0 : st.heapStart = 0
    · rw [if_pos h0] at hini
      have h := mm_init_bytes st
      rw [hini] at h
      exact h
    · rw [if_neg h0] at hini
      cases hini
      rfl
  cases ok with
  | false => exact hbI
  | true =>
    simp only []
    by_cases hsz : size = 0
    · rw [if_pos hsz]
      exact hbI
    · rw [if_neg hsz]
      rcases hff : find_fit stI (malloc_asize size) with _ | blk
      · simp only []
        rcases hex : extend_heap stI (cmax (malloc_asize size) chunksize)
          with ⟨r2, st2⟩
        have hb2 : st2.bytes = stI.bytes := by
          have h := extend_heap_bytes stI (cmax (malloc_asize size) chunksize)
          rw [hex] at h
          exact h
        cases r2 with
        | none => rw [hb2, hbI]
        | some blk =>
          simp only [malloc_place_bytes]
          rw [hb2, hbI]
      · simp only [malloc_place_bytes]
        exact hbI

theorem mem_memcpy_mem (st : AState) (dst src n : Nat) :
    (mem_memcpy st dst src n).mem = st.mem := rfl

theorem mm_free_bytes (st : AState) (bp : Nat) :
    (mm_free st bp).bytes = st.bytes := by
  unfold mm_free
  split
  · rfl
  · simp only [coalesce_block_bytes, write_block_bytes]

/-- One segment of the implicit heap walk, carrying the previous
block's status as seeds: `walkSeg m pa pm a l c pa' pm'` says the
blocks of `l` tile the addresses from `a` to `c`, each with size at
least a minimum block, with accurate prev-allocated / prev-mini flags
(seeded with `pa`, `pm` and ending with `pa'`, `pm'`), with no free
block followed by a free block and with every free non-mini
block carrying a footer that records its size. -/
def walkSeg (m : Nat → Nat) : Bool → Bool → Nat → List Nat → Nat → Bool → Bool → Prop
  | pa, pm, a, [], c, pa', pm' => a = c ∧ pa' = pa ∧ pm' = pm
  | pa, pm, a, x :: xs, c, pa', pm' => x = a ∧ 16 ≤ get_size m a ∧
      get_prev_alloc m a = pa ∧ get_prev_mini m a = pm ∧
      (get_alloc m a = false → get_size m a ≠ 16 →
        extract_size (m (a + get_size m a - 8)) = get_size m a) ∧
      walkSeg m (get_alloc m a) (decide (get_size m a = 16))
        (a + get_size m a) xs c pa' pm'

/-- Coherence of the segregated lists with the walk: every listed block
is a free walk block of the list's class, and each list has no
duplicates. -/
def listsOk (st : AState) (bs : List Nat) : Prop :=
  ∀ k, (∀ x ∈ st.segList k, x ∈ bs ∧ get_alloc st.mem x = false ∧
    get_class (get_size st.mem x) = k) ∧ (st.segList k).Nodup

/-- No two adjacent blocks of the walk are both free. -/
def noAdjL (m : Nat → Nat) (l : List Nat) : Prop :=
  List.Chain' (fun x y => get_alloc m x = false → get_alloc m y = true) l

/-- Well-formedness of an initialised heap state: the walk from
`heap_start` tiles the heap up to the epilogue at `brk - 8`, the
epilogue is an allocated zero-size word whose prev flags are accurate,
and the segregated lists cohere with the walk. -/
structure Wf (st : AState) (bs : List Nat) (paE pmE : Bool) : Prop where
  hs0 : st.heapStart ≠ 0
  hs8 : 8 ≤ st.heapStart
  walk : walkSeg st.mem true false st.heapStart bs (st.brk - 8) paE pmE
  epi_size : get_size st.mem (st.brk - 8) = 0
  epi_alloc : get_alloc st.mem (st.brk - 8) = true
  epi_pa : get_prev_alloc st.mem (st.brk - 8) = paE
  epi_pm : get_prev_mini st.mem (st.brk - 8) = pmE
  noadj : noAdjL st.mem bs
  lists : listsOk st bs

/-- The invariant carried through every public API call. -/
def AllocInv (st : AState) : Prop :=
  st.heapStart = 0 ∨ ∃ bs paE pmE, Wf st bs paE pmE

theorem walkSeg_append (m : Nat → Nat) (l1 : List Nat) :
    ∀ l2 pa pm a c d pa1 pm1 pa2 pm2,
    walkSeg m pa pm a l1 c pa1 pm1 → walkSeg m pa1 pm1 c l2 d pa2 pm2 →
    walkSeg m pa pm a (l1 ++ l2) d pa2 pm2 := by
  induction l1 with
  | nil =>
    intro l2 pa pm a c d pa1 pm1 pa2 pm2 h1 h2
    obtain ⟨rfl, rfl, rfl⟩ := h1
    simpa using h2
  | cons x xs ih =>
    intro l2 pa pm a c d pa1 pm1 pa2 pm2 h1 h2
    obtain ⟨hx, hsz, hpa, hpm, hft, hrest⟩ := h1
    exact ⟨hx, hsz, hpa, hpm, hft, ih l2 _ _ _ _ _ _ _ _ _ hrest h2⟩

theorem walkSeg_split (m : Nat → Nat) (b : Nat) (l : List Nat) :
    ∀ pa pm a c pa2 pm2, b ∈ l →
    walkSeg m pa pm a l c pa2 pm2 →
    ∃ l1 l2 pa1 pm1, l = l1 ++ b :: l2 ∧
      walkSeg m pa pm a l1 b pa1 pm1 ∧
      16 ≤ get_size m b ∧
      get_prev_alloc m b = pa1 ∧ get_prev_mini m b = pm1 ∧
      (get_alloc m b = false → get_size m b ≠ 16 →
        extract_size (m (b + get_size m b - 8)) = get_size m b) ∧
      walkSeg m (get_alloc m b) (decide (get_size m b = 16))
        (b + get_size m b) l2 c pa2 pm2 := by
  induction l with
  | nil => intro pa pm a c pa2 pm2 hmem; exact absurd hmem (by simp)
  | cons x xs ih =>
    intro pa pm a c pa2 pm2 hmem hw
    obtain ⟨hx, hsz, hpa, hpm, hft, hrest⟩ := hw
    rcases List.mem_cons.mp hmem with rfl | hmem'
    · subst hx
      exact ⟨[], xs, pa, pm, rfl, ⟨rfl, rfl, rfl⟩, hsz, hpa, hpm, hft, hrest⟩
    · obtain ⟨l1, l2, pa1, pm1, heq, hw1, hb⟩ := ih _ _ _ _ _ _ hmem' hrest
      subst hx
      refine ⟨x :: l1, l2, pa1, pm1, by rw [heq]; rfl, ?_, hb⟩
      exact ⟨rfl, hsz, hpa, hpm, hft, hw1⟩

theorem walkSeg_congr (m m' : Nat → Nat) (l : List Nat) :
    ∀ pa pm a c pa2 pm2,
    walkSeg m pa pm a l c pa2 pm2 →
    (∀ x ∈ l, m' x = m x ∧
      m' (x + get_size m x - 8) = m (x + get_size m x - 8)) →
    walkSeg m' pa pm a l c pa2 pm2 := by
  induction l with
  | nil =>
    intro pa pm a c pa2 pm2 hw _
    exact hw
  | cons x xs ih =>
    intro pa pm a c pa2 pm2 hw hcells
    obtain ⟨hx, hsz, hpa, hpm, hft, hrest⟩ := hw
    subst hx
    obtain ⟨hh, hf⟩ := hcells x (by simp)
    have hsz' : get_size m' x = get_size m x := by rw [get_size, get_size, hh]
    have hal' : get_alloc m' x = get_alloc m x := by rw [get_alloc, get_alloc, hh]
    refine ⟨rfl, by omega, ?_, ?_, ?_, ?_⟩
    · rw [get_prev_alloc, hh]
      exact hpa
    · rw [get_prev_mini, hh]
      exact hpm
    · intro hfree hnm
      rw [hsz', hf]
      exact hft (by rw [← hal']; exact hfree) (by rw [← hsz']; exact hnm)
    · rw [hsz', hal']
      refine ih _ _ _ _ _ _ hrest ?_
      intro y hy
      exact hcells y (by simp [hy])

theorem walkSeg_lb (m : Nat → Nat) (l : List Nat) :
    ∀ pa pm a c pa2 pm2, walkSeg m pa pm a l c pa2 pm2 →
    a ≤ c ∧ ∀ x ∈ l, a ≤ x ∧ x + get_size m x ≤ c ∧ 16 ≤ get_size m x := by
  induction l with
  | nil =>
    intro pa pm a c pa2 pm2 hw
    obtain ⟨rfl, _, _⟩ := hw
    exact ⟨le_refl _, by simp⟩
  | cons x xs ih =>
    intro pa pm a c pa2 pm2 hw
    obtain ⟨hx, hsz, _, _, _, hrest⟩ := hw
    subst hx
    obtain ⟨hle, hmem⟩ := ih _ _ _ _ _ _ hrest
    refine ⟨by omega, ?_⟩
    intro y hy
    rcases List.mem_cons.mp hy with rfl | hy'
    · exact ⟨le_refl _, by omega, hsz⟩
    · have := hmem y hy'
      omega

theorem walkSeg_len (m : Nat → Nat) (l : List Nat) :
    ∀ pa pm a c pa2 pm2, walkSeg m pa pm a l c pa2 pm2 →
    a + 16 * l.length ≤ c ∨ l = [] := by
  induction l with
  | nil => intro _ _ _ _ _ _ _; exact Or.inr rfl
  | cons x xs ih =>
    intro pa pm a c pa2 pm2 hw
    obtain ⟨hx, hsz, _, _, _, hrest⟩ := hw
    subst hx
    rcases ih _ _ _ _ _ _ hrest with h | rfl
    · left
      simp only [List.length_cons]
      omega
    · left
      obtain ⟨rfl, _, _⟩ := hrest
      simp only [List.length_cons, List.length_nil]
      omega

/-- A walk preserved under any memory change at or beyond its endpoint. -/
theorem walkSeg_pres_lt (m m' : Nat → Nat) (l : List Nat) (pa pm : Bool)
    (a v : Nat) (pa1 pm1 : Bool)
    (hw : walkSeg m pa pm a l v pa1 pm1)
    (hcells : ∀ c, c < v → m' c = m c) :
    walkSeg m' pa pm a l v pa1 pm1 := by
  refine walkSeg_congr m m' l _ _ _ _ _ _ hw ?_
  intro x hx
  have hb := (walkSeg_lb m l _ _ _ _ _ _ hw).2 x hx
  exact ⟨hcells x (by omega), hcells _ (by omega)⟩

/-- Decompose a nonempty walk at its last block. -/
theorem walkSeg_last (m : Nat → Nat) (l : List Nat) :
    ∀ pa pm a c pa2 pm2, walkSeg m pa pm a l c pa2 pm2 →
    (l = [] ∧ a = c ∧ pa2 = pa ∧ pm2 = pm) ∨
    ∃ l' y, l = l' ++ [y] ∧
      walkSeg m pa pm a l' y (get_prev_alloc m y) (get_prev_mini m y) ∧
      y + get_size m y = c ∧ 16 ≤ get_size m y ∧
      pa2 = get_alloc m y ∧ pm2 = decide (get_size m y = 16) ∧
      (get_alloc m y = false → get_size m y ≠ 16 →
        extract_size (m (y + get_size m y - 8)) = get_size m y) := by
  induction l with
  | nil =>
    intro pa pm a c pa2 pm2 hw
    obtain ⟨rfl, rfl, rfl⟩ := hw
    exact Or.inl ⟨rfl, rfl, rfl, rfl⟩
  | cons x xs ih =>
    intro pa pm a c pa2 pm2 hw
    obtain ⟨hx, hsz, hpa, hpm, hft, hrest⟩ := hw
    subst hx
    rcases ih _ _ _ _ _ _ hrest with ⟨rfl, he, hpe, hme⟩ | ⟨l', y, heq, hw', hyc, hysz, hpe, hme, hyft⟩
    · refine Or.inr ⟨[], x, rfl, ⟨rfl, hpa, hpm⟩, he, hsz, ?_, ?_, hft⟩
      · rw [hpe]
      · rw [hme]
    · refine Or.inr ⟨x :: l', y, by rw [heq]; rfl, ?_, hyc, hysz, hpe, hme, hyft⟩
      exact ⟨rfl, hsz, hpa, hpm, hft, hw'⟩

/-- `noAdjL` only depends on the allocated bit of the listed blocks. -/
theorem noAdjL_congr (m m' : Nat → Nat) (l : List Nat)
    (h : ∀ x ∈ l, get_alloc m' x = get_alloc m x) (hn : noAdjL m l) :
    noAdjL m' l := by
  induction l with
  | nil => exact List.chain'_nil
  | cons x xs ih =>
    cases xs with
    | nil => exact List.chain'_singleton x
    | cons y t =>
      rw [noAdjL, List.chain'_cons] at hn ⊢
      refine ⟨?_, ih (fun z hz => h z (by simp [hz])) hn.2⟩
      intro hx
      rw [h y (by simp)]
      exact hn.1 (by rw [← h x (by simp)]; exact hx)

theorem mem_of_mem_erase_first (l : List Nat) (b x : Nat) :
    ∀ _ : x ∈ erase_first l b, x ∈ l := by
  induction l with
  | nil => intro h; exact absurd h (by simp [erase_first])
  | cons y ys ih =>
    intro h
    by_cases hy : y = b
    · rw [erase_first, if_pos hy] at h
      exact List.mem_cons_of_mem _ h
    · rw [erase_first, if_neg hy] at h
      rcases List.mem_cons.mp h with rfl | h'
      · exact List.mem_cons_self _ _
      · exact List.mem_cons_of_mem _ (ih h')

theorem erase_first_nodup (l : List Nat) (b : Nat) (h : l.Nodup) :
    (erase_first l b).Nodup := by
  induction l with
  | nil => exact h
  | cons y ys ih =>
    rw [List.nodup_cons] at h
    by_cases hy : y = b
    · rw [erase_first, if_pos hy]
      exact h.2
    · rw [erase_first, if_neg hy, List.nodup_cons]
      exact ⟨fun hc => h.1 (mem_of_mem_erase_first _ _ _ hc), ih h.2⟩

theorem not_mem_erase_first_self (l : List Nat) (b : Nat) (h : l.Nodup) :
    b ∉ erase_first l b := by
  induction l with
  | nil => simp [erase_first]
  | cons y ys ih =>
    rw [List.nodup_cons] at h
    by_cases hy : y = b
    · rw [erase_first, if_pos hy]
      rw [hy] at h
      exact h.1
    · rw [erase_first, if_neg hy]
      intro hc
      rcases List.mem_cons.mp hc with he | hc'
      · exact hy he.symm
      · exact ih h.2 hc'

/-- A free-block write stores the packed word in the footer slot too. -/
theorem write_block_read_foot (st : AState) (b size : Nat) (pa pm : Bool)
    (hmod : size % 16 = 0) (h0 : size ≠ 0) :
    (write_block st b size false pa pm).mem (b + size - 8) =
      pack size false pa pm := by
  rw [write_block_mem_free st b size pa pm h0 hmod]
  exact wset_same _ _ _

/-- Writing an allocated block touches only the header word. -/
theorem write_block_read_other_alloc (st : AState) (b size : Nat)
    (pa pm : Bool) (x : Nat) (hx : x ≠ b) :
    (write_block st b size true pa pm).mem x = st.mem x := by
  rw [write_block_mem_alloc]
  exact wset_ne _ _ _ _ hx

/-- When the rewritten following block is allocated, the coalesce tail
only touches that block's header word. -/
theorem coalesce_tail_read_other_alloc (st : AState) (block1 next1 x : Nat)
    (hal : get_alloc st.mem next1 = true) (hx : x ≠ next1) :
    (coalesce_tail st block1 next1).1.mem x = st.mem x := by
  rw [coalesce_tail]
  rw [hal]
  exact write_block_read_other_alloc _ _ _ _ _ _ hx

theorem insert_head_heapStart (st : AState) (cls b : Nat) :
    (insert_head st cls b).heapStart = st.heapStart := rfl

theorem remove_block_heapStart (st : AState) (cls b : Nat) :
    (remove_block st cls b).heapStart = st.heapStart := rfl

theorem insert_head_brk (st : AState) (cls b : Nat) :
    (insert_head st cls b).brk = st.brk := rfl

theorem remove_block_brk (st : AState) (cls b : Nat) :
    (remove_block st cls b).brk = st.brk := rfl

theorem coalesce_tail_brk (st : AState) (block1 next1 : Nat) :
    (coalesce_tail st block1 next1).1.brk = st.brk :=
  write_block_brk _ _ _ _ _ _

theorem coalesce_tail_heapStart (st : AState) (block1 next1 : Nat) :
    (coalesce_tail st block1 next1).1.heapStart = st.heapStart :=
  write_block_heapStart _ _ _ _ _ _

theorem coalesce_block_brk (st : AState) (b : Nat) :
    (coalesce_block st b).1.brk = st.brk := by
  cases hpa : get_prev_alloc st.mem b <;>
    cases hna : get_alloc st.mem (b + get_size st.mem b)
  · rw [coalesce_case4_eq st b hpa hna]
    simp only [coalesce_tail_brk, insert_head_brk, write_block_brk,
      remove_block_brk]
  · rw [coalesce_case3_eq st b hpa hna]
    simp only [coalesce_tail_brk, insert_head_brk, write_block_brk,
      remove_block_brk]
  · rw [coalesce_case2_eq st b hpa hna]
    simp only [coalesce_tail_brk, insert_head_brk, write_block_brk,
      remove_block_brk]
  · rw [coalesce_case1_eq st b hpa hna]
    simp only [coalesce_tail_brk, insert_head_brk]

theorem coalesce_block_heapStart (st : AState) (b : Nat) :
    (coalesce_block st b).1.heapStart = st.heapStart := by
  cases hpa : get_prev_alloc st.mem b <;>
    cases hna : get_alloc st.mem (b + get_size st.mem b)
  · rw [coalesce_case4_eq st b hpa hna]
    simp only [coalesce_tail_heapStart, insert_head_heapStart,
      write_block_heapStart, remove_block_heapStart]
  · rw [coalesce_case3_eq st b hpa hna]
    simp only [coalesce_tail_heapStart, insert_head_heapStart,
      write_block_heapStart, remove_block_heapStart]
  · rw [coalesce_case2_eq st b hpa hna]
    simp only [coalesce_tail_heapStart, insert_head_heapStart,
      write_block_heapStart, remove_block_heapStart]
  · rw [coalesce_case1_eq st b hpa hna]
    simp only [coalesce_tail_heapStart, insert_head_heapStart]

/-- `find_prev` is correct on a block whose predecessor's metadata is
accurate: the prev-mini flag selects the 16-byte offset, otherwise the
predecessor's footer yields its size. -/
theorem find_prev_correct (m : Nat → Nat) (p b : Nat)
    (hpb : p + get_size m p = b) (h16 : 16 ≤ get_size m p) (h8 : 8 ≤ p)
    (hpm : get_prev_mini m b = decide (get_size m p = 16))
    (hft : get_size m p ≠ 16 → extract_size (m (b - 8)) = get_size m p) :
    find_prev m b = p := by
  rw [find_prev, hpm]
  by_cases hm : get_size m p = 16
  · rw [if_pos (by simp [hm])]
    rw [min_block_size]
    omega
  · rw [if_neg (by simp [hm])]
    rw [footer_to_header]
    have hf : extract_size (m (b - wsize)) = get_size m p := by
      rw [show b - wsize = b - 8 from rfl]
      exact hft hm
    rw [if_neg (by rw [hf]; omega), hf]
    rw [wsize]
    omega

/-- Rebuild the walk of the tail of the heap after a coalesce or split
rewrote the header flags of the allocated block `T` that follows the
surviving block: the tail list is unchanged, its walk now seeded by the
surviving block's (free, mini) status, and the epilogue's prev flags
agree with the new final seeds. -/
theorem suffix_rebuild (m m' : Nat → Nat) (l : List Nat)
    (pax pmx paE pmE : Bool) (T E : Nat) (paNew pmNew : Bool)
    (hw : walkSeg m pax pmx T l E paE pmE)
    (hTal : get_alloc m T = true)
    (hhead : m' T = pack (get_size m T) (get_alloc m T) paNew pmNew)
    (hrest : ∀ x ∈ l, x ≠ T → m' x = m x ∧
      m' (x + get_size m x - 8) = m (x + get_size m x - 8))
    (hE : T ≠ E → m' E = m E)
    (hE0 : get_size m E = 0) (hE1 : get_alloc m E = true)
    (hEpa : get_prev_alloc m E = paE) (hEpm : get_prev_mini m E = pmE) :
    ∃ paE' pmE', walkSeg m' paNew pmNew T l E paE' pmE' ∧
      get_size m' E = 0 ∧ get_alloc m' E = true ∧
      get_prev_alloc m' E = paE' ∧ get_prev_mini m' E = pmE' := by
  have hmod : get_size m T % 16 = 0 := extract_size_mod _
  have hsz' : get_size m' T = get_size m T := by
    rw [get_size, hhead, extract_size_pack _ _ _ _ hmod]
  have hal' : get_alloc m' T = get_alloc m T := by
    rw [get_alloc, hhead, extract_alloc_pack _ _ _ _ hmod]
  cases l with
  | nil =>
    obtain ⟨rfl, rfl, rfl⟩ := hw
    refine ⟨paNew, pmNew, ⟨rfl, rfl, rfl⟩, ?_, ?_, ?_, ?_⟩
    · rw [hsz', hE0]
    · rw [hal', hE1]
    · rw [get_prev_alloc, hhead, extract_prev_alloc_pack _ _ _ _ hmod]
    · rw [get_prev_mini, hhead, extract_prev_mini_pack _ _ _ _ hmod]
  | cons x l3 =>
    obtain ⟨hx, hsz, _, _, _, hrest3⟩ := hw
    subst hx
    have hlb := walkSeg_lb m l3 _ _ _ _ _ _ hrest3
    have hEeq : m' E = m E := hE (by omega)
    rw [hTal] at hrest3
    refine ⟨paE, pmE, ⟨rfl, by omega, ?_, ?_, ?_, ?_⟩, ?_, ?_, ?_, ?_⟩
    · rw [get_prev_alloc, hhead, extract_prev_alloc_pack _ _ _ _ hmod]
    · rw [get_prev_mini, hhead, extract_prev_mini_pack _ _ _ _ hmod]
    · intro hfree
      rw [hal', hTal] at hfree
      exact absurd hfree (by simp)
    · rw [hsz', hal', hTal]
      refine walkSeg_congr m m' l3 _ _ _ _ _ _ hrest3 ?_
      intro y hy
      have := hlb.2 y hy
      exact hrest y (by simp [hy]) (by omega)
    · rw [get_size, hEeq]
      exact hE0
    · rw [get_alloc, hEeq]
      exact hE1
    · rw [get_prev_alloc, hEeq]
      exact hEpa
    · rw [get_prev_mini, hEeq]
      exact hEpm

/-- Assemble well-formedness from a prefix walk, the surviving block's
header facts, a suffix walk, epilogue facts, the no-adjacent-free
pieces and list coherence. -/
theorem wf_assemble (st' : AState) (l1 l2 : List Nat) (v : Nat)
    (pa1 pm1 paE' pmE' : Bool)
    (hs0 : st'.heapStart ≠ 0) (hs8 : 8 ≤ st'.heapStart)
    (hw1 : walkSeg st'.mem true false st'.heapStart l1 v pa1 pm1)
    (hsz : 16 ≤ get_size st'.mem v)
    (hpa : get_prev_alloc st'.mem v = pa1)
    (hpm : get_prev_mini st'.mem v = pm1)
    (hft : get_alloc st'.mem v = false → get_size st'.mem v ≠ 16 →
      extract_size (st'.mem (v + get_size st'.mem v - 8)) = get_size st'.mem v)
    (hw2 : walkSeg st'.mem (get_alloc st'.mem v)
      (decide (get_size st'.mem v = 16)) (v + get_size st'.mem v) l2
      (st'.brk - 8) paE' pmE')
    (hE0 : get_size st'.mem (st'.brk - 8) = 0)
    (hE1 : get_alloc st'.mem (st'.brk - 8) = true)
    (hEpa : get_prev_alloc st'.mem (st'.brk - 8) = paE')
    (hEpm : get_prev_mini st'.mem (st'.brk - 8) = pmE')
    (hadj1 : noAdjL st'.mem l1) (hadj2 : noAdjL st'.mem l2)
    (hjun1 : ∀ x ∈ l1.getLast?, get_alloc st'.mem x = false →
      get_alloc st'.mem v = true)
    (hjun2 : get_alloc st'.mem v = false → ∀ y ∈ l2.head?,
      get_alloc st'.mem y = true)
    (hlists : listsOk st' (l1 ++ v :: l2)) :
    Wf st' (l1 ++ v :: l2) paE' pmE' := by
  refine ⟨hs0, hs8, ?_, hE0, hE1, hEpa, hEpm, ?_, hlists⟩
  · exact walkSeg_append _ _ _ _ _ _ _ _ _ _ _ _ hw1
      ⟨rfl, hsz, hpa, hpm, hft, hw2⟩
  · refine List.chain'_append.mpr ⟨hadj1, ?_, ?_⟩
    · refine List.chain'_cons'.mpr ⟨?_, hadj2⟩
      intro y hy hv
      exact hjun2 hv y hy
    · intro x hx y hy
      have : y = v := by
        simp only [List.head?_cons, Option.mem_def, Option.some.injEq] at hy
        exact hy.symm
      subst this
      exact hjun1 x hx

/-- Rebuild list coherence after pushing block `v` on class `kIns`. -/
theorem lists_rebuild (st' : AState) (segOld : Nat → List Nat)
    (bs' : List Nat) (kIns v : Nat)
    (hseg : st'.segList = fun k => if k = kIns then v :: segOld kIns
      else segOld k)
    (hold : ∀ k, (∀ x ∈ segOld k, x ∈ bs' ∧ get_alloc st'.mem x = false ∧
      get_class (get_size st'.mem x) = k) ∧ (segOld k).Nodup)
    (hv : v ∈ bs') (hval : get_alloc st'.mem v = false)
    (hvc : get_class (get_size st'.mem v) = kIns)
    (hvnot : v ∉ segOld kIns) :
    listsOk st' bs' := by
  intro k
  have hks := congrFun hseg k
  by_cases hk : k = kIns
  · rw [hks, if_pos hk]
    subst hk
    refine ⟨?_, List.nodup_cons.mpr ⟨hvnot, (hold _).2⟩⟩
    intro x hx
    rcases List.mem_cons.mp hx with rfl | hx'
    · exact ⟨hv, hval, hvc⟩
    · exact (hold _).1 x hx'
  · rw [hks, if_neg hk]
    exact hold k

/-- The conclusion bundle of the per-operation preservation lemmas for
`coalesce_block`: the result state is well-formed, the returned block is
a free block of the new walk at least as large as the coalesced block
was, the heap bounds are unchanged, and every allocated block of the
old walk survives with its size. -/
def PostOk (st : AState) (b : Nat) (l1 l2 : List Nat)
    (st' : AState) (r : Nat) : Prop :=
  ∃ bs' paE' pmE', Wf st' bs' paE' pmE' ∧ r ∈ bs' ∧
    get_alloc st'.mem r = false ∧
    get_alloc st'.mem b = false ∧
    get_size st.mem b ≤ get_size st'.mem r ∧
    st'.heapStart = st.heapStart ∧ st'.brk = st.brk ∧
    ∀ x, (x ∈ l1 ∨ x ∈ l2) → get_alloc st.mem x = true →
      x ∈ bs' ∧ get_alloc st'.mem x = true ∧
      get_size st'.mem x = get_size st.mem x

theorem remove_block_segList (st : AState) (cls b k : Nat) :
    (remove_block st cls b).segList k =
      if k = cls then erase_first (st.segList cls) b else st.segList k := rfl

theorem insert_head_segList (st : AState) (cls b k : Nat) :
    (insert_head st cls b).segList k =
      if k = cls then b :: st.segList cls else st.segList k := rfl

/-- Reading the fields of a known packed header. -/
theorem get_size_of_read (m : Nat → Nat) (a s : Nat) (al pa pm : Bool)
    (h : m a = pack s al pa pm) (hs : s % 16 = 0) : get_size m a = s := by
  show extract_size (m a) = s
  rw [h, extract_size_pack _ _ _ _ hs]

theorem get_alloc_of_read (m : Nat → Nat) (a s : Nat) (al pa pm : Bool)
    (h : m a = pack s al pa pm) (hs : s % 16 = 0) : get_alloc m a = al := by
  show extract_alloc (m a) = al
  rw [h, extract_alloc_pack _ _ _ _ hs]

theorem get_prev_alloc_of_read (m : Nat → Nat) (a s : Nat) (al pa pm : Bool)
    (h : m a = pack s al pa pm) (hs : s % 16 = 0) :
    get_prev_alloc m a = pa := by
  show extract_prev_alloc (m a) = pa
  rw [h, extract_prev_alloc_pack _ _ _ _ hs]

theorem get_prev_mini_of_read (m : Nat → Nat) (a s : Nat) (al pa pm : Bool)
    (h : m a = pack s al pa pm) (hs : s % 16 = 0) :
    get_prev_mini m a = pm := by
  show extract_prev_mini (m a) = pm
  rw [h, extract_prev_mini_pack _ _ _ _ hs]

theorem get_size_congr (m m' : Nat → Nat) (a : Nat) (h : m' a = m a) :
    get_size m' a = get_size m a := by
  show extract_size (m' a) = extract_size (m a)
  rw [h]

theorem get_alloc_congr (m m' : Nat → Nat) (a : Nat) (h : m' a = m a) :
    get_alloc m' a = get_alloc m a := by
  show extract_alloc (m' a) = extract_alloc (m a)
  rw [h]

/-- The pre-coalesce configuration reached by `free` and `extend_heap`:
the heap splits into a well-formed prefix walk up to the freed block
`b`, the freed block itself (free, accurate flags and footer), and a
suffix walk whose seed flags `paN`, `pmN` may be stale, together with
epilogue accuracy, the no-adjacent-free property away from `b`, and
list coherence for lists not containing `b`. -/
structure PreWf (st : AState) (b : Nat) (l1 l2 : List Nat)
    (pa1 pm1 paN pmN paE pmE : Bool) : Prop where
  hs0 : st.heapStart ≠ 0
  hs8 : 8 ≤ st.heapStart
  hw1 : walkSeg st.mem true false st.heapStart l1 b pa1 pm1
  hfree : get_alloc st.mem b = false
  hsb : 16 ≤ get_size st.mem b
  hbpa : get_prev_alloc st.mem b = pa1
  hbpm : get_prev_mini st.mem b = pm1
  hbft : get_size st.mem b ≠ 16 →
    extract_size (st.mem (b + get_size st.mem b - 8)) = get_size st.mem b
  hw2 : walkSeg st.mem paN pmN (b + get_size st.mem b) l2 (st.brk - 8) paE pmE
  hE0 : get_size st.mem (st.brk - 8) = 0
  hE1 : get_alloc st.mem (st.brk - 8) = true
  hEpa : get_prev_alloc st.mem (st.brk - 8) = paE
  hEpm : get_prev_mini st.mem (st.brk - 8) = pmE
  hadj1 : noAdjL st.mem l1
  hadj2 : noAdjL st.mem l2
  hlists : ∀ k, (∀ x ∈ st.segList k, (x ∈ l1 ∨ x ∈ l2) ∧
    get_alloc st.mem x = false ∧ get_class (get_size st.mem x) = k) ∧
    (st.segList k).Nodup

/-- Coalesce preservation, case 1 (both neighbours allocated). -/
theorem coalesce_preserves_case1 (st : AState) (b : Nat) (l1 l2 : List Nat)
    (pa1 pm1 paN pmN paE pmE : Bool)
    (pre : PreWf st b l1 l2 pa1 pm1 paN pmN paE pmE)
    (hpa : get_prev_alloc st.mem b = true)
    (hna : get_alloc st.mem (b + get_size st.mem b) = true) :
    PostOk st b l1 l2 (coalesce_block st b).1 (coalesce_block st b).2 := by
  obtain ⟨hs0, hs8, hw1, hfree, hsb, hbpa, hbpm, hbft, hw2, hE0, hE1, hEpa,
    hEpm, hadj1, hadj2, hlists⟩ := pre
  obtain ⟨hr2, hrb, hrT, hrseg⟩ := coalesce_case1_reads st b hpa hna hsb
  have h3m : (insert_head st (get_class (get_size st.mem b)) b).mem = st.mem :=
    insert_head_mem _ _ _
  have hkey := coalesce_case1_eq st b hpa hna
  have hframe : ∀ x, x ≠ b + get_size st.mem b →
      (coalesce_block st b).1.mem x = st.mem x := by
    intro x hx
    rw [hkey,
      coalesce_tail_read_other_alloc _ _ _ _ (by rw [h3m]; exact hna) hx, h3m]
  have hlb1 := walkSeg_lb st.mem l1 _ _ _ _ _ _ hw1
  have hlb2 := walkSeg_lb st.mem l2 _ _ _ _ _ _ hw2
  have hTmod : get_size st.mem (b + get_size st.mem b) % 16 = 0 :=
    extract_size_mod _
  have hbm : (coalesce_block st b).1.mem b = st.mem b := hframe b (by omega)
  have hbsz : get_size (coalesce_block st b).1.mem b = get_size st.mem b := by
    rw [get_size, get_size, hbm]
  have hbal : get_alloc (coalesce_block st b).1.mem b = false := by
    rw [get_alloc, hbm]
    exact hfree
  have hTsz : get_size (coalesce_block st b).1.mem (b + get_size st.mem b) =
      get_size st.mem (b + get_size st.mem b) := by
    rw [get_size, hrT, extract_size_pack _ _ _ _ hTmod]
  have hTal : get_alloc (coalesce_block st b).1.mem (b + get_size st.mem b) =
      true := by
    rw [get_alloc, hrT, extract_alloc_pack _ _ _ _ hTmod]
    exact hna
  have halloceq : ∀ x, get_alloc (coalesce_block st b).1.mem x =
      get_alloc st.mem x := by
    intro x
    by_cases hx : x = b + get_size st.mem b
    · rw [hx, hTal, hna]
    · rw [get_alloc, get_alloc, hframe x hx]
  have hw1' : walkSeg (coalesce_block st b).1.mem true false st.heapStart l1 b
      pa1 pm1 :=
    walkSeg_pres_lt _ _ _ _ _ _ _ _ _ hw1 (fun c hc => hframe c (by omega))
  have hrest2 : ∀ x ∈ l2, x ≠ b + get_size st.mem b →
      (coalesce_block st b).1.mem x = st.mem x ∧
      (coalesce_block st b).1.mem (x + get_size st.mem x - 8) =
        st.mem (x + get_size st.mem x - 8) := by
    intro x hx hxne
    have hbd := hlb2.2 x hx
    exact ⟨hframe x hxne, hframe _ (by omega)⟩
  have hEp' : b + get_size st.mem b ≠ st.brk - 8 →
      (coalesce_block st b).1.mem (st.brk - 8) = st.mem (st.brk - 8) := by
    intro hne
    exact hframe _ (Ne.symm hne)
  obtain ⟨paE', pmE', hw2', hE0', hE1', hEpa', hEpm'⟩ := suffix_rebuild st.mem
    (coalesce_block st b).1.mem l2 paN pmN paE pmE (b + get_size st.mem b)
    (st.brk - 8) false (decide (get_size st.mem b = min_block_size)) hw2 hna
    hrT hrest2 hEp' hE0 hE1 hEpa hEpm
  have hjun1 : ∀ x ∈ l1.getLast?,
      get_alloc (coalesce_block st b).1.mem x = false →
      get_alloc (coalesce_block st b).1.mem b = true := by
    intro x hx hxf
    exfalso
    rcases walkSeg_last st.mem l1 _ _ _ _ _ _ hw1 with ⟨hnil, _, _, _⟩ |
      ⟨l', y, heq, _, _, _, hpe, _, _⟩
    · rw [hnil] at hx
      exact absurd hx (by simp)
    · rw [heq] at hx
      have hsome : (l' ++ [y]).getLast? = some y := by simp
      rw [hsome] at hx
      have hxy : y = x := by simpa using hx
      rw [halloceq] at hxf
      rw [← hxy] at hxf
      rw [← hpe, ← hbpa, hpa] at hxf
      exact Bool.noConfusion hxf
  have hjun2 : get_alloc (coalesce_block st b).1.mem b = false →
      ∀ y ∈ l2.head?, get_alloc (coalesce_block st b).1.mem y = true := by
    intro _ y hy
    cases l2 with
    | nil => exact absurd hy (by simp)
    | cons z l3 =>
      obtain ⟨hz, _⟩ := hw2
      simp only [List.head?_cons, Option.mem_def, Option.some.injEq] at hy
      rw [← hy, halloceq, hz]
      exact hna
  have hadj1' := noAdjL_congr st.mem _ l1 (fun x _ => halloceq x) hadj1
  have hadj2' := noAdjL_congr st.mem _ l2 (fun x _ => halloceq x) hadj2
  have hbnotin : ∀ k, b ∉ st.segList k := by
    intro k hmem
    obtain ⟨hin, _, _⟩ := (hlists k).1 b hmem
    rcases hin with h | h
    · have := hlb1.2 b h
      omega
    · have := hlb2.2 b h
      omega
  have hlists' : listsOk (coalesce_block st b).1 (l1 ++ b :: l2) := by
    refine lists_rebuild _ st.segList _ (get_class (get_size st.mem b)) b hrseg
      ?_ (List.mem_append_right _ (List.mem_cons_self _ _)) hbal (by rw [hbsz])
      (hbnotin _)
    intro k
    refine ⟨?_, (hlists k).2⟩
    intro x hx
    obtain ⟨hin, hfx, hcx⟩ := (hlists k).1 x hx
    have hxne : x ≠ b + get_size st.mem b := by
      intro hc
      rw [hc, hna] at hfx
      exact Bool.noConfusion hfx
    have hszeq : get_size (coalesce_block st b).1.mem x = get_size st.mem x := by
      rw [get_size, get_size, hframe x hxne]
    refine ⟨?_, ?_, ?_⟩
    · rcases hin with h | h
      · exact List.mem_append_left _ h
      · exact List.mem_append_right _ (List.mem_cons_of_mem _ h)
    · rw [halloceq]
      exact hfx
    · rw [hszeq]
      exact hcx
  have hhs : (coalesce_block st b).1.heapStart = st.heapStart :=
    coalesce_block_heapStart st b
  have hbrk : (coalesce_block st b).1.brk = st.brk := coalesce_block_brk st b
  have hwf : Wf (coalesce_block st b).1 (l1 ++ b :: l2) paE' pmE' := by
    refine wf_assemble _ l1 l2 b pa1 pm1 paE' pmE' (by rw [hhs]; exact hs0)
      (by rw [hhs]; exact hs8) (by rw [hhs]; exact hw1')
      (by rw [hbsz]; exact hsb) ?_ ?_ ?_ ?_ ?_ ?_ ?_ ?_ hadj1' hadj2' hjun1
      hjun2 hlists'
    · rw [get_prev_alloc, hbm]
      exact hbpa
    · rw [get_prev_mini, hbm]
      exact hbpm
    · intro _ h2
      rw [hbsz] at h2 ⊢
      rw [hframe _ (by omega)]
      exact hbft h2
    · rw [hbal, hbsz, hbrk]
      exact hw2'
    · rw [hbrk]
      exact hE0'
    · rw [hbrk]
      exact hE1'
    · rw [hbrk]
      exact hEpa'
    · rw [hbrk]
      exact hEpm'
  refine ⟨l1 ++ b :: l2, paE', pmE', hwf, ?_, ?_, hbal, ?_, hhs, hbrk, ?_⟩
  · rw [hr2]
    exact List.mem_append_right _ (List.mem_cons_self _ _)
  · rw [hr2]
    exact hbal
  · rw [hr2, hbsz]
  · intro x hx hxal
    refine ⟨?_, ?_, ?_⟩
    · rcases hx with h | h
      · exact List.mem_append_left _ h
      · exact List.mem_append_right _ (List.mem_cons_of_mem _ h)
    · rw [halloceq]
      exact hxal
    · by_cases hxT : x = b + get_size st.mem b
      · rw [hxT, hTsz]
      · rw [get_size, get_size, hframe x hxT]

/-- Coalesce preservation, case 2 (next block free): the next block is
absorbed into `b` and dropped from the walk. -/
theorem coalesce_preserves_case2 (st : AState) (b : Nat) (l1 l2 : List Nat)
    (pa1 pm1 paN pmN paE pmE : Bool)
    (pre : PreWf st b l1 l2 pa1 pm1 paN pmN paE pmE)
    (hpa : get_prev_alloc st.mem b = true)
    (hna : get_alloc st.mem (b + get_size st.mem b) = false) :
    PostOk st b l1 l2 (coalesce_block st b).1 (coalesce_block st b).2 := by
  obtain ⟨hs0, hs8, hw1, hfree, hsb, hbpa, hbpm, hbft, hw2, hE0, hE1, hEpa,
    hEpm, hadj1, hadj2, hlists⟩ := pre
  cases l2 with
  | nil =>
    obtain ⟨hNE, _, _⟩ := hw2
    rw [hNE, hE1] at hna
    exact absurd hna (by simp)
  | cons N' l3 =>
  obtain ⟨hN, hsn, hNpa, hNpm, hNft, hw3⟩ := hw2
  subst hN
  obtain ⟨hr2, hrb, hrT, hrseg⟩ := coalesce_case2_reads st b hpa hna hsb hsn
  have hkey := coalesce_case2_eq st b hpa hna
  have hsbm : get_size st.mem b % 16 = 0 := extract_size_mod _
  have hsnm : get_size st.mem (b + get_size st.mem b) % 16 = 0 :=
    extract_size_mod _
  have hSmod : (get_size st.mem b + get_size st.mem (b + get_size st.mem b))
      % 16 = 0 := by omega
  have hlb1 := walkSeg_lb st.mem l1 _ _ _ _ _ _ hw1
  have hlb3 := walkSeg_lb st.mem l3 _ _ _ _ _ _ hw3
  -- the block after the merged span is allocated
  have hT'al : get_alloc st.mem
      (b + (get_size st.mem b + get_size st.mem (b + get_size st.mem b))) =
      true := by
    cases l3 with
    | nil =>
      obtain ⟨hTE, _, _⟩ := hw3
      rw [show b + (get_size st.mem b + get_size st.mem (b + get_size st.mem b))
        = b + get_size st.mem b + get_size st.mem (b + get_size st.mem b) from
        by omega, hTE]
      exact hE1
    | cons y l4 =>
      obtain ⟨hy, _⟩ := hw3
      rw [noAdjL, List.chain'_cons] at hadj2
      rw [show b + (get_size st.mem b + get_size st.mem (b + get_size st.mem b))
        = b + get_size st.mem b + get_size st.mem (b + get_size st.mem b) from
        by omega, ← hy]
      exact hadj2.1 hna
  -- frame through the tail of the coalesce
  have hTal3 : get_alloc (insert_head
      (write_block
        (remove_block st
          (get_class (get_size st.mem (b + get_size st.mem b)))
          (b + get_size st.mem b))
        b (get_size st.mem b + get_size st.mem (b + get_size st.mem b))
        false true (get_prev_mini st.mem b))
      (get_class (get_size st.mem b + get_size st.mem (b + get_size st.mem b)))
      b).mem
      (b + (get_size st.mem b + get_size st.mem (b + get_size st.mem b))) =
      true := by
    rw [insert_head_mem, get_alloc,
      write_block_read_other _ _ _ _ _ _ _ (by omega) (by omega) (by omega),
      remove_block_mem]
    exact hT'al
  have hframe : ∀ x, x ≠ b →
      x ≠ b + (get_size st.mem b + get_size st.mem (b + get_size st.mem b)) - 8 →
      x ≠ b + (get_size st.mem b + get_size st.mem (b + get_size st.mem b)) →
      (coalesce_block st b).1.mem x = st.mem x := by
    intro x hx1 hx2 hx3
    rw [hkey, coalesce_tail_read_other_alloc _ _ _ _ hTal3 hx3,
      insert_head_mem,
      write_block_read_other _ _ _ _ _ _ _ (by omega) hx1 hx2,
      remove_block_mem]
  have hfoot : (coalesce_block st b).1.mem
      (b + (get_size st.mem b + get_size st.mem (b + get_size st.mem b)) - 8) =
      pack (get_size st.mem b + get_size st.mem (b + get_size st.mem b)) false
        true (get_prev_mini st.mem b) := by
    rw [hkey, coalesce_tail_read_other_alloc _ _ _ _ hTal3 (by omega),
      insert_head_mem]
    have := write_block_read_foot
      (remove_block st (get_class (get_size st.mem (b + get_size st.mem b)))
        (b + get_size st.mem b))
      b (get_size st.mem b + get_size st.mem (b + get_size st.mem b))
      true (get_prev_mini st.mem b) hSmod (by omega)
    rw [show b + (get_size st.mem b + get_size st.mem (b + get_size st.mem b))
      - 8 = b + (get_size st.mem b + get_size st.mem (b + get_size st.mem b))
      - 8 from rfl]
    exact this
  have hbsz : get_size (coalesce_block st b).1.mem b =
      get_size st.mem b + get_size st.mem (b + get_size st.mem b) :=
    get_size_of_read _ _ _ _ _ _ hrb hSmod
  have hbal : get_alloc (coalesce_block st b).1.mem b = false :=
    get_alloc_of_read _ _ _ _ _ _ hrb hSmod
  have hTsz : get_size (coalesce_block st b).1.mem
      (b + (get_size st.mem b + get_size st.mem (b + get_size st.mem b))) =
      get_size st.mem
        (b + (get_size st.mem b + get_size st.mem (b + get_size st.mem b))) :=
    get_size_of_read _ _ _ _ _ _ hrT (extract_size_mod _)
  have hTal : get_alloc (coalesce_block st b).1.mem
      (b + (get_size st.mem b + get_size st.mem (b + get_size st.mem b))) =
      true := by
    rw [get_alloc_of_read _ _ _ _ _ _ hrT (extract_size_mod _)]
    exact hT'al
  have halloceq : ∀ x,
      x ≠ b + (get_size st.mem b + get_size st.mem (b + get_size st.mem b)) - 8 →
      get_alloc (coalesce_block st b).1.mem x = get_alloc st.mem x := by
    intro x hx2
    by_cases hx1 : x = b
    · rw [hx1, hbal, hfree]
    · by_cases hx3 : x = b +
        (get_size st.mem b + get_size st.mem (b + get_size st.mem b))
      · rw [hx3, hTal, hT'al]
      · exact get_alloc_congr _ _ _ (hframe x hx1 hx2 hx3)
  have hw1' : walkSeg (coalesce_block st b).1.mem true false st.heapStart l1 b
      pa1 pm1 :=
    walkSeg_pres_lt _ _ _ _ _ _ _ _ _ hw1
      (fun c hc => hframe c (by omega) (by omega) (by omega))
  have hrest2 : ∀ x ∈ l3,
      x ≠ b + (get_size st.mem b + get_size st.mem (b + get_size st.mem b)) →
      (coalesce_block st b).1.mem x = st.mem x ∧
      (coalesce_block st b).1.mem (x + get_size st.mem x - 8) =
        st.mem (x + get_size st.mem x - 8) := by
    intro x hx hxne
    have hbd := hlb3.2 x hx
    refine ⟨hframe x (by omega) (by omega) hxne, ?_⟩
    exact hframe _ (by omega) (by omega) (by omega)
  have hEp' : b + (get_size st.mem b + get_size st.mem (b + get_size st.mem b))
      ≠ st.brk - 8 →
      (coalesce_block st b).1.mem (st.brk - 8) = st.mem (st.brk - 8) := by
    intro hne
    have hlb3' := hlb3.1
    exact hframe _ (by omega) (by omega) (Ne.symm hne)
  have hw3' : walkSeg st.mem (get_alloc st.mem (b + get_size st.mem b))
      (decide (get_size st.mem (b + get_size st.mem b) = 16))
      (b + (get_size st.mem b + get_size st.mem (b + get_size st.mem b))) l3
      (st.brk - 8) paE pmE := by
    rw [show b + (get_size st.mem b + get_size st.mem (b + get_size st.mem b))
      = b + get_size st.mem b + get_size st.mem (b + get_size st.mem b) from
      by omega]
    exact hw3
  obtain ⟨paE', pmE', hw2', hE0', hE1', hEpa', hEpm'⟩ := suffix_rebuild st.mem
    (coalesce_block st b).1.mem l3 _ _ paE pmE
    (b + (get_size st.mem b + get_size st.mem (b + get_size st.mem b)))
    (st.brk - 8) false
    (decide (get_size st.mem b + get_size st.mem (b + get_size st.mem b) =
      min_block_size)) hw3' hT'al hrT hrest2 hEp' hE0 hE1 hEpa hEpm
  have hjun1 : ∀ x ∈ l1.getLast?,
      get_alloc (coalesce_block st b).1.mem x = false →
      get_alloc (coalesce_block st b).1.mem b = true := by
    intro x hx hxf
    exfalso
    rcases walkSeg_last st.mem l1 _ _ _ _ _ _ hw1 with ⟨hnil, _, _, _⟩ |
      ⟨l', y, heq, _, _, _, hpe, _, _⟩
    · rw [hnil] at hx
      exact absurd hx (by simp)
    · rw [heq] at hx
      have hsome : (l' ++ [y]).getLast? = some y := by simp
      rw [hsome] at hx
      have hxy : y = x := by simpa using hx
      have hybd := hlb1.2 y (by rw [heq]; simp)
      rw [halloceq x (by omega)] at hxf
      rw [← hxy] at hxf
      rw [← hpe, ← hbpa, hpa] at hxf
      exact Bool.noConfusion hxf
  have hjun2 : get_alloc (coalesce_block st b).1.mem b = false →
      ∀ y ∈ l3.head?, get_alloc (coalesce_block st b).1.mem y = true := by
    intro _ y hy
    cases l3 with
    | nil => exact absurd hy (by simp)
    | cons z l4 =>
      obtain ⟨hz, _⟩ := hw3
      simp only [List.head?_cons, Option.mem_def, Option.some.injEq] at hy
      rw [← hy, halloceq z (by omega), hz]
      rw [show b + get_size st.mem b + get_size st.mem (b + get_size st.mem b)
        = b + (get_size st.mem b + get_size st.mem (b + get_size st.mem b))
        from by omega]
      exact hT'al
  have hadj1' := noAdjL_congr st.mem _ l1
    (fun x hx => halloceq x (by have := hlb1.2 x hx; omega)) hadj1
  have hadj3 : noAdjL st.mem l3 := by
    rw [noAdjL] at hadj2
    exact (List.chain'_cons'.mp hadj2).2
  have hadj3' := noAdjL_congr st.mem _ l3
    (fun x hx => halloceq x (by have := hlb3.2 x hx; omega)) hadj3
  have hbnotin : ∀ k, b ∉ st.segList k := by
    intro k hmem
    obtain ⟨hin, _, _⟩ := (hlists k).1 b hmem
    rcases hin with h | h
    · have := hlb1.2 b h
      omega
    · rcases List.mem_cons.mp h with hc | h'
      · omega
      · have := hlb3.2 b h'
        omega
  have hentry : ∀ k x,
      x ∈ (remove_block st
        (get_class (get_size st.mem (b + get_size st.mem b)))
        (b + get_size st.mem b)).segList k →
      x ∈ st.segList k ∧ x ≠ b + get_size st.mem b := by
    intro k x hx
    rw [remove_block_segList] at hx
    by_cases hk : k = get_class (get_size st.mem (b + get_size st.mem b))
    · rw [if_pos hk] at hx
      refine ⟨hk ▸ mem_of_mem_erase_first _ _ _ hx, ?_⟩
      intro hc
      rw [hc] at hx
      exact not_mem_erase_first_self _ _
        (hlists (get_class (get_size st.mem (b + get_size st.mem b)))).2 hx
    · rw [if_neg hk] at hx
      refine ⟨hx, ?_⟩
      intro hc
      obtain ⟨_, _, hcx⟩ := (hlists k).1 x hx
      rw [hc] at hcx
      exact hk hcx.symm
  have hlists' : listsOk (coalesce_block st b).1 (l1 ++ b :: l3) := by
    refine lists_rebuild _ (remove_block st
        (get_class (get_size st.mem (b + get_size st.mem b)))
        (b + get_size st.mem b)).segList _
      (get_class (get_size st.mem b + get_size st.mem (b + get_size st.mem b)))
      b hrseg ?_ (List.mem_append_right _ (List.mem_cons_self _ _)) hbal
      (by rw [hbsz]) ?_
    · intro k
      constructor
      · intro x hx
        obtain ⟨hxs, hxN⟩ := hentry k x hx
        obtain ⟨hin, hfx, hcx⟩ := (hlists k).1 x hxs
        have hxb : x ≠ b := fun hc => hbnotin k (hc ▸ hxs)
        have hxbd : x ∈ l1 ∨ x ∈ l3 := by
          rcases hin with h | h
          · exact Or.inl h
          · rcases List.mem_cons.mp h with hc | h'
            · exact absurd hc hxN
            · exact Or.inr h'
        have hxpos : x ≠ b +
            (get_size st.mem b + get_size st.mem (b + get_size st.mem b)) - 8 ∧
            x ≠ b +
            (get_size st.mem b + get_size st.mem (b + get_size st.mem b)) := by
          rcases hxbd with h | h
          · have := hlb1.2 x h
            omega
          · have := hlb3.2 x h
            constructor
            · omega
            · intro hc
              rw [hc] at hfx
              rw [hT'al] at hfx
              exact Bool.noConfusion hfx
        have hszeq : get_size (coalesce_block st b).1.mem x =
            get_size st.mem x :=
          get_size_congr _ _ _ (hframe x hxb hxpos.1 hxpos.2)
        refine ⟨?_, ?_, ?_⟩
        · rcases hxbd with h | h
          · exact List.mem_append_left _ h
          · exact List.mem_append_right _ (List.mem_cons_of_mem _ h)
        · rw [halloceq x hxpos.1]
          exact hfx
        · rw [hszeq]
          exact hcx
      · rw [remove_block_segList]
        by_cases hk : k = get_class (get_size st.mem (b + get_size st.mem b))
        · rw [if_pos hk]
          exact erase_first_nodup _ _ (hlists _).2
        · rw [if_neg hk]
          exact (hlists k).2
    · intro hc
      exact hbnotin _ (hentry _ b hc).1
  have hhs : (coalesce_block st b).1.heapStart = st.heapStart :=
    coalesce_block_heapStart st b
  have hbrk : (coalesce_block st b).1.brk = st.brk := coalesce_block_brk st b
  have hwf : Wf (coalesce_block st b).1 (l1 ++ b :: l3) paE' pmE' := by
    refine wf_assemble _ l1 l3 b pa1 pm1 paE' pmE' (by rw [hhs]; exact hs0)
      (by rw [hhs]; exact hs8) (by rw [hhs]; exact hw1')
      (by rw [hbsz]; omega) ?_ ?_ ?_ ?_ ?_ ?_ ?_ ?_ hadj1' hadj3' hjun1
      hjun2 hlists'
    · rw [get_prev_alloc_of_read _ _ _ _ _ _ hrb hSmod, ← hbpa, hpa]
    · rw [get_prev_mini_of_read _ _ _ _ _ _ hrb hSmod]
      exact hbpm
    · intro _ _
      rw [hbsz, hfoot, extract_size_pack _ _ _ _ hSmod]
    · rw [hbal, hbsz, hbrk]
      exact hw2'
    · rw [hbrk]
      exact hE0'
    · rw [hbrk]
      exact hE1'
    · rw [hbrk]
      exact hEpa'
    · rw [hbrk]
      exact hEpm'
  refine ⟨l1 ++ b :: l3, paE', pmE', hwf, ?_, ?_, hbal, ?_, hhs, hbrk, ?_⟩
  · rw [hr2]
    exact List.mem_append_right _ (List.mem_cons_self _ _)
  · rw [hr2]
    exact hbal
  · rw [hr2, hbsz]
    omega
  · intro x hx hxal
    have hxb : x ≠ b := by
      intro hc
      rw [hc, hfree] at hxal
      exact Bool.noConfusion hxal
    have hxN : x ≠ b + get_size st.mem b := by
      intro hc
      rw [hc, hna] at hxal
      exact Bool.noConfusion hxal
    have hxbd : x ∈ l1 ∨ x ∈ l3 := by
      rcases hx with h | h
      · exact Or.inl h
      · rcases List.mem_cons.mp h with hc | h'
        · exact absurd hc hxN
        · exact Or.inr h'
    refine ⟨?_, ?_, ?_⟩
    · rcases hxbd with h | h
      · exact List.mem_append_left _ h
      · exact List.mem_append_right _ (List.mem_cons_of_mem _ h)
    · by_cases hxT : x = b +
        (get_size st.mem b + get_size st.mem (b + get_size st.mem b))
      · rw [hxT, hTal]
      · rcases hxbd with h | h
        · have := hlb1.2 x h
          rw [halloceq x (by omega)]
          exact hxal
        · have := hlb3.2 x h
          rw [halloceq x (by omega)]
          exact hxal
    · by_cases hxT : x = b +
        (get_size st.mem b + get_size st.mem (b + get_size st.mem b))
      · rw [hxT, hTsz]
      · rcases hxbd with h | h
        · have := hlb1.2 x h
          exact get_size_congr _ _ _ (hframe x hxb (by omega) hxT)
        · have := hlb3.2 x h
          exact get_size_congr _ _ _ (hframe x hxb (by omega) hxT)

/-- Coalesce preservation, case 3 (previous block free): `b` is absorbed
into its predecessor, which survives. -/
theorem coalesce_preserves_case3 (st : AState) (b : Nat) (l1 l2 : List Nat)
    (pa1 pm1 paN pmN paE pmE : Bool)
    (pre : PreWf st b l1 l2 pa1 pm1 paN pmN paE pmE)
    (hpa : get_prev_alloc st.mem b = false)
    (hna : get_alloc st.mem (b + get_size st.mem b) = true) :
    PostOk st b l1 l2 (coalesce_block st b).1 (coalesce_block st b).2 := by
  obtain ⟨hs0, hs8, hw1, hfree, hsb, hbpa, hbpm, hbft, hw2, hE0, hE1, hEpa,
    hEpm, hadj1, hadj2, hlists⟩ := pre
  rcases walkSeg_last st.mem l1 _ _ _ _ _ _ hw1 with ⟨_, _, hpe, _⟩ |
    ⟨l1', p, heq, hw1p, hppb, hsp, hpe, hme, hpft⟩
  · rw [← hbpa, hpa] at hpe
    exact absurd hpe (by simp)
  subst heq
  have hpfree : get_alloc st.mem p = false := by
    rw [← hpe, ← hbpa, hpa]
  have hp8 : 8 ≤ p := by
    have := (walkSeg_lb st.mem l1' _ _ _ _ _ _ hw1p).1
    omega
  have hfp : find_prev st.mem b = p := by
    refine find_prev_correct st.mem p b hppb hsp hp8 (by rw [hbpm, hme]) ?_
    intro hm
    rw [show b - 8 = p + get_size st.mem p - 8 from by omega]
    exact hpft hpfree hm
  obtain ⟨hr2, hrb, hrT, hrseg⟩ := coalesce_case3_reads st b hpa hna hsb
    (by rw [hfp]; exact hsp)
  rw [hfp] at hr2 hrb hrT hrseg
  have hkey := coalesce_case3_eq st b hpa hna
  rw [hfp] at hkey
  have hsbm : get_size st.mem b % 16 = 0 := extract_size_mod _
  have hspm : get_size st.mem p % 16 = 0 := extract_size_mod _
  have hSmod : (get_size st.mem b + get_size st.mem p) % 16 = 0 := by omega
  have hlb1' := walkSeg_lb st.mem l1' _ _ _ _ _ _ hw1p
  have hlb2 := walkSeg_lb st.mem l2 _ _ _ _ _ _ hw2
  have hpT : p + (get_size st.mem b + get_size st.mem p) =
      b + get_size st.mem b := by omega
  have hT'al : get_alloc st.mem (p + (get_size st.mem b + get_size st.mem p)) =
      true := by
    rw [hpT]
    exact hna
  have hTal3 : get_alloc (insert_head
      (write_block (remove_block st (get_class (get_size st.mem p)) p) p
        (get_size st.mem b + get_size st.mem p) false
        (get_prev_alloc st.mem p) (get_prev_mini st.mem p))
      (get_class (get_size st.mem b + get_size st.mem p)) p).mem
      (p + (get_size st.mem b + get_size st.mem p)) = true := by
    rw [insert_head_mem, get_alloc,
      write_block_read_other _ _ _ _ _ _ _ (by omega) (by omega) (by omega),
      remove_block_mem]
    exact hT'al
  have hframe : ∀ x, x ≠ p →
      x ≠ p + (get_size st.mem b + get_size st.mem p) - 8 →
      x ≠ p + (get_size st.mem b + get_size st.mem p) →
      (coalesce_block st b).1.mem x = st.mem x := by
    intro x hx1 hx2 hx3
    rw [hkey, coalesce_tail_read_other_alloc _ _ _ _ hTal3 hx3,
      insert_head_mem,
      write_block_read_other _ _ _ _ _ _ _ (by omega) hx1 hx2,
      remove_block_mem]
  have hfoot : (coalesce_block st b).1.mem
      (p + (get_size st.mem b + get_size st.mem p) - 8) =
      pack (get_size st.mem b + get_size st.mem p) false
        (get_prev_alloc st.mem p) (get_prev_mini st.mem p) := by
    rw [hkey, coalesce_tail_read_other_alloc _ _ _ _ hTal3 (by omega),
      insert_head_mem]
    exact write_block_read_foot _ _ _ _ _ hSmod (by omega)
  have hpsz : get_size (coalesce_block st b).1.mem p =
      get_size st.mem b + get_size st.mem p :=
    get_size_of_read _ _ _ _ _ _ hrb hSmod
  have hpal : get_alloc (coalesce_block st b).1.mem p = false :=
    get_alloc_of_read _ _ _ _ _ _ hrb hSmod
  have hTsz : get_size (coalesce_block st b).1.mem
      (p + (get_size st.mem b + get_size st.mem p)) =
      get_size st.mem (p + (get_size st.mem b + get_size st.mem p)) :=
    get_size_of_read _ _ _ _ _ _ hrT (extract_size_mod _)
  have hTal : get_alloc (coalesce_block st b).1.mem
      (p + (get_size st.mem b + get_size st.mem p)) = true := by
    rw [get_alloc_of_read _ _ _ _ _ _ hrT (extract_size_mod _)]
    exact hT'al
  have halloceq : ∀ x,
      x ≠ p → x ≠ p + (get_size st.mem b + get_size st.mem p) - 8 →
      get_alloc (coalesce_block st b).1.mem x = get_alloc st.mem x := by
    intro x hx1 hx2
    by_cases hx3 : x = p + (get_size st.mem b + get_size st.mem p)
    · rw [hx3, hTal, hT'al]
    · exact get_alloc_congr _ _ _ (hframe x hx1 hx2 hx3)
  have hw1'' : walkSeg (coalesce_block st b).1.mem true false st.heapStart l1'
      p (get_prev_alloc st.mem p) (get_prev_mini st.mem p) :=
    walkSeg_pres_lt _ _ _ _ _ _ _ _ _ hw1p
      (fun c hc => hframe c (by omega) (by omega) (by omega))
  have hrest2 : ∀ x ∈ l2,
      x ≠ p + (get_size st.mem b + get_size st.mem p) →
      (coalesce_block st b).1.mem x = st.mem x ∧
      (coalesce_block st b).1.mem (x + get_size st.mem x - 8) =
        st.mem (x + get_size st.mem x - 8) := by
    intro x hx hxne
    have hbd := hlb2.2 x hx
    refine ⟨hframe x (by omega) (by omega) hxne, ?_⟩
    exact hframe _ (by omega) (by omega) (by omega)
  have hEp' : p + (get_size st.mem b + get_size st.mem p) ≠ st.brk - 8 →
      (coalesce_block st b).1.mem (st.brk - 8) = st.mem (st.brk - 8) := by
    intro hne
    have := hlb2.1
    exact hframe _ (by omega) (by omega) (Ne.symm hne)
  have hw2start : walkSeg st.mem paN pmN
      (p + (get_size st.mem b + get_size st.mem p)) l2 (st.brk - 8)
      paE pmE := by
    rw [hpT]
    exact hw2
  obtain ⟨paE', pmE', hw2', hE0', hE1', hEpa', hEpm'⟩ := suffix_rebuild st.mem
    (coalesce_block st b).1.mem l2 paN pmN paE pmE
    (p + (get_size st.mem b + get_size st.mem p)) (st.brk - 8) false
    (decide (get_size st.mem b + get_size st.mem p = min_block_size))
    hw2start hT'al hrT hrest2 hEp' hE0 hE1 hEpa hEpm
  have hchain := List.chain'_append.mp hadj1
  have hjun1 : ∀ x ∈ l1'.getLast?,
      get_alloc (coalesce_block st b).1.mem x = false →
      get_alloc (coalesce_block st b).1.mem p = true := by
    intro x hx hxf
    exfalso
    have hxl : x ∈ l1' := List.mem_of_mem_getLast? hx
    have hbd := hlb1'.2 x hxl
    rw [halloceq x (by omega) (by omega)] at hxf
    have := hchain.2.2 x hx p (by simp)
    rw [this hxf] at hpfree
    exact Bool.noConfusion hpfree
  have hjun2 : get_alloc (coalesce_block st b).1.mem p = false →
      ∀ y ∈ l2.head?, get_alloc (coalesce_block st b).1.mem y = true := by
    intro _ y hy
    cases l2 with
    | nil => exact absurd hy (by simp)
    | cons z l4 =>
      obtain ⟨hz, _⟩ := hw2
      simp only [List.head?_cons, Option.mem_def, Option.some.injEq] at hy
      rw [← hy]
      have hzv : z = p + (get_size st.mem b + get_size st.mem p) := by omega
      rw [hzv, hTal]
  have hadj1'' := noAdjL_congr st.mem _ l1'
    (fun x hx => halloceq x (by have := hlb1'.2 x hx; omega)
      (by have := hlb1'.2 x hx; omega)) hchain.1
  have hadj2' := noAdjL_congr st.mem _ l2
    (fun x hx => halloceq x (by have := hlb2.2 x hx; omega)
      (by have := hlb2.2 x hx; omega)) hadj2
  have hentry : ∀ k x,
      x ∈ (remove_block st (get_class (get_size st.mem p)) p).segList k →
      x ∈ st.segList k ∧ x ≠ p := by
    intro k x hx
    rw [remove_block_segList] at hx
    by_cases hk : k = get_class (get_size st.mem p)
    · rw [if_pos hk] at hx
      refine ⟨hk ▸ mem_of_mem_erase_first _ _ _ hx, ?_⟩
      intro hc
      rw [hc] at hx
      exact not_mem_erase_first_self _ _
        (hlists (get_class (get_size st.mem p))).2 hx
    · rw [if_neg hk] at hx
      refine ⟨hx, ?_⟩
      intro hc
      obtain ⟨_, _, hcx⟩ := (hlists k).1 x hx
      rw [hc] at hcx
      exact hk hcx.symm
  have hbnotin : ∀ k, b ∉ st.segList k := by
    intro k hmem
    obtain ⟨hin, _, _⟩ := (hlists k).1 b hmem
    rcases hin with h | h
    · rcases List.mem_append.mp h with h' | h'
      · have := hlb1'.2 b h'
        omega
      · have : b = p := by simpa using h'
        omega
    · have := hlb2.2 b h
      omega
  have hlists' : listsOk (coalesce_block st b).1 (l1' ++ p :: l2) := by
    refine lists_rebuild _ (remove_block st (get_class (get_size st.mem p))
        p).segList _ (get_class (get_size st.mem b + get_size st.mem p))
      p hrseg ?_ (List.mem_append_right _ (List.mem_cons_self _ _)) hpal
      (by rw [hpsz]) ?_
    · intro k
      constructor
      · intro x hx
        obtain ⟨hxs, hxp⟩ := hentry k x hx
        obtain ⟨hin, hfx, hcx⟩ := (hlists k).1 x hxs
        have hxb : x ≠ b := fun hc => hbnotin k (hc ▸ hxs)
        have hxbd : x ∈ l1' ∨ x ∈ l2 := by
          rcases hin with h | h
          · rcases List.mem_append.mp h with h' | h'
            · exact Or.inl h'
            · exact absurd (by simpa using h') hxp
          · exact Or.inr h
        have hxpos : x ≠ p + (get_size st.mem b + get_size st.mem p) - 8 ∧
            x ≠ p + (get_size st.mem b + get_size st.mem p) := by
          rcases hxbd with h | h
          · have := hlb1'.2 x h
            omega
          · have := hlb2.2 x h
            constructor
            · omega
            · intro hc
              rw [hc, hT'al] at hfx
              exact Bool.noConfusion hfx
        have hszeq : get_size (coalesce_block st b).1.mem x =
            get_size st.mem x :=
          get_size_congr _ _ _ (hframe x hxp hxpos.1 hxpos.2)
        refine ⟨?_, ?_, ?_⟩
        · rcases hxbd with h | h
          · exact List.mem_append_left _ h
          · exact List.mem_append_right _ (List.mem_cons_of_mem _ h)
        · rw [halloceq x hxp hxpos.1]
          exact hfx
        · rw [hszeq]
          exact hcx
      · rw [remove_block_segList]
        by_cases hk : k = get_class (get_size st.mem p)
        · rw [if_pos hk]
          exact erase_first_nodup _ _ (hlists _).2
        · rw [if_neg hk]
          exact (hlists k).2
    · intro hc
      exact (hentry _ p hc).2 rfl
  have hhs : (coalesce_block st b).1.heapStart = st.heapStart :=
    coalesce_block_heapStart st b
  have hbrk : (coalesce_block st b).1.brk = st.brk := coalesce_block_brk st b
  have hwf : Wf (coalesce_block st b).1 (l1' ++ p :: l2) paE' pmE' := by
    refine wf_assemble _ l1' l2 p (get_prev_alloc st.mem p)
      (get_prev_mini st.mem p) paE' pmE' (by rw [hhs]; exact hs0)
      (by rw [hhs]; exact hs8) (by rw [hhs]; exact hw1'')
      (by rw [hpsz]; omega) ?_ ?_ ?_ ?_ ?_ ?_ ?_ ?_ hadj1'' hadj2' hjun1
      hjun2 hlists'
    · rw [get_prev_alloc_of_read _ _ _ _ _ _ hrb hSmod]
    · rw [get_prev_mini_of_read _ _ _ _ _ _ hrb hSmod]
    · intro _ _
      rw [hpsz, hfoot, extract_size_pack _ _ _ _ hSmod]
    · rw [hpal, hpsz, hbrk]
      exact hw2'
    · rw [hbrk]
      exact hE0'
    · rw [hbrk]
      exact hE1'
    · rw [hbrk]
      exact hEpa'
    · rw [hbrk]
      exact hEpm'
  refine ⟨l1' ++ p :: l2, paE', pmE', hwf, ?_, ?_, ?_, ?_, hhs, hbrk, ?_⟩
  · rw [hr2]
    exact List.mem_append_right _ (List.mem_cons_self _ _)
  · rw [hr2]
    exact hpal
  · rw [get_alloc_congr _ _ _ (hframe b (by omega) (by omega) (by omega))]
    exact hfree
  · rw [hr2, hpsz]
    omega
  · intro x hx hxal
    have hxb : x ≠ b := by
      intro hc
      rw [hc, hfree] at hxal
      exact Bool.noConfusion hxal
    have hxp : x ≠ p := by
      intro hc
      rw [hc, hpfree] at hxal
      exact Bool.noConfusion hxal
    have hxbd : x ∈ l1' ∨ x ∈ l2 := by
      rcases hx with h | h
      · rcases List.mem_append.mp h with h' | h'
        · exact Or.inl h'
        · exact absurd (by simpa using h') hxp
      · exact Or.inr h
    refine ⟨?_, ?_, ?_⟩
    · rcases hxbd with h | h
      · exact List.mem_append_left _ h
      · exact List.mem_append_right _ (List.mem_cons_of_mem _ h)
    · by_cases hxT : x = p + (get_size st.mem b + get_size st.mem p)
      · rw [hxT, hTal]
      · rcases hxbd with h | h
        · have := hlb1'.2 x h
          rw [halloceq x hxp (by omega)]
          exact hxal
        · have := hlb2.2 x h
          rw [halloceq x hxp (by omega)]
          exact hxal
    · by_cases hxT : x = p + (get_size st.mem b + get_size st.mem p)
      · rw [hxT, hTsz]
      · rcases hxbd with h | h
        · have := hlb1'.2 x h
          exact get_size_congr _ _ _ (hframe x hxp (by omega) hxT)
        · have := hlb2.2 x h
          exact get_size_congr _ _ _ (hframe x hxp (by omega) hxT)

/-- Coalesce preservation, case 4 (both neighbours free): predecessor
and successor are absorbed; the predecessor survives. -/
theorem coalesce_preserves_case4 (st : AState) (b : Nat) (l1 l2 : List Nat)
    (pa1 pm1 paN pmN paE pmE : Bool)
    (pre : PreWf st b l1 l2 pa1 pm1 paN pmN paE pmE)
    (hpa : get_prev_alloc st.mem b = false)
    (hna : get_alloc st.mem (b + get_size st.mem b) = false) :
    PostOk st b l1 l2 (coalesce_block st b).1 (coalesce_block st b).2 := by
  obtain ⟨hs0, hs8, hw1, hfree, hsb, hbpa, hbpm, hbft, hw2, hE0, hE1, hEpa,
    hEpm, hadj1, hadj2, hlists⟩ := pre
  rcases walkSeg_last st.mem l1 _ _ _ _ _ _ hw1 with ⟨_, _, hpe, _⟩ |
    ⟨l1', p, heq, hw1p, hppb, hsp, hpe, hme, hpft⟩
  · rw [← hbpa, hpa] at hpe
    exact absurd hpe (by simp)
  subst heq
  cases l2 with
  | nil =>
    obtain ⟨hNE, _, _⟩ := hw2
    rw [hNE, hE1] at hna
    exact absurd hna (by simp)
  | cons N' l3 =>
  obtain ⟨hN, hsn, hNpa, hNpm, hNft, hw3⟩ := hw2
  subst hN
  have hpfree : get_alloc st.mem p = false := by
    rw [← hpe, ← hbpa, hpa]
  have hp8 : 8 ≤ p := by
    have := (walkSeg_lb st.mem l1' _ _ _ _ _ _ hw1p).1
    omega
  have hfp : find_prev st.mem b = p := by
    refine find_prev_correct st.mem p b hppb hsp hp8 (by rw [hbpm, hme]) ?_
    intro hm
    rw [show b - 8 = p + get_size st.mem p - 8 from by omega]
    exact hpft hpfree hm
  obtain ⟨hr2, hrb, hrT, hrseg⟩ := coalesce_case4_reads st b hpa hna hsb
    (by rw [hfp]; exact hsp) hsn
  rw [hfp] at hr2 hrb hrT hrseg
  have hkey := coalesce_case4_eq st b hpa hna
  rw [hfp] at hkey
  have hsbm : get_size st.mem b % 16 = 0 := extract_size_mod _
  have hspm : get_size st.mem p % 16 = 0 := extract_size_mod _
  have hsnm : get_size st.mem (b + get_size st.mem b) % 16 = 0 :=
    extract_size_mod _
  have hSmod : (get_size st.mem b + get_size st.mem p +
      get_size st.mem (b + get_size st.mem b)) % 16 = 0 := by omega
  have hlb1' := walkSeg_lb st.mem l1' _ _ _ _ _ _ hw1p
  have hlb3 := walkSeg_lb st.mem l3 _ _ _ _ _ _ hw3
  have hpT : p + (get_size st.mem b + get_size st.mem p +
      get_size st.mem (b + get_size st.mem b)) =
      b + get_size st.mem b + get_size st.mem (b + get_size st.mem b) := by
    omega
  have hT'al : get_alloc st.mem (p + (get_size st.mem b + get_size st.mem p +
      get_size st.mem (b + get_size st.mem b))) = true := by
    rw [hpT]
    cases l3 with
    | nil =>
      obtain ⟨hTE, _, _⟩ := hw3
      rw [hTE]
      exact hE1
    | cons y l4 =>
      obtain ⟨hy, _⟩ := hw3
      rw [noAdjL, List.chain'_cons] at hadj2
      rw [← hy]
      exact hadj2.1 hna
  have hTal3 : get_alloc (insert_head
      (write_block
        (remove_block
          (remove_block st
            (get_class (get_size st.mem (b + get_size st.mem b)))
            (b + get_size st.mem b))
          (get_class (get_size st.mem p)) p)
        p (get_size st.mem b + get_size st.mem p +
          get_size st.mem (b + get_size st.mem b))
        false (get_prev_alloc st.mem p) (get_prev_mini st.mem p))
      (get_class (get_size st.mem b + get_size st.mem p +
        get_size st.mem (b + get_size st.mem b))) p).mem
      (p + (get_size st.mem b + get_size st.mem p +
        get_size st.mem (b + get_size st.mem b))) = true := by
    rw [insert_head_mem, get_alloc,
      write_block_read_other _ _ _ _ _ _ _ (by omega) (by omega) (by omega),
      remove_block_mem, remove_block_mem]
    exact hT'al
  have hframe : ∀ x, x ≠ p →
      x ≠ p + (get_size st.mem b + get_size st.mem p +
        get_size st.mem (b + get_size st.mem b)) - 8 →
      x ≠ p + (get_size st.mem b + get_size st.mem p +
        get_size st.mem (b + get_size st.mem b)) →
      (coalesce_block st b).1.mem x = st.mem x := by
    intro x hx1 hx2 hx3
    rw [hkey, coalesce_tail_read_other_alloc _ _ _ _ hTal3 hx3,
      insert_head_mem,
      write_block_read_other _ _ _ _ _ _ _ (by omega) hx1 hx2,
      remove_block_mem, remove_block_mem]
  have hfoot : (coalesce_block st b).1.mem
      (p + (get_size st.mem b + get_size st.mem p +
        get_size st.mem (b + get_size st.mem b)) - 8) =
      pack (get_size st.mem b + get_size st.mem p +
          get_size st.mem (b + get_size st.mem b)) false
        (get_prev_alloc st.mem p) (get_prev_mini st.mem p) := by
    rw [hkey, coalesce_tail_read_other_alloc _ _ _ _ hTal3 (by omega),
      insert_head_mem]
    exact write_block_read_foot _ _ _ _ _ hSmod (by omega)
  have hpsz : get_size (coalesce_block st b).1.mem p =
      get_size st.mem b + get_size st.mem p +
        get_size st.mem (b + get_size st.mem b) :=
    get_size_of_read _ _ _ _ _ _ hrb hSmod
  have hpal : get_alloc (coalesce_block st b).1.mem p = false :=
    get_alloc_of_read _ _ _ _ _ _ hrb hSmod
  have hTsz : get_size (coalesce_block st b).1.mem
      (p + (get_size st.mem b + get_size st.mem p +
        get_size st.mem (b + get_size st.mem b))) =
      get_size st.mem (p + (get_size st.mem b + get_size st.mem p +
        get_size st.mem (b + get_size st.mem b))) :=
    get_size_of_read _ _ _ _ _ _ hrT (extract_size_mod _)
  have hTal : get_alloc (coalesce_block st b).1.mem
      (p + (get_size st.mem b + get_size st.mem p +
        get_size st.mem (b + get_size st.mem b))) = true := by
    rw [get_alloc_of_read _ _ _ _ _ _ hrT (extract_size_mod _)]
    exact hT'al
  have halloceq : ∀ x,
      x ≠ p → x ≠ p + (get_size st.mem b + get_size st.mem p +
        get_size st.mem (b + get_size st.mem b)) - 8 →
      get_alloc (coalesce_block st b).1.mem x = get_alloc st.mem x := by
    intro x hx1 hx2
    by_cases hx3 : x = p + (get_size st.mem b + get_size st.mem p +
      get_size st.mem (b + get_size st.mem b))
    · rw [hx3, hTal, hT'al]
    · exact get_alloc_congr _ _ _ (hframe x hx1 hx2 hx3)
  have hw1'' : walkSeg (coalesce_block st b).1.mem true false st.heapStart l1'
      p (get_prev_alloc st.mem p) (get_prev_mini st.mem p) :=
    walkSeg_pres_lt _ _ _ _ _ _ _ _ _ hw1p
      (fun c hc => hframe c (by omega) (by omega) (by omega))
  have hrest2 : ∀ x ∈ l3,
      x ≠ p + (get_size st.mem b + get_size st.mem p +
        get_size st.mem (b + get_size st.mem b)) →
      (coalesce_block st b).1.mem x = st.mem x ∧
      (coalesce_block st b).1.mem (x + get_size st.mem x - 8) =
        st.mem (x + get_size st.mem x - 8) := by
    intro x hx hxne
    have hbd := hlb3.2 x hx
    refine ⟨hframe x (by omega) (by omega) hxne, ?_⟩
    exact hframe _ (by omega) (by omega) (by omega)
  have hEp' : p + (get_size st.mem b + get_size st.mem p +
      get_size st.mem (b + get_size st.mem b)) ≠ st.brk - 8 →
      (coalesce_block st b).1.mem (st.brk - 8) = st.mem (st.brk - 8) := by
    intro hne
    have := hlb3.1
    exact hframe _ (by omega) (by omega) (Ne.symm hne)
  have hw3start : walkSeg st.mem (get_alloc st.mem (b + get_size st.mem b))
      (decide (get_size st.mem (b + get_size st.mem b) = 16))
      (p + (get_size st.mem b + get_size st.mem p +
        get_size st.mem (b + get_size st.mem b))) l3 (st.brk - 8)
      paE pmE := by
    rw [hpT]
    exact hw3
  obtain ⟨paE', pmE', hw2', hE0', hE1', hEpa', hEpm'⟩ := suffix_rebuild st.mem
    (coalesce_block st b).1.mem l3 _ _ paE pmE
    (p + (get_size st.mem b + get_size st.mem p +
      get_size st.mem (b + get_size st.mem b))) (st.brk - 8) false
    (decide (get_size st.mem b + get_size st.mem p +
      get_size st.mem (b + get_size st.mem b) = min_block_size))
    hw3start hT'al hrT hrest2 hEp' hE0 hE1 hEpa hEpm
  have hchain := List.chain'_append.mp hadj1
  have hjun1 : ∀ x ∈ l1'.getLast?,
      get_alloc (coalesce_block st b).1.mem x = false →
      get_alloc (coalesce_block st b).1.mem p = true := by
    intro x hx hxf
    exfalso
    have hxl : x ∈ l1' := List.mem_of_mem_getLast? hx
    have hbd := hlb1'.2 x hxl
    rw [halloceq x (by omega) (by omega)] at hxf
    have := hchain.2.2 x hx p (by simp)
    rw [this hxf] at hpfree
    exact Bool.noConfusion hpfree
  have hjun2 : get_alloc (coalesce_block st b).1.mem p = false →
      ∀ y ∈ l3.head?, get_alloc (coalesce_block st b).1.mem y = true := by
    intro _ y hy
    cases l3 with
    | nil => exact absurd hy (by simp)
    | cons z l4 =>
      obtain ⟨hz, _⟩ := hw3
      simp only [List.head?_cons, Option.mem_def, Option.some.injEq] at hy
      rw [← hy]
      have hzv : z = p + (get_size st.mem b + get_size st.mem p +
          get_size st.mem (b + get_size st.mem b)) := by omega
      rw [hzv, hTal]
  have hadj1'' := noAdjL_congr st.mem _ l1'
    (fun x hx => halloceq x (by have := hlb1'.2 x hx; omega)
      (by have := hlb1'.2 x hx; omega)) hchain.1
  have hadj3 : noAdjL st.mem l3 := by
    rw [noAdjL] at hadj2
    exact (List.chain'_cons'.mp hadj2).2
  have hadj3' := noAdjL_congr st.mem _ l3
    (fun x hx => halloceq x (by have := hlb3.2 x hx; omega)
      (by have := hlb3.2 x hx; omega)) hadj3
  have hentry : ∀ k x,
      x ∈ (remove_block
        (remove_block st (get_class (get_size st.mem (b + get_size st.mem b)))
          (b + get_size st.mem b))
        (get_class (get_size st.mem p)) p).segList k →
      x ∈ st.segList k ∧ x ≠ p ∧ x ≠ b + get_size st.mem b := by
    intro k x hx
    rw [remove_block_segList] at hx
    have hinner : ∀ k', (remove_block st
        (get_class (get_size st.mem (b + get_size st.mem b)))
        (b + get_size st.mem b)).segList k' =
        if k' = get_class (get_size st.mem (b + get_size st.mem b)) then
          erase_first (st.segList
            (get_class (get_size st.mem (b + get_size st.mem b))))
            (b + get_size st.mem b)
        else st.segList k' := fun k' => remove_block_segList _ _ _ _
    have hNod : ∀ k', ((remove_block st
        (get_class (get_size st.mem (b + get_size st.mem b)))
        (b + get_size st.mem b)).segList k').Nodup := by
      intro k'
      rw [hinner k']
      by_cases hk' : k' = get_class (get_size st.mem (b + get_size st.mem b))
      · rw [if_pos hk']
        exact erase_first_nodup _ _ (hlists _).2
      · rw [if_neg hk']
        exact (hlists k').2
    have hstep1 : x ∈ (remove_block st
        (get_class (get_size st.mem (b + get_size st.mem b)))
        (b + get_size st.mem b)).segList k ∧ x ≠ p := by
      by_cases hk : k = get_class (get_size st.mem p)
      · rw [if_pos hk] at hx
        refine ⟨hk ▸ mem_of_mem_erase_first _ _ _ hx, ?_⟩
        intro hc
        rw [hc] at hx
        exact not_mem_erase_first_self _ _ (hNod _) hx
      · rw [if_neg hk] at hx
        refine ⟨hx, ?_⟩
        intro hc
        have hx' : x ∈ st.segList k := by
          rw [hinner k] at hx
          by_cases hk2 : k = get_class (get_size st.mem (b + get_size st.mem b))
          · rw [if_pos hk2] at hx
            exact hk2 ▸ mem_of_mem_erase_first _ _ _ hx
          · rw [if_neg hk2] at hx
            exact hx
        obtain ⟨_, _, hcx⟩ := (hlists k).1 x hx'
        rw [hc] at hcx
        exact hk hcx.symm
    obtain ⟨hx1, hxp⟩ := hstep1
    rw [hinner k] at hx1
    by_cases hk2 : k = get_class (get_size st.mem (b + get_size st.mem b))
    · rw [if_pos hk2] at hx1
      refine ⟨hk2 ▸ mem_of_mem_erase_first _ _ _ hx1, hxp, ?_⟩
      intro hc
      rw [hc] at hx1
      exact not_mem_erase_first_self _ _
        (hlists (get_class (get_size st.mem (b + get_size st.mem b)))).2 hx1
    · rw [if_neg hk2] at hx1
      refine ⟨hx1, hxp, ?_⟩
      intro hc
      obtain ⟨_, _, hcx⟩ := (hlists k).1 x hx1
      rw [hc] at hcx
      exact hk2 hcx.symm
  have hbnotin : ∀ k, b ∉ st.segList k := by
    intro k hmem
    obtain ⟨hin, _, _⟩ := (hlists k).1 b hmem
    rcases hin with h | h
    · rcases List.mem_append.mp h with h' | h'
      · have := hlb1'.2 b h'
        omega
      · have : b = p := by simpa using h'
        omega
    · rcases List.mem_cons.mp h with hc | h'
      · omega
      · have := hlb3.2 b h'
        omega
  have hlists' : listsOk (coalesce_block st b).1 (l1' ++ p :: l3) := by
    refine lists_rebuild _ (remove_block
        (remove_block st (get_class (get_size st.mem (b + get_size st.mem b)))
          (b + get_size st.mem b))
        (get_class (get_size st.mem p)) p).segList _
      (get_class (get_size st.mem b + get_size st.mem p +
        get_size st.mem (b + get_size st.mem b)))
      p hrseg ?_ (List.mem_append_right _ (List.mem_cons_self _ _)) hpal
      (by rw [hpsz]) ?_
    · intro k
      constructor
      · intro x hx
        obtain ⟨hxs, hxp, hxN⟩ := hentry k x hx
        obtain ⟨hin, hfx, hcx⟩ := (hlists k).1 x hxs
        have hxb : x ≠ b := fun hc => hbnotin k (hc ▸ hxs)
        have hxbd : x ∈ l1' ∨ x ∈ l3 := by
          rcases hin with h | h
          · rcases List.mem_append.mp h with h' | h'
            · exact Or.inl h'
            · exact absurd (by simpa using h') hxp
          · rcases List.mem_cons.mp h with hc | h'
            · exact absurd hc hxN
            · exact Or.inr h'
        have hxpos : x ≠ p + (get_size st.mem b + get_size st.mem p +
            get_size st.mem (b + get_size st.mem b)) - 8 ∧
            x ≠ p + (get_size st.mem b + get_size st.mem p +
            get_size st.mem (b + get_size st.mem b)) := by
          rcases hxbd with h | h
          · have := hlb1'.2 x h
            omega
          · have := hlb3.2 x h
            constructor
            · omega
            · intro hc
              rw [hc, hT'al] at hfx
              exact Bool.noConfusion hfx
        have hszeq : get_size (coalesce_block st b).1.mem x =
            get_size st.mem x :=
          get_size_congr _ _ _ (hframe x hxp hxpos.1 hxpos.2)
        refine ⟨?_, ?_, ?_⟩
        · rcases hxbd with h | h
          · exact List.mem_append_left _ h
          · exact List.mem_append_right _ (List.mem_cons_of_mem _ h)
        · rw [halloceq x hxp hxpos.1]
          exact hfx
        · rw [hszeq]
          exact hcx
      · rw [remove_block_segList]
        by_cases hk : k = get_class (get_size st.mem p)
        · rw [if_pos hk]
          refine erase_first_nodup _ _ ?_
          rw [remove_block_segList]
          by_cases hk2 : get_class (get_size st.mem p) =
            get_class (get_size st.mem (b + get_size st.mem b))
          · rw [if_pos hk2]
            exact erase_first_nodup _ _ (hlists _).2
          · rw [if_neg hk2]
            exact (hlists _).2
        · rw [if_neg hk]
          rw [remove_block_segList]
          by_cases hk2 : k = get_class (get_size st.mem (b + get_size st.mem b))
          · rw [if_pos hk2]
            exact erase_first_nodup _ _ (hlists _).2
          · rw [if_neg hk2]
            exact (hlists k).2
    · intro hc
      exact (hentry _ p hc).2.1 rfl
  have hhs : (coalesce_block st b).1.heapStart = st.heapStart :=
    coalesce_block_heapStart st b
  have hbrk : (coalesce_block st b).1.brk = st.brk := coalesce_block_brk st b
  have hwf : Wf (coalesce_block st b).1 (l1' ++ p :: l3) paE' pmE' := by
    refine wf_assemble _ l1' l3 p (get_prev_alloc st.mem p)
      (get_prev_mini st.mem p) paE' pmE' (by rw [hhs]; exact hs0)
      (by rw [hhs]; exact hs8) (by rw [hhs]; exact hw1'')
      (by rw [hpsz]; omega) ?_ ?_ ?_ ?_ ?_ ?_ ?_ ?_ hadj1'' hadj3' hjun1
      hjun2 hlists'
    · rw [get_prev_alloc_of_read _ _ _ _ _ _ hrb hSmod]
    · rw [get_prev_mini_of_read _ _ _ _ _ _ hrb hSmod]
    · intro _ _
      rw [hpsz, hfoot, extract_size_pack _ _ _ _ hSmod]
    · rw [hpal, hpsz, hbrk]
      exact hw2'
    · rw [hbrk]
      exact hE0'
    · rw [hbrk]
      exact hE1'
    · rw [hbrk]
      exact hEpa'
    · rw [hbrk]
      exact hEpm'
  refine ⟨l1' ++ p :: l3, paE', pmE', hwf, ?_, ?_, ?_, ?_, hhs, hbrk, ?_⟩
  · rw [hr2]
    exact List.mem_append_right _ (List.mem_cons_self _ _)
  · rw [hr2]
    exact hpal
  · rw [get_alloc_congr _ _ _ (hframe b (by omega) (by omega) (by omega))]
    exact hfree
  · rw [hr2, hpsz]
    omega
  · intro x hx hxal
    have hxb : x ≠ b := by
      intro hc
      rw [hc, hfree] at hxal
      exact Bool.noConfusion hxal
    have hxp : x ≠ p := by
      intro hc
      rw [hc, hpfree] at hxal
      exact Bool.noConfusion hxal
    have hxN : x ≠ b + get_size st.mem b := by
      intro hc
      rw [hc, hna] at hxal
      exact Bool.noConfusion hxal
    have hxbd : x ∈ l1' ∨ x ∈ l3 := by
      rcases hx with h | h
      · rcases List.mem_append.mp h with h' | h'
        · exact Or.inl h'
        · exact absurd (by simpa using h') hxp
      · rcases List.mem_cons.mp h with hc | h'
        · exact absurd hc hxN
        · exact Or.inr h'
    refine ⟨?_, ?_, ?_⟩
    · rcases hxbd with h | h
      · exact List.mem_append_left _ h
      · exact List.mem_append_right _ (List.mem_cons_of_mem _ h)
    · by_cases hxT : x = p + (get_size st.mem b + get_size st.mem p +
        get_size st.mem (b + get_size st.mem b))
      · rw [hxT, hTal]
      · rcases hxbd with h | h
        · have := hlb1'.2 x h
          rw [halloceq x hxp (by omega)]
          exact hxal
        · have := hlb3.2 x h
          rw [halloceq x hxp (by omega)]
          exact hxal
    · by_cases hxT : x = p + (get_size st.mem b + get_size st.mem p +
        get_size st.mem (b + get_size st.mem b))
      · rw [hxT, hTsz]
      · rcases hxbd with h | h
        · have := hlb1'.2 x h
          exact get_size_congr _ _ _ (hframe x hxp (by omega) hxT)
        · have := hlb3.2 x h
          exact get_size_congr _ _ _ (hframe x hxp (by omega) hxT)

/-- Coalescing from any pre-coalesce configuration yields a well-formed
state (dispatch over the four flag cases). -/
theorem coalesce_preserves (st : AState) (b : Nat) (l1 l2 : List Nat)
    (pa1 pm1 paN pmN paE pmE : Bool)
    (pre : PreWf st b l1 l2 pa1 pm1 paN pmN paE pmE) :
    PostOk st b l1 l2 (coalesce_block st b).1 (coalesce_block st b).2 := by
  cases hpa : get_prev_alloc st.mem b <;>
    cases hna : get_alloc st.mem (b + get_size st.mem b)
  · exact coalesce_preserves_case4 st b l1 l2 _ _ _ _ _ _ pre hpa hna
  · exact coalesce_preserves_case3 st b l1 l2 _ _ _ _ _ _ pre hpa hna
  · exact coalesce_preserves_case2 st b l1 l2 _ _ _ _ _ _ pre hpa hna
  · exact coalesce_preserves_case1 st b l1 l2 _ _ _ _ _ _ pre hpa hna

/-- Freeing a valid allocated block of a well-formed heap yields a
well-formed heap. -/
theorem mm_free_preserves (st : AState) (p : Nat) (bs : List Nat)
    (paE pmE : Bool) (hwf : Wf st bs paE pmE)
    (hp : p ≠ 0) (hmem : p - 8 ∈ bs)
    (hal : get_alloc st.mem (p - 8) = true) :
    (∃ bs' paE' pmE', Wf (mm_free st p) bs' paE' pmE') ∧
    get_alloc (mm_free st p).mem (p - 8) = false := by
  have hfreeq : mm_free st p =
      (coalesce_block
        (write_block st (p - 8) (get_size st.mem (p - 8)) false
          (get_prev_alloc st.mem (p - 8)) (get_prev_mini st.mem (p - 8)))
        (p - 8)).1 := by
    simp only [mm_free]
    rw [if_neg hp]
    rfl
  obtain ⟨l1, l2, pa1, pm1, hbseq, hw1, hsbw, hbpaw, hbpmw, hbftw, hw2w⟩ :=
    walkSeg_split st.mem (p - 8) bs _ _ _ _ _ _ hmem hwf.walk
  rw [hal] at hw2w
  have hsbm : get_size st.mem (p - 8) % 16 = 0 := extract_size_mod _
  have hlb1 := walkSeg_lb st.mem l1 _ _ _ _ _ _ hw1
  have hlb2 := walkSeg_lb st.mem l2 _ _ _ _ _ _ hw2w
  have hm1b : (write_block st (p - 8) (get_size st.mem (p - 8)) false
      (get_prev_alloc st.mem (p - 8)) (get_prev_mini st.mem (p - 8))).mem
      (p - 8) = pack (get_size st.mem (p - 8)) false
        (get_prev_alloc st.mem (p - 8)) (get_prev_mini st.mem (p - 8)) :=
    write_block_read_self _ _ _ _ _ _ hsbm
  have hfoot1 : (write_block st (p - 8) (get_size st.mem (p - 8)) false
      (get_prev_alloc st.mem (p - 8)) (get_prev_mini st.mem (p - 8))).mem
      (p - 8 + get_size st.mem (p - 8) - 8) =
      pack (get_size st.mem (p - 8)) false
        (get_prev_alloc st.mem (p - 8)) (get_prev_mini st.mem (p - 8)) :=
    write_block_read_foot _ _ _ _ _ hsbm (by omega)
  have hother : ∀ x, x ≠ p - 8 →
      x ≠ p - 8 + get_size st.mem (p - 8) - 8 →
      (write_block st (p - 8) (get_size st.mem (p - 8)) false
        (get_prev_alloc st.mem (p - 8)) (get_prev_mini st.mem (p - 8))).mem x =
      st.mem x := by
    intro x hx1 hx2
    exact write_block_read_other _ _ _ _ _ _ _ hsbm hx1 hx2
  have hbsz1 : get_size (write_block st (p - 8) (get_size st.mem (p - 8))
      false (get_prev_alloc st.mem (p - 8))
      (get_prev_mini st.mem (p - 8))).mem (p - 8) = get_size st.mem (p - 8) :=
    get_size_of_read _ _ _ _ _ _ hm1b hsbm
  have hchain := List.chain'_append.mp (hbseq ▸ hwf.noadj)
  have hpre : PreWf (write_block st (p - 8) (get_size st.mem (p - 8)) false
      (get_prev_alloc st.mem (p - 8)) (get_prev_mini st.mem (p - 8)))
      (p - 8) l1 l2 pa1 pm1 true
      (decide (get_size st.mem (p - 8) = 16)) paE pmE := by
    refine ⟨?_, ?_, ?_, ?_, ?_, ?_, ?_, ?_, ?_, ?_, ?_, ?_, ?_, ?_, ?_, ?_⟩
    · rw [write_block_heapStart]
      exact hwf.hs0
    · rw [write_block_heapStart]
      exact hwf.hs8
    · rw [write_block_heapStart]
      exact walkSeg_pres_lt _ _ _ _ _ _ _ _ _ hw1
        (fun c hc => hother c (by omega) (by omega))
    · exact get_alloc_of_read _ _ _ _ _ _ hm1b hsbm
    · rw [hbsz1]
      exact hsbw
    · rw [get_prev_alloc_of_read _ _ _ _ _ _ hm1b hsbm]
      exact hbpaw
    · rw [get_prev_mini_of_read _ _ _ _ _ _ hm1b hsbm]
      exact hbpmw
    · intro _
      rw [hbsz1, hfoot1, extract_size_pack _ _ _ _ hsbm]
    · rw [hbsz1, write_block_brk]
      refine walkSeg_congr st.mem _ l2 _ _ _ _ _ _ hw2w ?_
      intro x hx
      have := hlb2.2 x hx
      exact ⟨hother x (by omega) (by omega), hother _ (by omega) (by omega)⟩
    · rw [write_block_brk, get_size_congr _ _ _ (hother _ (by omega)
        (by omega))]
      exact hwf.epi_size
    · rw [write_block_brk, get_alloc_congr _ _ _ (hother _ (by omega)
        (by omega))]
      exact hwf.epi_alloc
    · rw [write_block_brk]
      show extract_prev_alloc _ = paE
      rw [hother _ (by omega) (by omega)]
      exact hwf.epi_pa
    · rw [write_block_brk]
      show extract_prev_mini _ = pmE
      rw [hother _ (by omega) (by omega)]
      exact hwf.epi_pm
    · refine noAdjL_congr st.mem _ l1 ?_ hchain.1
      intro x hx
      have := hlb1.2 x hx
      exact get_alloc_congr _ _ _ (hother x (by omega) (by omega))
    · refine noAdjL_congr st.mem _ l2 ?_ (List.chain'_cons'.mp hchain.2.1).2
      intro x hx
      have := hlb2.2 x hx
      exact get_alloc_congr _ _ _ (hother x (by omega) (by omega))
    · intro k
      rw [write_block_segList]
      refine ⟨?_, (hwf.lists k).2⟩
      intro x hx
      obtain ⟨hin, hfx, hcx⟩ := (hwf.lists k).1 x hx
      have hxb : x ≠ p - 8 := by
        intro hc
        rw [hc, hal] at hfx
        exact Bool.noConfusion hfx
      have hxbd : x ∈ l1 ∨ x ∈ l2 := by
        rw [hbseq] at hin
        rcases List.mem_append.mp hin with h | h
        · exact Or.inl h
        · rcases List.mem_cons.mp h with hc | h'
          · exact absurd hc hxb
          · exact Or.inr h'
      have hxpos : x ≠ p - 8 + get_size st.mem (p - 8) - 8 := by
        rcases hxbd with h | h
        · have := hlb1.2 x h
          omega
        · have := hlb2.2 x h
          omega
      refine ⟨hxbd, ?_, ?_⟩
      · rw [get_alloc_congr _ _ _ (hother x hxb hxpos)]
        exact hfx
      · rw [get_size_congr _ _ _ (hother x hxb hxpos)]
        exact hcx
  obtain ⟨bs', paE', pmE', hwf', _, _, hbclear, _⟩ :=
    coalesce_preserves _ _ l1 l2 _ _ _ _ _ _ hpre
  rw [hfreeq]
  exact ⟨⟨bs', paE', pmE', hwf'⟩, hbclear⟩

theorem write_epilogue_mem (st : AState) (b : Nat) :
    (write_epilogue st b).mem = wset st.mem b (pack 0 true false false) := rfl

theorem write_epilogue_segList (st : AState) (b : Nat) :
    (write_epilogue st b).segList = st.segList := rfl

theorem write_epilogue_brk (st : AState) (b : Nat) :
    (write_epilogue st b).brk = st.brk := rfl

theorem write_epilogue_heapStart (st : AState) (b : Nat) :
    (write_epilogue st b).heapStart = st.heapStart := rfl

/-- The successful branch of `extend_heap`, unfolded. -/
theorem extend_heap_eq (st : AState) (size : Nat)
    (hok : ¬ st.brk + round_up size dsize > st.hiLimit) :
    extend_heap st size =
      (some (coalesce_block
          (write_epilogue
            (write_block { st with brk := st.brk + round_up size dsize }
              (st.brk - 8) (round_up size dsize) false
              (get_prev_alloc st.mem (st.brk - 8))
              (get_prev_mini st.mem (st.brk - 8)))
            (st.brk - 8 + get_size
              (write_block { st with brk := st.brk + round_up size dsize }
                (st.brk - 8) (round_up size dsize) false
                (get_prev_alloc st.mem (st.brk - 8))
                (get_prev_mini st.mem (st.brk - 8))).mem (st.brk - 8)))
          (st.brk - 8)).2,
        (coalesce_block
          (write_epilogue
            (write_block { st with brk := st.brk + round_up size dsize }
              (st.brk - 8) (round_up size dsize) false
              (get_prev_alloc st.mem (st.brk - 8))
              (get_prev_mini st.mem (st.brk - 8)))
            (st.brk - 8 + get_size
              (write_block { st with brk := st.brk + round_up size dsize }
                (st.brk - 8) (round_up size dsize) false
                (get_prev_alloc st.mem (st.brk - 8))
                (get_prev_mini st.mem (st.brk - 8))).mem (st.brk - 8)))
          (st.brk - 8)).1) := by
  simp only [extend_heap, mem_sbrk]
  rw [if_neg hok]
  rfl

/-- The failing branch of `extend_heap` leaves the state unchanged. -/
theorem extend_heap_fail (st : AState) (size : Nat)
    (hok : st.brk + round_up size dsize > st.hiLimit) :
    extend_heap st size = (none, st) := by
  simp only [extend_heap, mem_sbrk]
  rw [if_pos hok]

/-- Extending a well-formed heap either fails (state unchanged) or
yields a well-formed heap containing the returned free block, whose
size is at least the rounded request; allocated blocks persist. -/
theorem extend_heap_preserves (st : AState) (size : Nat) (bs : List Nat)
    (paE pmE : Bool) (hwf : Wf st bs paE pmE)
    (hrsz : 16 ≤ round_up size dsize)
    (hrmod : round_up size dsize % 16 = 0) :
    extend_heap st size = (none, st) ∨
    ∃ blk bs' paE' pmE', (extend_heap st size).1 = some blk ∧
      Wf (extend_heap st size).2 bs' paE' pmE' ∧ blk ∈ bs' ∧
      get_alloc (extend_heap st size).2.mem blk = false ∧
      round_up size dsize ≤ get_size (extend_heap st size).2.mem blk ∧
      (extend_heap st size).2.heapStart = st.heapStart ∧
      ∀ x ∈ bs, get_alloc st.mem x = true →
        x ∈ bs' ∧ get_alloc (extend_heap st size).2.mem x = true ∧
        get_size (extend_heap st size).2.mem x = get_size st.mem x := by
  by_cases hok : st.brk + round_up size dsize > st.hiLimit
  · left
    exact extend_heap_fail st size hok
  right
  have hlbB := walkSeg_lb st.mem bs _ _ _ _ _ _ hwf.walk
  have hbrk16 : 16 ≤ st.brk := by
    have := hwf.hs8
    omega
  have hext := extend_heap_eq st size hok
  have hm1 : (write_block { st with brk := st.brk + round_up size dsize }
      (st.brk - 8) (round_up size dsize) false
      (get_prev_alloc st.mem (st.brk - 8))
      (get_prev_mini st.mem (st.brk - 8))).mem (st.brk - 8) =
      pack (round_up size dsize) false (get_prev_alloc st.mem (st.brk - 8))
        (get_prev_mini st.mem (st.brk - 8)) :=
    write_block_read_self _ _ _ _ _ _ hrmod
  have hsz1 : get_size (write_block { st with brk := st.brk + round_up size dsize }
      (st.brk - 8) (round_up size dsize) false
      (get_prev_alloc st.mem (st.brk - 8))
      (get_prev_mini st.mem (st.brk - 8))).mem (st.brk - 8) =
      round_up size dsize :=
    get_size_of_read _ _ _ _ _ _ hm1 hrmod
  rw [hsz1] at hext
  set ST2 := write_epilogue
    (write_block { st with brk := st.brk + round_up size dsize }
      (st.brk - 8) (round_up size dsize) false
      (get_prev_alloc st.mem (st.brk - 8))
      (get_prev_mini st.mem (st.brk - 8)))
    (st.brk - 8 + round_up size dsize) with hST2
  have hST2mem : ST2.mem = wset
      (write_block { st with brk := st.brk + round_up size dsize }
        (st.brk - 8) (round_up size dsize) false
        (get_prev_alloc st.mem (st.brk - 8))
        (get_prev_mini st.mem (st.brk - 8))).mem
      (st.brk - 8 + round_up size dsize) (pack 0 true false false) :=
    write_epilogue_mem _ _
  have hother : ∀ x, x ≠ st.brk - 8 →
      x ≠ st.brk - 8 + round_up size dsize - 8 →
      x ≠ st.brk - 8 + round_up size dsize →
      ST2.mem x = st.mem x := by
    intro x h1 h2 h3
    rw [hST2mem, wset_ne _ _ _ _ h3,
      write_block_read_other _ _ _ _ _ _ _ hrmod h1 h2]
  have hE : ST2.mem (st.brk - 8) =
      pack (round_up size dsize) false (get_prev_alloc st.mem (st.brk - 8))
        (get_prev_mini st.mem (st.brk - 8)) := by
    rw [hST2mem, wset_ne _ _ _ _ (by omega)]
    exact hm1
  have hfoot : ST2.mem (st.brk - 8 + round_up size dsize - 8) =
      pack (round_up size dsize) false (get_prev_alloc st.mem (st.brk - 8))
        (get_prev_mini st.mem (st.brk - 8)) := by
    rw [hST2mem, wset_ne _ _ _ _ (by omega)]
    exact write_block_read_foot _ _ _ _ _ hrmod (by omega)
  have hepi : ST2.mem (st.brk - 8 + round_up size dsize) =
      pack 0 true false false := by
    rw [hST2mem, wset_same]
  have hST2hs : ST2.heapStart = st.heapStart := by
    rw [hST2, write_epilogue_heapStart, write_block_heapStart]
  have hST2brk : ST2.brk = st.brk + round_up size dsize := by
    rw [hST2, write_epilogue_brk, write_block_brk]
  have hST2seg : ST2.segList = st.segList := by
    rw [hST2, write_epilogue_segList, write_block_segList]
  have hEsz : get_size ST2.mem (st.brk - 8) = round_up size dsize :=
    get_size_of_read _ _ _ _ _ _ hE hrmod
  have hpre : PreWf ST2 (st.brk - 8) bs [] paE pmE false false false false := by
    refine ⟨?_, ?_, ?_, ?_, ?_, ?_, ?_, ?_, ?_, ?_, ?_, ?_, ?_, ?_, ?_, ?_⟩
    · rw [hST2hs]
      exact hwf.hs0
    · rw [hST2hs]
      exact hwf.hs8
    · rw [hST2hs]
      exact walkSeg_pres_lt _ _ _ _ _ _ _ _ _ hwf.walk
        (fun c hc => hother c (by omega) (by omega) (by omega))
    · exact get_alloc_of_read _ _ _ _ _ _ hE hrmod
    · rw [hEsz]
      exact hrsz
    · rw [get_prev_alloc_of_read _ _ _ _ _ _ hE hrmod]
      exact hwf.epi_pa
    · rw [get_prev_mini_of_read _ _ _ _ _ _ hE hrmod]
      exact hwf.epi_pm
    · intro _
      rw [hEsz, hfoot, extract_size_pack _ _ _ _ hrmod]
    · rw [hEsz, hST2brk]
      exact ⟨by omega, rfl, rfl⟩
    · rw [hST2brk, show st.brk + round_up size dsize - 8 =
        st.brk - 8 + round_up size dsize from by omega]
      exact get_size_of_read _ _ _ _ _ _ hepi (by omega)
    · rw [hST2brk, show st.brk + round_up size dsize - 8 =
        st.brk - 8 + round_up size dsize from by omega]
      exact get_alloc_of_read _ _ _ _ _ _ hepi (by omega)
    · rw [hST2brk, show st.brk + round_up size dsize - 8 =
        st.brk - 8 + round_up size dsize from by omega]
      exact get_prev_alloc_of_read _ _ _ _ _ _ hepi (by omega)
    · rw [hST2brk, show st.brk + round_up size dsize - 8 =
        st.brk - 8 + round_up size dsize from by omega]
      exact get_prev_mini_of_read _ _ _ _ _ _ hepi (by omega)
    · refine noAdjL_congr st.mem _ bs ?_ hwf.noadj
      intro x hx
      have := hlbB.2 x hx
      exact get_alloc_congr _ _ _
        (hother x (by omega) (by omega) (by omega))
    · exact List.chain'_nil
    · intro k
      rw [hST2seg]
      refine ⟨?_, (hwf.lists k).2⟩
      intro x hx
      obtain ⟨hin, hfx, hcx⟩ := (hwf.lists k).1 x hx
      have := hlbB.2 x hin
      have hcell := hother x (by omega) (by omega) (by omega)
      refine ⟨Or.inl hin, ?_, ?_⟩
      · rw [get_alloc_congr _ _ _ hcell]
        exact hfx
      · rw [get_size_congr _ _ _ hcell]
        exact hcx
  obtain ⟨bs', paE', pmE', hwf', hrmem, hrfree, _, hrsize, hrhs, hrbrk,
    hpers⟩ :=
    coalesce_preserves ST2 (st.brk - 8) bs [] _ _ _ _ _ _ hpre
  rw [hext]
  refine ⟨(coalesce_block ST2 (st.brk - 8)).2, bs', paE', pmE', rfl, hwf',
    hrmem, hrfree, ?_, ?_, ?_⟩
  · rw [hEsz] at hrsize
    exact hrsize
  · rw [hrhs, hST2hs]
  · intro x hx hxal
    have := hlbB.2 x hx
    have hcell := hother x (by omega) (by omega) (by omega)
    have hxal2 : get_alloc ST2.mem x = true := by
      rw [get_alloc_congr _ _ _ hcell]
      exact hxal
    obtain ⟨h1, h2, h3⟩ := hpers x (Or.inl hx) hxal2
    refine ⟨h1, h2, ?_⟩
    rw [h3, get_size_congr _ _ _ hcell]

theorem split_block_brk (st : AState) (b asize : Nat) :
    (split_block st b asize).brk = st.brk := by
  simp only [split_block]
  split
  · rw [write_block_brk, insert_head_brk, write_block_brk, write_block_brk,
      remove_block_brk]
  · rw [write_block_brk, remove_block_brk]

theorem split_block_heapStart (st : AState) (b asize : Nat) :
    (split_block st b asize).heapStart = st.heapStart := by
  simp only [split_block]
  split
  · rw [write_block_heapStart, insert_head_heapStart, write_block_heapStart,
      write_block_heapStart, remove_block_heapStart]
  · rw [write_block_heapStart, remove_block_heapStart]

/-- Frame for the splitting branch of `split_block` when the following
block is allocated: only the block header, the remainder's header and
footer, and the following block's header change. -/
theorem split_block_split_frame (st : AState) (b asize : Nat)
    (h16 : 16 ≤ asize) (hmod : asize % 16 = 0)
    (hsplit : 16 ≤ get_size st.mem b - asize)
    (hTal : get_alloc st.mem (b + get_size st.mem b) = true) :
    ∀ x, x ≠ b → x ≠ b + asize → x ≠ b + get_size st.mem b - 8 →
      x ≠ b + get_size st.mem b →
      (split_block st b asize).mem x = st.mem x := by
  intro x hx1 hx2 hx3 hx4
  have hbsm : get_size st.mem b % 16 = 0 := extract_size_mod _
  have hbs32 : 32 ≤ get_size st.mem b := by omega
  have hssm : (get_size st.mem b - asize) % 16 = 0 := by omega
  unfold split_block
  rw [if_pos (show min_block_size ≤ get_size st.mem b - asize from hsplit)]
  simp only []
  set bs := get_size st.mem b with hbsdef
  set st1 := remove_block st (get_class bs) b with h1def
  have h1m : st1.mem = st.mem := remove_block_mem _ _ _
  rw [h1m]
  set st2 := write_block st1 b asize true (get_prev_alloc st.mem b)
    (get_prev_mini st.mem b) with h2def
  have h2m : st2.mem = wset st.mem b
      (pack asize true (get_prev_alloc st.mem b) (get_prev_mini st.mem b)) := by
    rw [h2def, write_block_mem_alloc, h1m]
  have h2b : get_size st2.mem b = asize := by
    rw [h2m, get_size, wset_same, extract_size_pack _ _ _ _ hmod]
  have hbn : find_next st2.mem b = b + asize := by
    rw [find_next, h2b]
  rw [hbn]
  set st3 := write_block st2 (b + asize) (bs - asize) false true
    (decide (asize = min_block_size)) with h3def
  have h3m : st3.mem = wset
      (wset st2.mem (b + asize)
        (pack (bs - asize) false true (decide (asize = min_block_size))))
      (b + bs - 8)
      (pack (bs - asize) false true (decide (asize = min_block_size))) := by
    rw [h3def, write_block_mem_free _ _ _ _ _ (by omega) hssm]
    have : b + asize + (bs - asize) - 8 = b + bs - 8 := by omega
    rw [this]
  set st4 := insert_head st3 (get_class (bs - asize)) (b + asize) with h4def
  have h4m : st4.mem = st3.mem := insert_head_mem _ _ _
  have h3bn : st3.mem (b + asize) =
      pack (bs - asize) false true (decide (asize = min_block_size)) := by
    rw [h3m, wset_ne _ _ _ _ (by omega), wset_same]
  have h4bn : get_size st4.mem (b + asize) = bs - asize := by
    rw [h4m, get_size, h3bn, extract_size_pack _ _ _ _ hssm]
  have hbn2 : find_next st4.mem (b + asize) = b + bs := by
    rw [find_next, h4bn]
    omega
  rw [hbn2]
  have hT : st4.mem (b + bs) = st.mem (b + bs) := by
    rw [h4m, h3m, wset_ne _ _ _ _ (by omega), wset_ne _ _ _ _ (by omega), h2m,
      wset_ne _ _ _ _ (by omega)]
  have hal : get_alloc st4.mem (b + bs) = true := by
    rw [get_alloc, hT]
    exact hTal
  rw [hal, write_block_read_other_alloc _ _ _ _ _ _ hx4, h4m, h3m,
    wset_ne _ _ _ _ hx3, wset_ne _ _ _ _ hx2, h2m, wset_ne _ _ _ _ hx1]

/-- The remainder's footer after the splitting branch. -/
theorem split_block_split_foot (st : AState) (b asize : Nat)
    (h16 : 16 ≤ asize) (hmod : asize % 16 = 0)
    (hsplit : 16 ≤ get_size st.mem b - asize)
    (hTal : get_alloc st.mem (b + get_size st.mem b) = true) :
    (split_block st b asize).mem (b + get_size st.mem b - 8) =
      pack (get_size st.mem b - asize) false true
        (decide (asize = min_block_size)) := by
  have hbsm : get_size st.mem b % 16 = 0 := extract_size_mod _
  have hbs32 : 32 ≤ get_size st.mem b := by omega
  have hssm : (get_size st.mem b - asize) % 16 = 0 := by omega
  unfold split_block
  rw [if_pos (show min_block_size ≤ get_size st.mem b - asize from hsplit)]
  simp only []
  set bs := get_size st.mem b with hbsdef
  set st1 := remove_block st (get_class bs) b with h1def
  have h1m : st1.mem = st.mem := remove_block_mem _ _ _
  rw [h1m]
  set st2 := write_block st1 b asize true (get_prev_alloc st.mem b)
    (get_prev_mini st.mem b) with h2def
  have h2m : st2.mem = wset st.mem b
      (pack asize true (get_prev_alloc st.mem b) (get_prev_mini st.mem b)) := by
    rw [h2def, write_block_mem_alloc, h1m]
  have h2b : get_size st2.mem b = asize := by
    rw [h2m, get_size, wset_same, extract_size_pack _ _ _ _ hmod]
  have hbn : find_next st2.mem b = b + asize := by
    rw [find_next, h2b]
  rw [hbn]
  set st3 := write_block st2 (b + asize) (bs - asize) false true
    (decide (asize = min_block_size)) with h3def
  have h3m : st3.mem = wset
      (wset st2.mem (b + asize)
        (pack (bs - asize) false true (decide (asize = min_block_size))))
      (b + bs - 8)
      (pack (bs - asize) false true (decide (asize = min_block_size))) := by
    rw [h3def, write_block_mem_free _ _ _ _ _ (by omega) hssm]
    have : b + asize + (bs - asize) - 8 = b + bs - 8 := by omega
    rw [this]
  set st4 := insert_head st3 (get_class (bs - asize)) (b + asize) with h4def
  have h4m : st4.mem = st3.mem := insert_head_mem _ _ _
  have h3bn : st3.mem (b + asize) =
      pack (bs - asize) false true (decide (asize = min_block_size)) := by
    rw [h3m, wset_ne _ _ _ _ (by omega), wset_same]
  have h4bn : get_size st4.mem (b + asize) = bs - asize := by
    rw [h4m, get_size, h3bn, extract_size_pack _ _ _ _ hssm]
  have hbn2 : find_next st4.mem (b + asize) = b + bs := by
    rw [find_next, h4bn]
    omega
  rw [hbn2]
  have hT : st4.mem (b + bs) = st.mem (b + bs) := by
    rw [h4m, h3m, wset_ne _ _ _ _ (by omega), wset_ne _ _ _ _ (by omega), h2m,
      wset_ne _ _ _ _ (by omega)]
  have hal : get_alloc st4.mem (b + bs) = true := by
    rw [get_alloc, hT]
    exact hTal
  rw [hal, write_block_read_other_alloc _ _ _ _ _ _ (by omega), h4m, h3m,
    wset_same]

/-- Frame for the non-splitting branch of `split_block` when the
following block is allocated: only that block's header changes. -/
theorem split_block_nosplit_frame (st : AState) (b asize : Nat)
    (hns : get_size st.mem b - asize < 16)
    (hbs : 16 ≤ get_size st.mem b)
    (hTal : get_alloc st.mem (b + get_size st.mem b) = true) :
    ∀ x, x ≠ b + get_size st.mem b →
      (split_block st b asize).mem x = st.mem x := by
  intro x hx
  have hbsm : get_size st.mem b % 16 = 0 := extract_size_mod _
  unfold split_block
  rw [if_neg (show ¬ min_block_size ≤ get_size st.mem b - asize by
    simp only [min_block_size]; omega)]
  simp only []
  set bs := get_size st.mem b with hbsdef
  set st1 := remove_block st (get_class bs) b with h1def
  have h1m : st1.mem = st.mem := remove_block_mem _ _ _
  rw [h1m]
  have hbn : find_next st.mem b = b + bs := rfl
  rw [hbn]
  have hal : get_alloc st.mem (b + bs) = true := hTal
  rw [hal, write_block_read_other_alloc _ _ _ _ _ _ hx, h1m]

/-- Placing an allocation in a free block of a well-formed heap (mark
allocated, then split) yields a well-formed heap; allocated blocks
persist. -/
theorem malloc_place_preserves (st : AState) (block asize : Nat)
    (bs : List Nat) (paE pmE : Bool) (hwf : Wf st bs paE pmE)
    (hb : block ∈ bs) (hfree : get_alloc st.mem block = false)
    (h16 : 16 ≤ asize) (hmod : asize % 16 = 0)
    (hfit : asize ≤ get_size st.mem block) :
    ∃ bs' paE' pmE', Wf (malloc_place st block asize).2 bs' paE' pmE' ∧
      (malloc_place st block asize).2.heapStart = st.heapStart ∧
      ∀ x ∈ bs, get_alloc st.mem x = true →
        x ∈ bs' ∧ get_alloc (malloc_place st block asize).2.mem x = true ∧
        get_size (malloc_place st block asize).2.mem x = get_size st.mem x := by
  have hbsm : get_size st.mem block % 16 = 0 := extract_size_mod _
  have hmpl : (malloc_place st block asize).2 =
      split_block (write_block st block (get_size st.mem block) true
        (get_prev_alloc st.mem block) (get_prev_mini st.mem block))
      block asize := rfl
  rw [hmpl]
  set ST1 := write_block st block (get_size st.mem block) true
    (get_prev_alloc st.mem block) (get_prev_mini st.mem block) with hST1
  have hS1mem : ST1.mem = wset st.mem block
      (pack (get_size st.mem block) true (get_prev_alloc st.mem block)
        (get_prev_mini st.mem block)) := write_block_mem_alloc _ _ _ _ _
  have hS1b : ST1.mem block = pack (get_size st.mem block) true
      (get_prev_alloc st.mem block) (get_prev_mini st.mem block) := by
    rw [hS1mem]
    exact wset_same _ _ _
  have hS1o : ∀ x, x ≠ block → ST1.mem x = st.mem x := by
    intro x hx
    rw [hS1mem]
    exact wset_ne _ _ _ _ hx
  have hS1sz : get_size ST1.mem block = get_size st.mem block :=
    get_size_of_read _ _ _ _ _ _ hS1b hbsm
  have hS1seg : ST1.segList = st.segList := write_block_segList _ _ _ _ _ _
  have hS1hs : ST1.heapStart = st.heapStart := write_block_heapStart _ _ _ _ _ _
  have hS1brk : ST1.brk = st.brk := write_block_brk _ _ _ _ _ _
  obtain ⟨l1, l2, pa1, pm1, hbseq, hw1, hszw, hbpaw, hbpmw, hbftw, hw2w⟩ :=
    walkSeg_split st.mem block bs _ _ _ _ _ _ hb hwf.walk
  rw [hfree] at hw2w
  have hlb1 := walkSeg_lb st.mem l1 _ _ _ _ _ _ hw1
  have hlb2 := walkSeg_lb st.mem l2 _ _ _ _ _ _ hw2w
  have hchain := List.chain'_append.mp (hbseq ▸ hwf.noadj)
  have hTalst : get_alloc st.mem (block + get_size st.mem block) = true := by
    cases l2 with
    | nil =>
      obtain ⟨hTE, _, _⟩ := hw2w
      rw [hTE]
      exact hwf.epi_alloc
    | cons z l3 =>
      obtain ⟨hz, _⟩ := hw2w
      have := (List.chain'_cons'.mp hchain.2.1).1 z (by simp)
      rw [← hz]
      exact this hfree
  have hTal1 : get_alloc ST1.mem (block + get_size ST1.mem block) = true := by
    rw [hS1sz, get_alloc_congr _ _ _ (hS1o _ (by omega))]
    exact hTalst
  have hS1T : ST1.mem (block + get_size st.mem block) =
      st.mem (block + get_size st.mem block) := hS1o _ (by omega)
  have hbnotin : ∀ y ∈ bs, y = block ∨ y + 16 ≤ block ∨
      block + get_size st.mem block ≤ y := by
    intro y hy
    rw [hbseq] at hy
    rcases List.mem_append.mp hy with h | h
    · have := hlb1.2 y h
      right
      left
      omega
    · rcases List.mem_cons.mp h with hc | h'
      · exact Or.inl hc
      · have := hlb2.2 y h'
        right
        right
        omega
  by_cases hsplit : 16 ≤ get_size st.mem block - asize
  · -- splitting branch
    have hssm : (get_size st.mem block - asize) % 16 = 0 := by omega
    have hsplit1 : 16 ≤ get_size ST1.mem block - asize := by
      rw [hS1sz]
      exact hsplit
    obtain ⟨hm_b, hm_r, hm_T, hseg⟩ :=
      split_block_split_reads ST1 block asize h16 hmod hsplit1
    have hfr := split_block_split_frame ST1 block asize h16 hmod hsplit1 hTal1
    have hft := split_block_split_foot ST1 block asize h16 hmod hsplit1 hTal1
    rw [hS1sz] at hm_r hm_T hseg hfr hft
    rw [hS1T] at hm_T
    rw [get_prev_alloc_of_read _ _ _ _ _ _ hS1b hbsm,
      get_prev_mini_of_read _ _ _ _ _ _ hS1b hbsm] at hm_b
    have hframe : ∀ x, x ≠ block → x ≠ block + asize →
        x ≠ block + get_size st.mem block - 8 →
        x ≠ block + get_size st.mem block →
        (split_block ST1 block asize).mem x = st.mem x := by
      intro x h1 h2 h3 h4
      rw [hfr x h1 h2 h3 h4]
      exact hS1o x h1
    have hbal' : get_alloc (split_block ST1 block asize).mem block = true :=
      get_alloc_of_read _ _ _ _ _ _ hm_b hmod
    have hbsz' : get_size (split_block ST1 block asize).mem block = asize :=
      get_size_of_read _ _ _ _ _ _ hm_b hmod
    have hral : get_alloc (split_block ST1 block asize).mem (block + asize) =
        false := get_alloc_of_read _ _ _ _ _ _ hm_r hssm
    have hrsz : get_size (split_block ST1 block asize).mem (block + asize) =
        get_size st.mem block - asize := get_size_of_read _ _ _ _ _ _ hm_r hssm
    have hTsz' : get_size (split_block ST1 block asize).mem
        (block + get_size st.mem block) =
        get_size st.mem (block + get_size st.mem block) :=
      get_size_of_read _ _ _ _ _ _ hm_T (extract_size_mod _)
    have hTal' : get_alloc (split_block ST1 block asize).mem
        (block + get_size st.mem block) = true := by
      rw [get_alloc_of_read _ _ _ _ _ _ hm_T (extract_size_mod _)]
      exact hTalst
    have hhs' : (split_block ST1 block asize).heapStart = st.heapStart := by
      rw [split_block_heapStart, hS1hs]
    have hbrk' : (split_block ST1 block asize).brk = st.brk := by
      rw [split_block_brk, hS1brk]
    have hw1' : walkSeg (split_block ST1 block asize).mem true false
        st.heapStart l1 block pa1 pm1 :=
      walkSeg_pres_lt _ _ _ _ _ _ _ _ _ hw1
        (fun c hc => hframe c (by omega) (by omega) (by omega) (by omega))
    have hw1B : walkSeg (split_block ST1 block asize).mem true false
        st.heapStart (l1 ++ [block]) (block + asize) true
        (decide (asize = 16)) := by
      refine walkSeg_append _ _ _ _ _ _ _ _ _ _ _ _ hw1' ?_
      refine ⟨rfl, by rw [hbsz']; omega, ?_, ?_, ?_, ?_⟩
      · rw [get_prev_alloc_of_read _ _ _ _ _ _ hm_b hmod]
        exact hbpaw
      · rw [get_prev_mini_of_read _ _ _ _ _ _ hm_b hmod]
        exact hbpmw
      · intro habs
        rw [hbal'] at habs
        exact absurd habs (by simp)
      · rw [hbal', hbsz']
        exact ⟨rfl, rfl, rfl⟩
    have hrest2 : ∀ x ∈ l2, x ≠ block + get_size st.mem block →
        (split_block ST1 block asize).mem x = st.mem x ∧
        (split_block ST1 block asize).mem (x + get_size st.mem x - 8) =
          st.mem (x + get_size st.mem x - 8) := by
      intro x hx hxne
      have hbd := hlb2.2 x hx
      refine ⟨hframe x (by omega) (by omega) (by omega) hxne, ?_⟩
      exact hframe _ (by omega) (by omega) (by omega) (by omega)
    have hEp' : block + get_size st.mem block ≠ st.brk - 8 →
        (split_block ST1 block asize).mem (st.brk - 8) =
        st.mem (st.brk - 8) := by
      intro hne
      have := hlb2.1
      exact hframe _ (by omega) (by omega) (by omega) (Ne.symm hne)
    obtain ⟨paE', pmE', hw2', hE0', hE1', hEpa', hEpm'⟩ := suffix_rebuild
      st.mem (split_block ST1 block asize).mem l2 _ _ paE pmE
      (block + get_size st.mem block) (st.brk - 8) false
      (decide (get_size st.mem block - asize = min_block_size)) hw2w hTalst
      hm_T hrest2 hEp' hwf.epi_size hwf.epi_alloc hwf.epi_pa hwf.epi_pm
    have halloceq2 : ∀ x ∈ l2,
        get_alloc (split_block ST1 block asize).mem x = get_alloc st.mem x := by
      intro x hx
      have hbd := hlb2.2 x hx
      by_cases hxT : x = block + get_size st.mem block
      · rw [hxT, hTal', hTalst]
      · exact get_alloc_congr _ _ _
          (hframe x (by omega) (by omega) (by omega) hxT)
    have halloceq1 : ∀ x ∈ l1,
        get_alloc (split_block ST1 block asize).mem x = get_alloc st.mem x := by
      intro x hx
      have hbd := hlb1.2 x hx
      exact get_alloc_congr _ _ _
        (hframe x (by omega) (by omega) (by omega) (by omega))
    have hadjL1B : noAdjL (split_block ST1 block asize).mem (l1 ++ [block]) := by
      refine List.chain'_append.mpr ⟨?_, List.chain'_singleton _, ?_⟩
      · exact noAdjL_congr st.mem _ l1 halloceq1 hchain.1
      · intro x _ y hy _
        have hy' : block = y := by simpa using hy
        rw [← hy']
        exact hbal'
    have hadj2' : noAdjL (split_block ST1 block asize).mem l2 :=
      noAdjL_congr st.mem _ l2 halloceq2 (List.chain'_cons'.mp hchain.2.1).2
    have hjun1 : ∀ x ∈ (l1 ++ [block]).getLast?,
        get_alloc (split_block ST1 block asize).mem x = false →
        get_alloc (split_block ST1 block asize).mem (block + asize) = true := by
      intro x hx hxf
      have hsome : (l1 ++ [block]).getLast? = some block := by simp
      rw [hsome] at hx
      have hxb : block = x := by simpa using hx
      rw [← hxb, hbal'] at hxf
      exact absurd hxf (by simp)
    have hjun2 : get_alloc (split_block ST1 block asize).mem (block + asize) =
        false → ∀ y ∈ l2.head?,
        get_alloc (split_block ST1 block asize).mem y = true := by
      intro _ y hy
      cases l2 with
      | nil => exact absurd hy (by simp)
      | cons z l3 =>
        obtain ⟨hz, _⟩ := hw2w
        simp only [List.head?_cons, Option.mem_def, Option.some.injEq] at hy
        rw [← hy, hz]
        exact hTal'
    have hentry : ∀ k x,
        x ∈ (remove_block ST1 (get_class (get_size st.mem block))
          block).segList k →
        x ∈ st.segList k ∧ x ≠ block := by
      intro k x hx
      rw [remove_block_segList, hS1seg] at hx
      by_cases hk : k = get_class (get_size st.mem block)
      · rw [if_pos hk] at hx
        refine ⟨hk ▸ mem_of_mem_erase_first _ _ _ hx, ?_⟩
        intro hc
        rw [hc] at hx
        exact not_mem_erase_first_self _ _
          (hwf.lists (get_class (get_size st.mem block))).2 hx
      · rw [if_neg hk] at hx
        refine ⟨hx, ?_⟩
        intro hc
        obtain ⟨_, _, hcx⟩ := (hwf.lists k).1 x hx
        rw [hc] at hcx
        exact hk hcx.symm
    have hRnotbs : block + asize ∉ bs := by
      intro hc
      rcases hbnotin _ hc with h | h | h
      · omega
      · omega
      · omega
    have hlists' : listsOk (split_block ST1 block asize)
        ((l1 ++ [block]) ++ (block + asize) :: l2) := by
      refine lists_rebuild _ (remove_block ST1
          (get_class (get_size st.mem block)) block).segList _
        (get_class (get_size st.mem block - asize)) (block + asize) hseg
        ?_ (List.mem_append_right _ (List.mem_cons_self _ _)) hral
        (by rw [hrsz]) ?_
      · intro k
        constructor
        · intro x hx
          obtain ⟨hxs, hxb⟩ := hentry k x hx
          obtain ⟨hin, hfx, hcx⟩ := (hwf.lists k).1 x hxs
          have hxR : x ≠ block + asize := fun hc => hRnotbs (hc ▸ hin)
          have hxT : x ≠ block + get_size st.mem block := by
            intro hc
            rw [hc, hTalst] at hfx
            exact Bool.noConfusion hfx
          have hxF : x ≠ block + get_size st.mem block - 8 := by
            rcases hbnotin x hin with h | h | h
            · exact absurd h hxb
            · omega
            · omega
          have hcell := hframe x hxb hxR hxF hxT
          have hxbd : x ∈ l1 ∨ x ∈ l2 := by
            rw [hbseq] at hin
            rcases List.mem_append.mp hin with h | h
            · exact Or.inl h
            · rcases List.mem_cons.mp h with hc | h'
              · exact absurd hc hxb
              · exact Or.inr h'
          refine ⟨?_, ?_, ?_⟩
          · rcases hxbd with h | h
            · exact List.mem_append_left _ (List.mem_append_left _ h)
            · exact List.mem_append_right _ (List.mem_cons_of_mem _ h)
          · rw [get_alloc_congr _ _ _ hcell]
            exact hfx
          · rw [get_size_congr _ _ _ hcell]
            exact hcx
        · rw [remove_block_segList, hS1seg]
          by_cases hk : k = get_class (get_size st.mem block)
          · rw [if_pos hk]
            exact erase_first_nodup _ _ (hwf.lists _).2
          · rw [if_neg hk]
            exact (hwf.lists k).2
      · intro hc
        obtain ⟨hxs, _⟩ := hentry _ _ hc
        exact hRnotbs ((hwf.lists _).1 _ hxs).1
    have hwf' : Wf (split_block ST1 block asize)
        ((l1 ++ [block]) ++ (block + asize) :: l2) paE' pmE' := by
      refine wf_assemble _ (l1 ++ [block]) l2 (block + asize) true
        (decide (asize = 16)) paE' pmE' (by rw [hhs']; exact hwf.hs0)
        (by rw [hhs']; exact hwf.hs8) (by rw [hhs']; exact hw1B)
        (by rw [hrsz]; omega) ?_ ?_ ?_ ?_ ?_ ?_ ?_ ?_ hadjL1B hadj2' hjun1
        hjun2 hlists'
      · rw [get_prev_alloc_of_read _ _ _ _ _ _ hm_r hssm]
      · exact get_prev_mini_of_read _ _ _ _ _ _ hm_r hssm
      · intro _ _
        rw [hrsz, show block + asize + (get_size st.mem block - asize) - 8 =
          block + get_size st.mem block - 8 from by omega, hft,
          extract_size_pack _ _ _ _ hssm]
      · rw [hral, hrsz, hbrk', show block + asize +
          (get_size st.mem block - asize) = block + get_size st.mem block
          from by omega]
        exact hw2'
      · rw [hbrk']
        exact hE0'
      · rw [hbrk']
        exact hE1'
      · rw [hbrk']
        exact hEpa'
      · rw [hbrk']
        exact hEpm'
    refine ⟨(l1 ++ [block]) ++ (block + asize) :: l2, paE', pmE', hwf',
      hhs', ?_⟩
    intro x hx hxal
    have hxb : x ≠ block := by
      intro hc
      rw [hc, hfree] at hxal
      exact Bool.noConfusion hxal
    have hxbd : x ∈ l1 ∨ x ∈ l2 := by
      rw [hbseq] at hx
      rcases List.mem_append.mp hx with h | h
      · exact Or.inl h
      · rcases List.mem_cons.mp h with hc | h'
        · exact absurd hc hxb
        · exact Or.inr h'
    refine ⟨?_, ?_, ?_⟩
    · rcases hxbd with h | h
      · exact List.mem_append_left _ (List.mem_append_left _ h)
      · exact List.mem_append_right _ (List.mem_cons_of_mem _ h)
    · by_cases hxT : x = block + get_size st.mem block
      · rw [hxT, hTal']
      · rcases hxbd with h | h
        · have := hlb1.2 x h
          rw [get_alloc_congr _ _ _ (hframe x hxb (by omega) (by omega) hxT)]
          exact hxal
        · have := hlb2.2 x h
          rw [get_alloc_congr _ _ _ (hframe x hxb (by omega) (by omega) hxT)]
          exact hxal
    · by_cases hxT : x = block + get_size st.mem block
      · rw [hxT, hTsz']
      · rcases hxbd with h | h
        · have := hlb1.2 x h
          exact get_size_congr _ _ _
            (hframe x hxb (by omega) (by omega) hxT)
        · have := hlb2.2 x h
          exact get_size_congr _ _ _
            (hframe x hxb (by omega) (by omega) hxT)
  · -- non-splitting branch
    have hns1 : get_size ST1.mem block - asize < 16 := by
      rw [hS1sz]
      omega
    obtain ⟨hm_b0, hm_T, hseg⟩ := split_block_nosplit_reads ST1 block asize
      hns1 (by rw [hS1sz]; omega)
    have hfr := split_block_nosplit_frame ST1 block asize hns1
      (by rw [hS1sz]; omega) hTal1
    rw [hS1sz] at hm_T hseg hfr
    rw [hS1T] at hm_T
    have hm_b : (split_block ST1 block asize).mem block =
        pack (get_size st.mem block) true (get_prev_alloc st.mem block)
          (get_prev_mini st.mem block) := by
      rw [hm_b0]
      exact hS1b
    have hframe : ∀ x, x ≠ block → x ≠ block + get_size st.mem block →
        (split_block ST1 block asize).mem x = st.mem x := by
      intro x h1 h2
      rw [hfr x h2]
      exact hS1o x h1
    have hbal' : get_alloc (split_block ST1 block asize).mem block = true :=
      get_alloc_of_read _ _ _ _ _ _ hm_b hbsm
    have hbsz' : get_size (split_block ST1 block asize).mem block =
        get_size st.mem block := get_size_of_read _ _ _ _ _ _ hm_b hbsm
    have hTsz' : get_size (split_block ST1 block asize).mem
        (block + get_size st.mem block) =
        get_size st.mem (block + get_size st.mem block) :=
      get_size_of_read _ _ _ _ _ _ hm_T (extract_size_mod _)
    have hTal' : get_alloc (split_block ST1 block asize).mem
        (block + get_size st.mem block) = true := by
      rw [get_alloc_of_read _ _ _ _ _ _ hm_T (extract_size_mod _)]
      exact hTalst
    have hhs' : (split_block ST1 block asize).heapStart = st.heapStart := by
      rw [split_block_heapStart, hS1hs]
    have hbrk' : (split_block ST1 block asize).brk = st.brk := by
      rw [split_block_brk, hS1brk]
    have hw1' : walkSeg (split_block ST1 block asize).mem true false
        st.heapStart l1 block pa1 pm1 :=
      walkSeg_pres_lt _ _ _ _ _ _ _ _ _ hw1
        (fun c hc => hframe c (by omega) (by omega))
    have hrest2 : ∀ x ∈ l2, x ≠ block + get_size st.mem block →
        (split_block ST1 block asize).mem x = st.mem x ∧
        (split_block ST1 block asize).mem (x + get_size st.mem x - 8) =
          st.mem (x + get_size st.mem x - 8) := by
      intro x hx hxne
      have hbd := hlb2.2 x hx
      refine ⟨hframe x (by omega) hxne, ?_⟩
      exact hframe _ (by omega) (by omega)
    have hEp' : block + get_size st.mem block ≠ st.brk - 8 →
        (split_block ST1 block asize).mem (st.brk - 8) =
        st.mem (st.brk - 8) := by
      intro hne
      have := hlb2.1
      exact hframe _ (by omega) (Ne.symm hne)
    obtain ⟨paE', pmE', hw2', hE0', hE1', hEpa', hEpm'⟩ := suffix_rebuild
      st.mem (split_block ST1 block asize).mem l2 _ _ paE pmE
      (block + get_size st.mem block) (st.brk - 8) true
      (decide (get_size st.mem block = min_block_size)) hw2w hTalst
      hm_T hrest2 hEp' hwf.epi_size hwf.epi_alloc hwf.epi_pa hwf.epi_pm
    have halloceq : ∀ x, x ≠ block →
        get_alloc (split_block ST1 block asize).mem x = get_alloc st.mem x := by
      intro x hx
      by_cases hxT : x = block + get_size st.mem block
      · rw [hxT, hTal', hTalst]
      · exact get_alloc_congr _ _ _ (hframe x hx hxT)
    have hadj1' : noAdjL (split_block ST1 block asize).mem l1 := by
      refine noAdjL_congr st.mem _ l1 ?_ hchain.1
      intro x hx
      have := hlb1.2 x hx
      exact halloceq x (by omega)
    have hadj2' : noAdjL (split_block ST1 block asize).mem l2 := by
      refine noAdjL_congr st.mem _ l2 ?_ (List.chain'_cons'.mp hchain.2.1).2
      intro x hx
      have := hlb2.2 x hx
      exact halloceq x (by omega)
    have hjun1 : ∀ x ∈ l1.getLast?,
        get_alloc (split_block ST1 block asize).mem x = false →
        get_alloc (split_block ST1 block asize).mem block = true :=
      fun x _ _ => hbal'
    have hjun2 : get_alloc (split_block ST1 block asize).mem block = false →
        ∀ y ∈ l2.head?,
        get_alloc (split_block ST1 block asize).mem y = true := by
      intro habs
      rw [hbal'] at habs
      exact absurd habs (by simp)
    have hentry : ∀ k x,
        x ∈ (remove_block ST1 (get_class (get_size st.mem block))
          block).segList k →
        x ∈ st.segList k ∧ x ≠ block := by
      intro k x hx
      rw [remove_block_segList, hS1seg] at hx
      by_cases hk : k = get_class (get_size st.mem block)
      · rw [if_pos hk] at hx
        refine ⟨hk ▸ mem_of_mem_erase_first _ _ _ hx, ?_⟩
        intro hc
        rw [hc] at hx
        exact not_mem_erase_first_self _ _
          (hwf.lists (get_class (get_size st.mem block))).2 hx
      · rw [if_neg hk] at hx
        refine ⟨hx, ?_⟩
        intro hc
        obtain ⟨_, _, hcx⟩ := (hwf.lists k).1 x hx
        rw [hc] at hcx
        exact hk hcx.symm
    have hlists' : listsOk (split_block ST1 block asize)
        (l1 ++ block :: l2) := by
      intro k
      have hks := congrFun hseg k
      rw [hks]
      constructor
      · intro x hx
        obtain ⟨hxs, hxb⟩ := hentry k x hx
        obtain ⟨hin, hfx, hcx⟩ := (hwf.lists k).1 x hxs
        have hxT : x ≠ block + get_size st.mem block := by
          intro hc
          rw [hc, hTalst] at hfx
          exact Bool.noConfusion hfx
        have hcell := hframe x hxb hxT
        rw [hbseq] at hin
        refine ⟨hin, ?_, ?_⟩
        · rw [get_alloc_congr _ _ _ hcell]
          exact hfx
        · rw [get_size_congr _ _ _ hcell]
          exact hcx
      · rw [remove_block_segList, hS1seg]
        by_cases hk : k = get_class (get_size st.mem block)
        · rw [if_pos hk]
          exact erase_first_nodup _ _ (hwf.lists _).2
        · rw [if_neg hk]
          exact (hwf.lists k).2
    have hwf' : Wf (split_block ST1 block asize) (l1 ++ block :: l2)
        paE' pmE' := by
      refine wf_assemble _ l1 l2 block pa1 pm1 paE' pmE'
        (by rw [hhs']; exact hwf.hs0) (by rw [hhs']; exact hwf.hs8)
        (by rw [hhs']; exact hw1') (by rw [hbsz']; exact hszw)
        ?_ ?_ ?_ ?_ ?_ ?_ ?_ ?_ hadj1' hadj2' hjun1 hjun2 hlists'
      · rw [get_prev_alloc_of_read _ _ _ _ _ _ hm_b hbsm]
        exact hbpaw
      · rw [get_prev_mini_of_read _ _ _ _ _ _ hm_b hbsm]
        exact hbpmw
      · intro habs
        rw [hbal'] at habs
        exact absurd habs (by simp)
      · rw [hbal', hbsz', hbrk']
        exact hw2'
      · rw [hbrk']
        exact hE0'
      · rw [hbrk']
        exact hE1'
      · rw [hbrk']
        exact hEpa'
      · rw [hbrk']
        exact hEpm'
    refine ⟨l1 ++ block :: l2, paE', pmE', hwf', hhs', ?_⟩
    intro x hx hxal
    have hxb : x ≠ block := by
      intro hc
      rw [hc, hfree] at hxal
      exact Bool.noConfusion hxal
    rw [hbseq] at hx
    refine ⟨hx, ?_, ?_⟩
    · rw [halloceq x hxb]
      exact hxal
    · by_cases hxT : x = block + get_size st.mem block
      · rw [hxT, hTsz']
      · exact get_size_congr _ _ _ (hframe x hxb hxT)

/-- Any block returned by the outer loop of `find_fit` (started with no
running best) lies on one of the segregated lists and fits. -/
theorem ff_go_sound (st : AState) (asize : Nat) :
    ∀ rem cls count b, count < 6 →
    ff_go st asize cls rem none count = some b →
    ∃ k, b ∈ st.segList k ∧ asize ≤ get_size st.mem b := by
  intro rem
  induction rem with
  | zero =>
    intro cls count b _ hgo
    exact absurd hgo (by simp [ff_go])
  | succ rem ih =>
    intro cls count b hc hgo
    simp only [ff_go] at hgo
    rw [ff_scan_eq st.mem asize (st.segList cls) none count hc] at hgo
    simp only [] at hgo
    have hcand : ∀ y ∈ cand st.mem asize (st.segList cls),
        y ∈ st.segList cls ∧ asize ≤ get_size st.mem y := by
      intro y hy
      rw [cand, List.mem_filter] at hy
      exact ⟨hy.1, of_decide_eq_true hy.2⟩
    by_cases hearly : 6 - count ≤ (cand st.mem asize (st.segList cls)).length
    · rw [decide_eq_true hearly, if_pos rfl] at hgo
      have hne : (cand st.mem asize (st.segList cls)).take (6 - count) ≠ [] := by
        intro hnil
        have := congrArg List.length hnil
        rw [List.length_take] at this
        simp only [List.length_nil] at this
        omega
      obtain ⟨b', h1, h2, _⟩ := foldl_pick_none st.mem _ hne
      rw [h1] at hgo
      have hbb : b' = b := by
        simpa using hgo
      subst hbb
      have := hcand b' (List.mem_of_mem_take h2)
      exact ⟨cls, this⟩
    · rw [decide_eq_false hearly, if_neg (by simp)] at hgo
      rcases hres : ((cand st.mem asize (st.segList cls)).take
          (6 - count)).foldl (pick st.mem) none with _ | b0
      · rw [hres] at hgo
        have hlen : min (6 - count)
            (cand st.mem asize (st.segList cls)).length =
            (cand st.mem asize (st.segList cls)).length := by omega
        rw [hlen] at hgo
        exact ih (cls + 1) _ b (by omega) hgo
      · rw [hres, ff_go_some] at hgo
        have hbb : b0 = b := by simpa using hgo
        subst hbb
        have hne : (cand st.mem asize (st.segList cls)).take (6 - count) ≠ [] := by
          intro hnil
          rw [hnil] at hres
          exact Option.noConfusion hres
        obtain ⟨b', h1, h2, _⟩ := foldl_pick_none st.mem _ hne
        rw [h1] at hres
        have : b' = b0 := by simpa using hres
        subst this
        have := hcand b' (List.mem_of_mem_take h2)
        exact ⟨cls, this⟩

/-- `find_fit` soundness: a returned block is listed and fits. -/
theorem find_fit_sound (st : AState) (asize b : Nat)
    (h : find_fit st asize = some b) :
    ∃ k, b ∈ st.segList k ∧ asize ≤ get_size st.mem b := by
  exact ff_go_sound st asize _ _ _ b (by omega) h

/-- `round_up` to 16 always produces a multiple of 16 below `2^64`. -/
theorem round_up_16_facts (x : Nat) :
    round_up x 16 % 16 = 0 ∧ round_up x 16 ≤ u64 - 16 := by
  rw [round_up]
  rw [show u64 = 16 * 2 ^ 60 from by norm_num [u64], Nat.mul_mod_mul_left]
  constructor
  · exact Nat.mul_mod_right _ _
  · have : (x + (16 - 1)) % (16 * 2 ^ 60) / 16 % 2 ^ 60 ≤ 2 ^ 60 - 1 := by
      have := Nat.mod_lt ((x + (16 - 1)) % (16 * 2 ^ 60) / 16)
        (show 0 < 2 ^ 60 by norm_num)
      omega
    calc 16 * ((x + (16 - 1)) % (16 * 2 ^ 60) / 16 % 2 ^ 60)
        ≤ 16 * (2 ^ 60 - 1) := by
          exact Nat.mul_le_mul_left _ this
      _ = 16 * 2 ^ 60 - 16 := by norm_num
  
/-- `round_up` to 16 is the identity on multiples of 16 in range. -/
theorem round_up_16_self (x : Nat) (hmod : x % 16 = 0)
    (hub : x ≤ u64 - 16) :
    round_up x 16 = x := by
  rw [round_up]
  have hu : (0:Nat) < u64 := by norm_num [u64]
  have h1 : (x + (16 - 1)) % u64 = x + 15 := by
    apply Nat.mod_eq_of_lt
    have : (16:Nat) ≤ u64 := by norm_num [u64]
    omega
  rw [h1]
  obtain ⟨q, rfl⟩ := Nat.dvd_of_mod_eq_zero hmod
  have h2 : (16 * q + 15) / 16 = q := by omega
  rw [h2]
  apply Nat.mod_eq_of_lt
  have : (16:Nat) ≤ u64 := by norm_num [u64]
  omega

/-- The adjusted size of `malloc` is a multiple of 16, at least 16, and
at most `2^64 - 16`. -/
theorem malloc_asize_facts (n : Nat) :
    16 ≤ malloc_asize n ∧ malloc_asize n % 16 = 0 ∧
      malloc_asize n ≤ u64 - 16 := by
  simp only [malloc_asize]
  obtain ⟨hm, hub⟩ := round_up_16_facts ((n + wsize) % u64)
  by_cases hlt : round_up ((n + wsize) % u64) dsize < min_block_size
  · rw [if_pos hlt]
    refine ⟨le_refl _, by norm_num [min_block_size], ?_⟩
    norm_num [min_block_size, u64]
  · rw [if_neg hlt]
    rw [min_block_size] at hlt
    rw [show dsize = 16 from rfl]
    rw [show dsize = 16 from rfl] at hlt
    exact ⟨by omega, hm, hub⟩

/-- The extension request of `malloc` rounds to itself. -/
theorem malloc_extendsize_eq (n : Nat) :
    round_up (cmax (malloc_asize n) chunksize) dsize =
      cmax (malloc_asize n) chunksize := by
  obtain ⟨h16, hmod, hub⟩ := malloc_asize_facts n
  rw [show dsize = 16 from rfl]
  apply round_up_16_self
  · rw [cmax]
    split
    · exact hmod
    · norm_num [chunksize]
  · rw [cmax]
    split
    · exact hub
    · norm_num [chunksize, u64]

/-- `mm_init` on an uninitialised state: on failure the invariant is
kept (either untouched state or a valid empty heap), on success the
heap is well-formed. -/
theorem mm_init_preserves (st : AState) (h0 : st.heapStart = 0) :
    ((mm_init st).1 = false → AllocInv (mm_init st).2) ∧
    ((mm_init st).1 = true → ∃ bs paE pmE, Wf (mm_init st).2 bs paE pmE) := by
  by_cases hok : st.brk + 2 * wsize > st.hiLimit
  · have hfail : mm_init st = (false, st) := by
      simp only [mm_init, mem_sbrk]
      rw [if_pos hok]
    rw [hfail]
    exact ⟨fun _ => Or.inl h0, fun hc => Bool.noConfusion hc⟩
  · have heq : mm_init st =
        (match extend_heap
          { st with
            mem := wset (wset st.mem st.brk (pack 0 true true false))
              (st.brk + wsize) (pack 0 true true false),
            heapStart := st.brk + wsize,
            segList := fun _ => [],
            brk := st.brk + 2 * wsize } chunksize with
        | (none, st2) => (false, st2)
        | (some _, st2) => (true, st2)) := by
      simp only [mm_init, mem_sbrk]
      rw [if_neg hok]
    set ST1 : AState :=
      { st with
        mem := wset (wset st.mem st.brk (pack 0 true true false))
          (st.brk + wsize) (pack 0 true true false),
        heapStart := st.brk + wsize,
        segList := fun _ => [],
        brk := st.brk + 2 * wsize } with hST1
    have hepiR : ST1.mem (st.brk + wsize) = pack 0 true true false :=
      wset_same _ _ _
    have haddr : ST1.brk - 8 = st.brk + wsize := by
      show st.brk + 2 * wsize - 8 = st.brk + wsize
      simp only [wsize]
      omega
    have hwf1 : Wf ST1 [] true false := by
      refine ⟨?_, ?_, ?_, ?_, ?_, ?_, ?_, ?_, ?_⟩
      · show st.brk + wsize ≠ 0
        simp only [wsize]
        omega
      · show 8 ≤ st.brk + wsize
        simp only [wsize]
        omega
      · exact ⟨by rw [haddr], rfl, rfl⟩
      · rw [haddr]
        exact get_size_of_read _ _ _ _ _ _ hepiR (by norm_num)
      · rw [haddr]
        exact get_alloc_of_read _ _ _ _ _ _ hepiR (by norm_num)
      · rw [haddr]
        exact get_prev_alloc_of_read _ _ _ _ _ _ hepiR (by norm_num)
      · rw [haddr]
        exact get_prev_mini_of_read _ _ _ _ _ _ hepiR (by norm_num)
      · exact List.chain'_nil
      · intro k
        refine ⟨?_, List.nodup_nil⟩
        intro x hx
        exact absurd hx (by simp [hST1])
    have hru : round_up chunksize dsize = 64 := by
      show round_up 64 16 = 64
      exact round_up_16_self 64 (by norm_num) (by norm_num [u64])
    have hext := extend_heap_preserves ST1 chunksize [] true false hwf1
      (by rw [hru]; norm_num) (by rw [hru])
    rcases hE2 : extend_heap ST1 chunksize with ⟨o, st2⟩
    cases o with
    | none =>
      have hred : mm_init st = (false, st2) := by
        rw [heq, hE2]
      rcases hext with hfail2 | ⟨blk, bs', paE', pmE', hsome, _⟩
      · rw [hE2] at hfail2
        have hst2 : st2 = ST1 := by
          simpa using hfail2
        rw [hred, hst2]
        exact ⟨fun _ => Or.inr ⟨[], true, false, hwf1⟩,
          fun hc => Bool.noConfusion hc⟩
      · rw [hE2] at hsome
        exact absurd hsome (by simp)
    | some blk =>
      have hred : mm_init st = (true, st2) := by
        rw [heq, hE2]
      rcases hext with hfail2 | ⟨blk', bs', paE', pmE', hsome, hwf', _⟩
      · rw [hE2] at hfail2
        exact absurd (congrArg Prod.fst hfail2) (by simp)
      · rw [hE2] at hwf'
        rw [hred]
        exact ⟨fun hc => Bool.noConfusion hc, fun _ => ⟨bs', paE', pmE', hwf'⟩⟩

/-- `malloc` on an initialised well-formed heap: the result is
well-formed and allocated blocks persist with their sizes. -/
theorem mm_malloc_master (st : AState) (n : Nat) (bs : List Nat)
    (paE pmE : Bool) (hwf : Wf st bs paE pmE) :
    ∃ bs' paE' pmE', Wf (mm_malloc st n).2 bs' paE' pmE' ∧
      ∀ x ∈ bs, get_alloc st.mem x = true →
        x ∈ bs' ∧ get_alloc (mm_malloc st n).2.mem x = true ∧
        get_size (mm_malloc st n).2.mem x = get_size st.mem x := by
  have h0 := hwf.hs0
  have hmal : mm_malloc st n =
      (if n = 0 then (none, st) else
        match find_fit st (malloc_asize n) with
        | some block => malloc_place st block (malloc_asize n)
        | none =>
          match extend_heap st (cmax (malloc_asize n) chunksize) with
          | (none, st2) => (none, st2)
          | (some block, st2) => malloc_place st2 block (malloc_asize n)) := by
    simp only [mm_malloc]
    rw [if_neg h0]
  by_cases hn : n = 0
  · rw [hmal, if_pos hn]
    exact ⟨bs, paE, pmE, hwf, fun x hx hal => ⟨hx, hal, rfl⟩⟩
  rw [hmal, if_neg hn]
  obtain ⟨ha16, hamod, haub⟩ := malloc_asize_facts n
  rcases hff : find_fit st (malloc_asize n) with _ | blk
  · -- no fit: extend the heap
    have hres := malloc_extendsize_eq n
    have hrsz : 16 ≤ round_up (cmax (malloc_asize n) chunksize) dsize := by
      rw [hres, cmax]
      split
      · omega
      · norm_num [chunksize]
    have hrmod : round_up (cmax (malloc_asize n) chunksize) dsize % 16 = 0 := by
      rw [hres, cmax]
      split
      · exact hamod
      · norm_num [chunksize]
    have hext := extend_heap_preserves st (cmax (malloc_asize n) chunksize)
      bs paE pmE hwf hrsz hrmod
    rcases hE : extend_heap st (cmax (malloc_asize n) chunksize) with ⟨o, st2⟩
    cases o with
    | none =>
      rcases hext with hfail | ⟨blk', bs2, paE2, pmE2, hsome, _⟩
      · rw [hE] at hfail
        have hst2 : st2 = st := by simpa using hfail
        rw [hst2]
        exact ⟨bs, paE, pmE, hwf, fun x hx hal => ⟨hx, hal, rfl⟩⟩
      · rw [hE] at hsome
        exact absurd hsome (by simp)
    | some blk2 =>
      rcases hext with hfail | ⟨blk', bs2, paE2, pmE2, hsome, hwf2, hmem2,
        hfree2, hsize2, hhs2, hpers2⟩
      · rw [hE] at hfail
        exact absurd (congrArg Prod.fst hfail) (by simp)
      · rw [hE] at hsome hwf2 hfree2 hsize2 hhs2 hpers2
        have hblk : blk' = blk2 := by simpa using hsome.symm
        subst hblk
        have hfit2 : malloc_asize n ≤ get_size st2.mem blk' := by
          have hsz' : round_up (cmax (malloc_asize n) chunksize) dsize ≤
              get_size st2.mem blk' := hsize2
          rw [hres] at hsz'
          have hle : malloc_asize n ≤ cmax (malloc_asize n) chunksize := by
            rw [cmax]
            split
            · omega
            · omega
          omega
        obtain ⟨bs', paE', pmE', hwfp, hhsp, hpersp⟩ :=
          malloc_place_preserves st2 blk' (malloc_asize n) bs2 paE2 pmE2
            hwf2 hmem2 hfree2 ha16 hamod hfit2
        refine ⟨bs', paE', pmE', hwfp, ?_⟩
        intro x hx hal
        obtain ⟨h1, h2, h3⟩ := hpers2 x hx hal
        obtain ⟨h4, h5, h6⟩ := hpersp x h1 h2
        exact ⟨h4, h5, by rw [h6, h3]⟩
  · -- a fit was found
    obtain ⟨k, hmemk, hfit⟩ := find_fit_sound st (malloc_asize n) blk hff
    obtain ⟨hinbs, hfreeb, _⟩ := (hwf.lists k).1 blk hmemk
    obtain ⟨bs', paE', pmE', hwfp, hhsp, hpersp⟩ :=
      malloc_place_preserves st blk (malloc_asize n) bs paE pmE hwf hinbs
        hfreeb ha16 hamod hfit
    exact ⟨bs', paE', pmE', hwfp, hpersp⟩

/-- `malloc` preserves the allocator invariant from any state. -/
theorem mm_malloc_inv (st : AState) (n : Nat) (hA : AllocInv st) :
    AllocInv (mm_malloc st n).2 := by
  rcases hA with h0 | ⟨bs, paE, pmE, hwf⟩
  · obtain ⟨hf, ht⟩ := mm_init_preserves st h0
    rcases hini : mm_init st with ⟨ok, stI⟩
    cases ok with
    | false =>
      have hres : mm_malloc st n = (none, stI) := by
        simp only [mm_malloc]
        rw [if_pos h0, hini]
      rw [hres]
      rw [hini] at hf
      exact hf rfl
    | true =>
      rw [hini] at ht
      obtain ⟨bsI, paEI, pmEI, hwfI⟩ := ht rfl
      have hsI0 : stI.heapStart ≠ 0 := hwfI.hs0
      have hswap : mm_malloc st n = mm_malloc stI n := by
        have hL : mm_malloc st n =
            (if n = 0 then (none, stI) else
              match find_fit stI (malloc_asize n) with
              | some block => malloc_place stI block (malloc_asize n)
              | none =>
                match extend_heap stI (cmax (malloc_asize n) chunksize) with
                | (none, st2) => (none, st2)
                | (some block, st2) => malloc_place st2 block
                    (malloc_asize n)) := by
          simp only [mm_malloc]
          rw [if_pos h0, hini]
        have hR : mm_malloc stI n =
            (if n = 0 then (none, stI) else
              match find_fit stI (malloc_asize n) with
              | some block => malloc_place stI block (malloc_asize n)
              | none =>
                match extend_heap stI (cmax (malloc_asize n) chunksize) with
                | (none, st2) => (none, st2)
                | (some block, st2) => malloc_place st2 block
                    (malloc_asize n)) := by
          simp only [mm_malloc]
          rw [if_neg hsI0]
        rw [hL, hR]
      rw [hswap]
      obtain ⟨bs', paE', pmE', hwf', _⟩ :=
        mm_malloc_master stI n bsI paEI pmEI hwfI
      exact Or.inr ⟨bs', paE', pmE', hwf'⟩
  · obtain ⟨bs', paE', pmE', hwf', _⟩ := mm_malloc_master st n bs paE pmE hwf
    exact Or.inr ⟨bs', paE', pmE', hwf'⟩

/-- A pointer accepted by `free`/`realloc`: null, or the payload of an
allocated block of the current heap walk. -/
def validPtr (st : AState) (p : Nat) : Prop :=
  p = 0 ∨ ∃ bs paE pmE, Wf st bs paE pmE ∧ p - 8 ∈ bs ∧
    get_alloc st.mem (p - 8) = true

/-- `free` preserves the allocator invariant on valid pointers. -/
theorem mm_free_inv (st : AState) (p : Nat) (hA : AllocInv st)
    (hp : validPtr st p) : AllocInv (mm_free st p) := by
  by_cases hp0 : p = 0
  · have : mm_free st p = st := by
      simp only [mm_free]
      rw [if_pos hp0]
    rw [this]
    exact hA
  rcases hp with hc | ⟨bs, paE, pmE, hwf, hmem, hal⟩
  · exact absurd hc hp0
  obtain ⟨⟨bs', paE', pmE', hwf'⟩, _⟩ :=
    mm_free_preserves st p bs paE pmE hwf hp0 hmem hal
  exact Or.inr ⟨bs', paE', pmE', hwf'⟩

/-- Well-formedness only depends on the word memory, the lists and the
heap bounds, not on the payload bytes. -/
theorem wf_of_fields (st st' : AState) (hm : st'.mem = st.mem)
    (hsg : st'.segList = st.segList) (hh : st'.heapStart = st.heapStart)
    (hb : st'.brk = st.brk) (bs : List Nat) (paE pmE : Bool)
    (hwf : Wf st bs paE pmE) : Wf st' bs paE pmE := by
  refine ⟨?_, ?_, ?_, ?_, ?_, ?_, ?_, ?_, ?_⟩
  · rw [hh]
    exact hwf.hs0
  · rw [hh]
    exact hwf.hs8
  · rw [hm, hh, hb]
    exact hwf.walk
  · rw [hm, hb]
    exact hwf.epi_size
  · rw [hm, hb]
    exact hwf.epi_alloc
  · rw [hm, hb]
    exact hwf.epi_pa
  · rw [hm, hb]
    exact hwf.epi_pm
  · rw [hm]
    exact hwf.noadj
  · intro k
    rw [congrFun hsg k, hm]
    exact hwf.lists k

/-- `realloc` preserves the allocator invariant on valid pointers. -/
theorem mm_realloc_inv (st : AState) (p size : Nat) (hA : AllocInv st)
    (hp : validPtr st p) : AllocInv (mm_realloc st p size).2 := by
  by_cases hs0 : size = 0
  · have : mm_realloc st p size = (none, mm_free st p) := by
      simp only [mm_realloc]
      rw [if_pos hs0]
    rw [this]
    exact mm_free_inv st p hA hp
  by_cases hp0 : p = 0
  · have : mm_realloc st p size = mm_malloc st size := by
      simp only [mm_realloc]
      rw [if_neg hs0, if_pos hp0]
    rw [this]
    exact mm_malloc_inv st size hA
  rcases hp with hc | ⟨bs, paE, pmE, hwf, hmem, hal⟩
  · exact absurd hc hp0
  have hreq : mm_realloc st p size =
      (match mm_malloc st size with
        | (none, st1) => (none, st1)
        | (some newptr, st1) =>
          (some newptr,
            mm_free (mem_memcpy st1 newptr p
              (if size < get_payload_size st1.mem (payload_to_header p)
               then size
               else get_payload_size st1.mem (payload_to_header p))) p)) := by
    simp only [mm_realloc]
    rw [if_neg hs0, if_neg hp0]
  obtain ⟨bs1, paE1, pmE1, hwf1, hpers⟩ :=
    mm_malloc_master st size bs paE pmE hwf
  rcases hM : mm_malloc st size with ⟨o, st1⟩
  rw [hM] at hwf1 hpers
  cases o with
  | none =>
    rw [hreq, hM]
    exact Or.inr ⟨bs1, paE1, pmE1, hwf1⟩
  | some q =>
    rw [hreq, hM]
    obtain ⟨hmem1, hal1, _⟩ := hpers (p - 8) hmem hal
    have hwf2 : Wf (mem_memcpy st1 q p
        (if size < get_payload_size st1.mem (payload_to_header p)
         then size
         else get_payload_size st1.mem (payload_to_header p)))
        bs1 paE1 pmE1 :=
      wf_of_fields st1 (mem_memcpy st1 q p
        (if size < get_payload_size st1.mem (payload_to_header p)
         then size
         else get_payload_size st1.mem (payload_to_header p)))
        rfl rfl rfl rfl bs1 paE1 pmE1 hwf1
    obtain ⟨⟨bs', paE', pmE', hwf'⟩, _⟩ :=
      mm_free_preserves _ p bs1 paE1 pmE1 hwf2 hp0 hmem1 hal1
    exact Or.inr ⟨bs', paE', pmE', hwf'⟩

/-- `calloc` preserves the allocator invariant. -/
theorem mm_calloc_inv (st : AState) (n s : Nat) (hA : AllocInv st) :
    AllocInv (mm_calloc st n s).2 := by
  by_cases h1 : n = 0
  · have : mm_calloc st n s = (none, st) := by
      simp only [mm_calloc]
      rw [if_pos h1]
    rw [this]
    exact hA
  by_cases h2 : n * s % u64 / n ≠ s
  · have : mm_calloc st n s = (none, st) := by
      simp only [mm_calloc]
      rw [if_neg h1, if_pos h2]
    rw [this]
    exact hA
  have heq : mm_calloc st n s =
      (match mm_malloc st (n * s % u64) with
        | (none, st1) => (none, st1)
        | (some bp, st1) => (some bp, mem_memset st1 bp 0 (n * s % u64))) := by
    simp only [mm_calloc]
    rw [if_neg h1, if_neg h2]
  have hI := mm_malloc_inv st (n * s % u64) hA
  rcases hM : mm_malloc st (n * s % u64) with ⟨o, st1⟩
  rw [hM] at hI
  cases o with
  | none =>
    rw [heq, hM]
    exact hI
  | some bp =>
    rw [heq, hM]
    rcases hI with h0' | ⟨bs, paE, pmE, hwf⟩
    · exact Or.inl h0'
    · exact Or.inr ⟨bs, paE, pmE,
        wf_of_fields st1 (mem_memset st1 bp 0 (n * s % u64))
          rfl rfl rfl rfl bs paE pmE hwf⟩

/-- States reachable through the public allocator API from any
uninitialised start state; `free` and `realloc` are invoked on valid
pointers (null or a currently allocated block), per the C contract. -/
inductive Reachable : AState → Prop where
  | start : ∀ st, st.heapStart = 0 → Reachable st
  | step_malloc : ∀ st n, Reachable st → Reachable (mm_malloc st n).2
  | step_free : ∀ st p, Reachable st → validPtr st p →
      Reachable (mm_free st p)
  | step_realloc : ∀ st p n, Reachable st → validPtr st p →
      Reachable (mm_realloc st p n).2
  | step_calloc : ∀ st n s, Reachable st → Reachable (mm_calloc st n s).2

/-- Every reachable state satisfies the allocator invariant. -/
theorem reachable_inv (st : AState) (h : Reachable st) : AllocInv st := by
  induction h with
  | start st h0 => exact Or.inl h0
  | step_malloc st n _ ih => exact mm_malloc_inv st n ih
  | step_free st p _ hv ih => exact mm_free_inv st p ih hv
  | step_realloc st p n _ hv ih => exact mm_realloc_inv st p n ih hv
  | step_calloc st n s _ ih => exact mm_calloc_inv st n s ih

/-- On a well-formed heap the specification-side walk recovers exactly
the block list of the invariant (given enough fuel). -/
theorem walk_blocks_eq_aux (st : AState) (l : List Nat) :
    ∀ pa pm a pa2 pm2 fuel, l.length < fuel →
    walkSeg st.mem pa pm a l (st.brk - 8) pa2 pm2 →
    get_size st.mem (st.brk - 8) = 0 →
    walk_blocks st fuel a = l := by
  induction l with
  | nil =>
    intro pa pm a pa2 pm2 fuel hf hw hE0
    obtain ⟨rfl, _, _⟩ := hw
    cases fuel with
    | zero => omega
    | succ f =>
      rw [walk_blocks, if_pos hE0]
  | cons x xs ih =>
    intro pa pm a pa2 pm2 fuel hf hw hE0
    obtain ⟨hx, hsz, _, _, _, hrest⟩ := hw
    subst hx
    cases fuel with
    | zero => omega
    | succ f =>
      rw [walk_blocks, if_neg (by omega)]
      have := ih _ _ _ _ _ f (by simp at hf; omega) hrest hE0
      rw [show find_next st.mem x = x + get_size st.mem x from rfl, this]

/-- C1: after every public API call (allocate, free, reallocate,
zeroed_allocate — states reachable through the API from an
uninitialised start, with `free`/`realloc` applied to valid pointers),
no two heap-adjacent blocks are both free: on an initialised heap,
every block `B` of the implicit prologue-to-epilogue walk that is free
is followed by an allocated block (or by the epilogue, whose header
also carries the allocated bit). -/
theorem claim_C1_no_adjacent_free (st : AState) (hr : Reachable st)
    (hinit : st.heapStart ≠ 0) (B : Nat)
    (hB : B ∈ walk_blocks st st.brk st.heapStart)
    (hfree : get_alloc st.mem B = false) :
    get_alloc st.mem (B + get_size st.mem B) = true := by
  rcases reachable_inv st hr with h0 | ⟨bs, paE, pmE, hwf⟩
  · exact absurd h0 hinit
  have hlbB := walkSeg_lb st.mem bs _ _ _ _ _ _ hwf.walk
  have hbrk16 : 16 ≤ st.brk := by
    have := hwf.hs8
    omega
  have hlen : bs.length < st.brk := by
    rcases walkSeg_len st.mem bs _ _ _ _ _ _ hwf.walk with h | h
    · have := hwf.hs8
      omega
    · rw [h]
      simp only [List.length_nil]
      omega
  have hweq : walk_blocks st st.brk st.heapStart = bs :=
    walk_blocks_eq_aux st bs _ _ _ _ _ st.brk hlen hwf.walk hwf.epi_size
  rw [hweq] at hB
  obtain ⟨l1, l2, pa1, pm1, hbseq, hw1, hszw, _, _, _, hw2w⟩ :=
    walkSeg_split st.mem B bs _ _ _ _ _ _ hB hwf.walk
  rw [hfree] at hw2w
  cases l2 with
  | nil =>
    obtain ⟨hTE, _, _⟩ := hw2w
    rw [hTE]
    exact hwf.epi_alloc
  | cons z l3 =>
    obtain ⟨hz, _⟩ := hw2w
    have hchain := List.chain'_append.mp (hbseq ▸ hwf.noadj)
    have := (List.chain'_cons'.mp hchain.2.1).1 z (by simp)
    rw [← hz]
    exact this hfree

/-- Witness: from the pristine start state, one `malloc(24)` leaves an
initialised heap whose walk contains the free remainder block at 56,
and the word after it (the epilogue at 88) is allocated. -/
theorem claim_C1_no_adjacent_free_witness :
    (mm_malloc st0 24).2.heapStart ≠ 0 ∧
    56 ∈ walk_blocks (mm_malloc st0 24).2 (mm_malloc st0 24).2.brk
      (mm_malloc st0 24).2.heapStart ∧
    get_alloc (mm_malloc st0 24).2.mem 56 = false ∧
    get_alloc (mm_malloc st0 24).2.mem
      (56 + get_size (mm_malloc st0 24).2.mem 56) = true :=
  ⟨by decide, by decide, by decide,
    claim_C1_no_adjacent_free (mm_malloc st0 24).2
      (Reachable.step_malloc st0 24 (Reachable.start st0 rfl))
      (by decide) 56 (by decide) (by decide)⟩

/-- C7: on any reachable initialised heap, for every allocated block of
the implicit heap walk with payload pointer `p` and nonzero request
`m`, if `reallocate(p, m)` returns a non-null `q` then the first
`min(old payload size, m)` payload bytes at `q` equal the bytes that
were at `p` before the call — the old payload size being the old block
size minus one header word — and the old block has been freed (its
header's allocated bit is clear afterwards), in every coalescing case
the free can take. -/
theorem claim_C7_realloc (st : AState) (p m q : Nat)
    (hr : Reachable st) (hinit : st.heapStart ≠ 0)
    (hp : p ≠ 0) (hm : m ≠ 0)
    (hmem : p - 8 ∈ walk_blocks st st.brk st.heapStart)
    (hal : get_alloc st.mem (p - 8) = true)
    (hq : (mm_realloc st p m).1 = some q) :
    (∀ i, i < min (get_payload_size st.mem (p - 8)) m →
      (mm_realloc st p m).2.bytes (q + i) = st.bytes (p + i)) ∧
    get_alloc (mm_realloc st p m).2.mem (p - 8) = false := by
  rcases reachable_inv st hr with h0 | ⟨bs, paE, pmE, hwf⟩
  · exact absurd h0 hinit
  have hlen : bs.length < st.brk := by
    rcases walkSeg_len st.mem bs _ _ _ _ _ _ hwf.walk with h | h
    · have := hwf.hs8
      omega
    · rw [h]
      simp only [List.length_nil]
      have := hwf.hs8
      have := (walkSeg_lb st.mem bs _ _ _ _ _ _ hwf.walk).1
      omega
  have hweq : walk_blocks st st.brk st.heapStart = bs :=
    walk_blocks_eq_aux st bs _ _ _ _ _ st.brk hlen hwf.walk hwf.epi_size
  rw [hweq] at hmem
  have hre : mm_realloc st p m =
      (match mm_malloc st m with
        | (none, st1) => (none, st1)
        | (some newptr, st1) =>
          (some newptr,
            mm_free (mem_memcpy st1 newptr p
              (if m < get_payload_size st1.mem (p - 8) then m
               else get_payload_size st1.mem (p - 8))) p)) := by
    simp only [mm_realloc, payload_to_header, wsize]
    rw [if_neg hm, if_neg hp]
  obtain ⟨bs1, paE1, pmE1, hwf1, hpers⟩ := mm_malloc_master st m bs paE pmE hwf
  have hbytes1 : (mm_malloc st m).2.bytes = st.bytes := mm_malloc_bytes st m
  rcases hmal : mm_malloc st m with ⟨qopt, st1⟩
  rw [hmal] at hwf1 hpers hbytes1
  cases qopt with
  | none =>
    rw [hre, hmal] at hq
    have hq2 : (Option.none : Option Nat) = some q := hq
    exact Option.noConfusion hq2
  | some q' =>
    rw [hre, hmal] at hq
    have hq2 : (some q' : Option Nat) = some q := hq
    have hq' : q' = q := by simpa using hq2
    subst hq'
    obtain ⟨hmem1, hal1, hsz1⟩ := hpers (p - 8) hmem hal
    have hb1 : st1.bytes = st.bytes := hbytes1
    have hgps : get_payload_size st1.mem (p - 8) =
        get_payload_size st.mem (p - 8) := by
      rw [get_payload_size, get_payload_size, hsz1]
    have hCge : min (get_payload_size st.mem (p - 8)) m ≤
        (if m < get_payload_size st1.mem (p - 8) then m
         else get_payload_size st1.mem (p - 8)) := by
      rw [hgps]
      split <;> omega
    have hred : (match ((some q' : Option Nat), st1) with
        | (none, st1) => ((none : Option Nat), st1)
        | (some newptr, st1) =>
          (some newptr,
            mm_free (mem_memcpy st1 newptr p
              (if m < get_payload_size st1.mem (p - 8) then m
               else get_payload_size st1.mem (p - 8))) p)) =
        (some q', mm_free (mem_memcpy st1 q' p
          (if m < get_payload_size st1.mem (p - 8) then m
           else get_payload_size st1.mem (p - 8))) p) := rfl
    rw [hre, hmal, hred]
    constructor
    · intro i hi
      have hic : i < (if m < get_payload_size st1.mem (p - 8) then m
          else get_payload_size st1.mem (p - 8)) := lt_of_lt_of_le hi hCge
      rw [mm_free_bytes]
      simp only [mem_memcpy]
      rw [if_pos (by omega)]
      rw [show q' + i - q' = i from by omega]
      rw [hb1]
    · have hwf2 : Wf (mem_memcpy st1 q' p
          (if m < get_payload_size st1.mem (p - 8) then m
           else get_payload_size st1.mem (p - 8))) bs1 paE1 pmE1 :=
        wf_of_fields st1 (mem_memcpy st1 q' p
          (if m < get_payload_size st1.mem (p - 8) then m
           else get_payload_size st1.mem (p - 8)))
          rfl rfl rfl rfl bs1 paE1 pmE1 hwf1
      exact (mm_free_preserves _ p bs1 paE1 pmE1 hwf2 hp hmem1 hal1).2

/-- Witness for C7: from the pristine state, allocate 24 bytes (block
at 24, payload at 32), then reallocate to 64 bytes.  The state is
reachable, the block at 24 is on the walk and allocated, realloc
returns payload 64, the 24 old payload bytes are copied, and the old
block at 24 is freed. -/
theorem claim_C7_realloc_witness :
    ((mm_realloc (mm_malloc st0 24).2 32 64).1 = some 64 ∧
      24 ∈ walk_blocks (mm_malloc st0 24).2 (mm_malloc st0 24).2.brk
        (mm_malloc st0 24).2.heapStart ∧
      get_alloc (mm_malloc st0 24).2.mem 24 = true) ∧
    (∀ i, i < min (get_payload_size (mm_malloc st0 24).2.mem 24) 64 →
      (mm_realloc (mm_malloc st0 24).2 32 64).2.bytes (64 + i) =
        (mm_malloc st0 24).2.bytes (32 + i)) ∧
    get_alloc (mm_realloc (mm_malloc st0 24).2 32 64).2.mem 24 = false := by
  have h := claim_C7_realloc (mm_malloc st0 24).2 32 64 64
    (Reachable.step_malloc st0 24 (Reachable.start st0 rfl))
    (by decide) (by decide) (by decide) (by decide) (by decide) (by decide)
  exact ⟨⟨by decide, by decide, by decide⟩, h.1, h.2⟩
